import Mathlib

/-!
# cartego: tile selection, provider URLs, dedup cache and batch scheduler

A shallow embedding of the Go sources (`cartego.go`, `strategies.go`,
`cartego/coords.go`, `cartego/main.go`) together with theorems about them.
Go `int` values are modelled by `Int`; Go slices by `List`; Go maps by partial
functions from keys to values.
-/

namespace Cartego

/-! ## Data model (`cartego.go`) -/

/-- Go `type Tile struct { X, Y, Zoom int }`. -/
structure Tile where
  X : Int
  Y : Int
  Zoom : Int
deriving DecidableEq, Repr

/-! ## Dedup cache (`cartego/main.go`) -/

/-- A Go `map[int]V`: a key is either absent or bound to a value. -/
abbrev GoMap (V : Type) : Type := Int → Option V

/-- The map returned by `make(map[int]V)`. -/
def GoMap.empty {V : Type} : GoMap V := fun _ => none

/-- The assignment `m[k] = v`. -/
def GoMap.set {V : Type} (m : GoMap V) (k : Int) (v : V) : GoMap V :=
  fun k' => if k' = k then some v else m k'

/-- Go `type cacheLookupTable map[int]map[int]map[int]bool`. -/
abbrev cacheLookupTable : Type := GoMap (GoMap (GoMap Bool))

/-- Go `func (t cacheLookupTable) Add(tile cartego.Tile)`: the two inner maps are
created when missing (a missing key reads as the nil map), then the leaf is set. -/
def cacheLookupTable.Add (t : cacheLookupTable) (tile : Tile) : cacheLookupTable :=
  let t1 : cacheLookupTable :=
    match t tile.Zoom with
    | none => GoMap.set t tile.Zoom GoMap.empty
    | some _ => t
  let mz : GoMap (GoMap Bool) := (t1 tile.Zoom).getD GoMap.empty
  let mz1 : GoMap (GoMap Bool) :=
    match mz tile.X with
    | none => GoMap.set mz tile.X GoMap.empty
    | some _ => mz
  let mx : GoMap Bool := (mz1 tile.X).getD GoMap.empty
  GoMap.set t1 tile.Zoom (GoMap.set mz1 tile.X (GoMap.set mx tile.Y true))

/-- Go `func (t cacheLookupTable) Lookup(tile cartego.Tile) bool`: the comma-ok
reads of the two outer maps, then `m2[tile.Y]`, which is `false` for a missing key. -/
def cacheLookupTable.Lookup (t : cacheLookupTable) (tile : Tile) : Bool :=
  match t tile.Zoom with
  | some m =>
    match m tile.X with
    | some m2 => (m2 tile.Y).getD false
    | none => false
  | none => false

/-- Go `func removeDuplicates(tiles []cartego.Tile) (ret []cartego.Tile)`; the
global `cachedTiles` is the first argument. The loop appends to `ret`. -/
def removeDuplicates (cachedTiles : cacheLookupTable) (tiles : List Tile) : List Tile :=
  tiles.foldl (fun ret t => if !cachedTiles.Lookup t then ret ++ [t] else ret) []

/-! ## Go primitives used by the strategies -/

/-- Go `a % b` on `int`: the remainder of truncated division (sign of `a`). -/
def goMod (a b : Int) : Int := Int.tmod a b

/-- Go slice indexing `xs[k]`: `none` models the run-time panic
"index out of range" for `k < 0` or `k >= len(xs)`. -/
def goIndex {α : Type} (xs : List α) (k : Int) : Option α :=
  if 0 ≤ k then xs[k.toNat]? else none

/-- The verb `%d` of `fmt.Sprintf` on an `int`: decimal, with `-` for negatives. -/
def fmtD (n : Int) : String := toString n

/-- Reduction of a mathematical integer to the two's-complement `int64` range. -/
def wrap64 (n : Int) : Int := (n + 2 ^ 63) % 2 ^ 64 - 2 ^ 63

/-- Go `1 << uint(k)` on `int` for a shift count `k >= 0`. -/
def shl1 (k : Nat) : Int := wrap64 (2 ^ k)

/-- The value of a list of binary digits, most significant first. -/
def binaryValue (ds : List Char) : Nat :=
  ds.foldl (fun acc c => 2 * acc + (if c = '1' then 1 else 0)) 0

/-- The optional sign that `strconv.ParseInt` strips: whether it is `-`, and
the rest of the text. -/
def parseSign (cs : List Char) : Bool × List Char :=
  match cs with
  | '+' :: r => (false, r)
  | '-' :: r => (true, r)
  | r => (false, r)

/-- Go `strconv.ParseInt(s, 2, 64)` with the error result discarded
(`key, _ := ...`): an optional sign, then binary digits. A syntax error gives 0;
a value out of range gives the nearest bound of `int64`. -/
def parseInt2 (s : String) : Int :=
  let neg : Bool := (parseSign s.data).1
  let ds : List Char := (parseSign s.data).2
  if ds = [] ∨ ds.any (fun c => c ≠ '0' ∧ c ≠ '1') then 0
  else
    let un : Int := ((min (binaryValue ds) (2 ^ 64 - 1) : Nat) : Int)
    if neg = false ∧ un ≥ 2 ^ 63 then 2 ^ 63 - 1
    else if neg = true ∧ un > 2 ^ 63 then -(2 ^ 63)
    else if neg = true then -un else un

/-- Go `strconv.FormatInt(k, 4)`: base-4 text, `-` for negatives, `"0"` for 0. -/
def formatInt4 (k : Int) : String :=
  if k < 0 then "-" ++ String.mk (Nat.toDigits 4 k.natAbs)
  else String.mk (Nat.toDigits 4 k.toNat)

/-! ## Provider strategies (`strategies.go`) -/

/-- Go `var osmAlphabet []string`. -/
def osmAlphabet : List String := ["a", "b", "c"]

/-- Go `var googGalileos []string` after `init()`: the loop appends
`galileo[:i+1]` for `i = 0 .. len(galileo)-1`. -/
def googGalileos : List String :=
  let galileo := "Galileo"
  (List.range galileo.length).foldl (fun acc i => acc ++ [galileo.take (i + 1)]) []

/-- Go `type openStreetMaps struct {}`. -/
structure openStreetMaps where
deriving DecidableEq, Repr

/-- Go `type google struct { j int }`. -/
structure google where
  j : Int
deriving DecidableEq, Repr

/-- Go `type bing struct {}`. -/
structure bing where
deriving DecidableEq, Repr

/-- Go `type yahoo struct {}`. -/
structure yahoo where
deriving DecidableEq, Repr

/-- Go `type nokia struct {}`. -/
structure nokia where
deriving DecidableEq, Repr

/-- Go `func (s *openStreetMaps) GetPath(t Tile, i int) string`; `none` is the
panic of `osmAlphabet[i%3]`. -/
def openStreetMaps.GetPath (_s : openStreetMaps) (t : Tile) (i : Int) : Option String :=
  (goIndex osmAlphabet (goMod i 3)).map fun m =>
    "http://" ++ m ++ ".tile.openstreetmap.org/" ++ fmtD t.Zoom ++ "/" ++ fmtD t.X
      ++ "/" ++ fmtD t.Y ++ ".png"

/-- Go `func (s *google) GetPath(t Tile, i int) string`: returns the receiver
after the assignment to `s.j`, and the path (`none` is the panic of the index
into `googGalileos`). -/
def google.GetPath (s : google) (t : Tile) (i : Int) : google × Option String :=
  let s1 : google := if i > 0 then { j := goMod i 2 } else { j := goMod s.j 2 }
  (s1, (goIndex googGalileos (goMod s1.j googGalileos.length)).map fun galileo =>
    "http://khm" ++ fmtD (goMod s1.j 2) ++ ".google.com/kh/v=125&x=" ++ fmtD t.X
      ++ "&y=" ++ fmtD t.Y ++ "&z=" ++ fmtD t.Zoom ++ "&s=" ++ galileo)

/-- Go `func (s *bing) pad(n string, p int) string`. -/
def bing.pad (_s : bing) (n : String) (p : Int) : String :=
  if (n.length : Int) < p then
    String.mk (List.replicate (p - n.length).toNat '0') ++ n
  else n

/-- The loop `for i := t.Zoom; i > 0; i--` of `bing.GetPath`; the first argument
is the current `i`. -/
def bing.quadkeyLoop (t : Tile) : Nat → String → String
  | 0, quadkey => quadkey
  | i + 1, quadkey =>
    let mask := shl1 i
    let q1 := if Int.land t.Y mask ≠ 0 then quadkey ++ "1" else quadkey ++ "0"
    let q2 := if Int.land t.X mask ≠ 0 then q1 ++ "1" else q1 ++ "0"
    bing.quadkeyLoop t i q2

/-- The value `skey` computed by `bing.GetPath`. -/
def bing.skey (s : bing) (t : Tile) : String :=
  let quadkey := bing.quadkeyLoop t t.Zoom.toNat "0"
  let key := parseInt2 quadkey
  s.pad (formatInt4 key) t.Zoom

/-- Go `func (s *bing) GetPath(t Tile, _ int) string`. -/
def bing.GetPath (s : bing) (t : Tile) (_i : Int) : Option String :=
  some ("http://ecn.t3.tiles.virtualearth.net/tiles/a" ++ s.skey t
    ++ ".jpeg?g=915&mkt=en-us&n=z")

/-- Go `func (s *yahoo) GetPath(t Tile, _ int) string`. -/
def yahoo.GetPath (_s : yahoo) (t : Tile) (_i : Int) : Option String :=
  some ("http://4.maptile.lbs.ovi.com/maptiler/v2/maptile/279af375be/satellite.day/"
    ++ fmtD t.Zoom ++ "/" ++ fmtD t.X ++ "/" ++ fmtD t.Y
    ++ "/256/jpg?lg=ENG&token=TrLJuXVK62IQk0vuXFzaig%3D%3D&requestid=yahoo.prod&app_id=eAdkWGYRoc4RfxVo0Z4B")

/-- Go `func (s *nokia) GetPath(t Tile, _ int) string`. -/
def nokia.GetPath (_s : nokia) (t : Tile) (_i : Int) : Option String :=
  some ("http://4.maptile.lbs.ovi.com/maptiler/v2/maptile/4176ef2b30/satellite.day/"
    ++ fmtD t.Zoom ++ "/" ++ fmtD t.X ++ "/" ++ fmtD t.Y
    ++ "/256/png8?token=fee2f2a877fd4a429f17207a57658582&appId=nokiaMaps")

/-- Go `type Strategy interface { GetPath(Tile, int) string }` over its five
implementations; the Google value carries its mutable field. -/
inductive Strategy where
  | OpenStreetMaps (s : openStreetMaps)
  | Google (s : google)
  | Bing (s : bing)
  | Yahoo (s : yahoo)
  | Nokia (s : nokia)
deriving DecidableEq, Repr

/-- Dynamic dispatch of `GetPath`: the strategy after the call and the path. -/
def Strategy.GetPath : Strategy → Tile → Int → Strategy × Option String
  | .OpenStreetMaps s, t, i => (.OpenStreetMaps s, s.GetPath t i)
  | .Google s, t, i => (.Google (s.GetPath t i).1, (s.GetPath t i).2)
  | .Bing s, t, i => (.Bing s, s.GetPath t i)
  | .Yahoo s, t, i => (.Yahoo s, s.GetPath t i)
  | .Nokia s, t, i => (.Nokia s, s.GetPath t i)

/-- The states of the Google strategy reachable from `&google{}` by calls of
`GetPath` with arbitrary arguments. -/
inductive google.Reachable : google → Prop where
  | init : google.Reachable { j := 0 }
  | call (s : google) (t : Tile) (i : Int) :
      google.Reachable s → google.Reachable (s.GetPath t i).1

/-- The paths returned by successive calls `GetPath(t, i)` on one Google value,
for the listed arguments in order. -/
def google.calls (s : google) : List (Tile × Int) → List (Option String)
  | [] => []
  | (t, i) :: rest => (s.GetPath t i).2 :: google.calls (s.GetPath t i).1 rest

/-! ## Quadkey digits (specification side) -/

/-- Bit `j` (0 or 1) of a non-negative integer. -/
def bitOf (a : Int) (j : Nat) : Nat := a.toNat / 2 ^ j % 2

/-- The base-4 digit of level `j`: twice the bit of `y` plus the bit of `x`. -/
def quadDigit (t : Tile) (j : Nat) : Nat := 2 * bitOf t.Y j + bitOf t.X j

/-- The digits of levels `n-1, ..., 0`, highest level first. -/
def quadDigits (t : Tile) : Nat → List Nat
  | 0 => []
  | i + 1 => quadDigit t i :: quadDigits t i

/-- The `len` low base-4 digits of `v`, most significant first. -/
def msd4 : Nat → Nat → List Nat
  | 0, _ => []
  | len + 1, v => msd4 len (v / 4) ++ [v % 4]

/-- The two characters the loop appends at level `j`. -/
def quadBits (t : Tile) : Nat → List Char
  | 0 => []
  | i + 1 => (if bitOf t.Y i = 1 then '1' else '0') :: (if bitOf t.X i = 1 then '1' else '0')
      :: quadBits t i

/-- The value of a list of base-4 digits, most significant first. -/
def ofMsd4 (ds : List Nat) : Nat := ds.foldl (fun a d => 4 * a + d) 0

/-- The strategy values reachable in a run: any value of the four stateless
strategies, and a Google value in a state reachable from `&google{}`. -/
def Strategy.Reachable : Strategy → Prop
  | .Google s => google.Reachable s
  | _ => True

/-- Whether a strategy value is the OpenStreetMaps one. -/
def Strategy.isOpenStreetMaps : Strategy → Bool
  | .OpenStreetMaps _ => true
  | _ => false

/-! ## Batch scheduler (`cartego.go`)

`Download` starts one scheduling goroutine, which starts one `download`
goroutine per tile; the caller consumes the returned channel. The goroutines
are modelled as an interleaving of atomic steps on a shared state: every
channel operation is one step, enabled when the operation does not block. -/

/-- Go `type Image struct`: the tile it was fetched for, and whether `Err` is
nil (then `Buf` and `Type` come from the response). -/
structure Image where
  Tile : Cartego.Tile
  ok : Bool
deriving DecidableEq, Repr

/-- Where a `download` goroutine stands: before `c <- &Image{...}` (the fetch
is in flight), before `done <- true`, or returned. -/
inductive WorkerPc where
  | beforeSend
  | beforeDone
  | exited
deriving DecidableEq, Repr

/-- Where the scheduling goroutine stands: at the head of
`for i, t := range tiles`, at `<-done` in the inner `for`, at the loop test of
`closeWhenDone`, or returned. -/
inductive SchedPc where
  | rangeHead
  | batchWait
  | closeHead
  | finished
deriving DecidableEq, Repr

/-- The shared state of one call of `Download`. -/
structure Sys where
  /-- the strategy value (its receiver state changes for Google) -/
  strategy : Strategy
  pc : SchedPc
  /-- the range index `i` -/
  i : Nat
  num : Int
  numDone : Int
  /-- `exp` and `i` of `closeWhenDone` -/
  exp : Int
  k : Int
  /-- the `download` goroutines started so far; goroutine `j` serves `tiles[j]` -/
  workers : List WorkerPc
  /-- buffer of channel `c`, oldest first -/
  cBuf : List Image
  cClosed : Bool
  /-- number of values buffered in channel `done` -/
  doneBuf : Nat
  doneClosed : Bool
  /-- what the caller has received from the returned channel, in order -/
  received : List Image
  /-- the caller's receive has reported the channel closed and drained -/
  sawClose : Bool
  /-- calls of `time.Sleep(pause)` so far -/
  sleeps : Nat
  /-- a goroutine has panicked (send on or close of a closed channel, index
  out of range in `GetPath`) -/
  panicked : Bool
deriving DecidableEq, Repr

/-- The state when `Download(tiles, strategy)` returns the channel: a nil
strategy is replaced by `OpenStreetMaps`, both channels are empty, and the
scheduling goroutine is at the head of its loop. -/
def Download (strategy : Option Strategy) : Sys :=
  { strategy := strategy.getD (.OpenStreetMaps {})
    pc := .rangeHead, i := 0, num := 0, numDone := 0, exp := 0, k := 0
    workers := [], cBuf := [], cClosed := false, doneBuf := 0, doneClosed := false
    received := [], sawClose := false, sleeps := 0, panicked := false }

/-- The atomic steps. -/
inductive Action where
  /-- the scheduling goroutine runs to its next channel operation -/
  | sched
  /-- goroutine `j`: `http.Get` returns (with or without error) and the image
  is sent on `c` -/
  | workerSend (j : Nat) (ok : Bool)
  /-- goroutine `j`: `done <- true` -/
  | workerDone (j : Nat)
  /-- the caller receives from the returned channel -/
  | consumer
deriving DecidableEq, Repr

/-- One step of the scheduling goroutine (the `go func()` of `Download` with
`closeWhenDone` inlined); `none` when it is blocked on `<-done` or has returned.
A step runs up to and including the next channel operation; `time.Sleep` is
counted in the step of the receive before it, and `close(c); close(done)` is one
step, `done` having no other user once the loop of `closeWhenDone` is over. -/
def schedStep (tiles : List Tile) (batchSize : Int) (s : Sys) : Option Sys :=
  match s.pc with
  | .rangeHead =>
    match tiles[s.i]? with
    | some t =>
      -- go download(strategy.GetPath(t, i), t, c, done); num++
      match (s.strategy.GetPath t s.i).2 with
      | none => some { s with strategy := (s.strategy.GetPath t s.i).1, panicked := true }
      | some _ =>
        let s1 := { s with strategy := (s.strategy.GetPath t s.i).1
                           workers := s.workers ++ [WorkerPc.beforeSend], num := s.num + 1 }
        if s1.num = batchSize then some { s1 with pc := .batchWait }
        else some { s1 with i := s.i + 1 }
    | none =>
      -- closeWhenDone(c, len(tiles)-numDone, done)
      some { s with pc := .closeHead, exp := (tiles.length : Int) - s.numDone, k := 0 }
  | .batchWait =>
    if s.doneBuf = 0 ∧ s.doneClosed = false then none
    else
      -- <-done; num--; numDone++
      let s1 := { s with doneBuf := s.doneBuf - 1, num := s.num - 1, numDone := s.numDone + 1 }
      if s1.numDone = (tiles.length : Int) ∨ s1.num = 0 then
        -- break; if numDone < len(tiles) then time.Sleep(pause); next tile
        if s1.numDone < (tiles.length : Int) then
          some { s1 with sleeps := s.sleeps + 1, pc := .rangeHead, i := s.i + 1 }
        else some { s1 with pc := .rangeHead, i := s.i + 1 }
      else some s1
  | .closeHead =>
    if s.k < s.exp then
      if s.doneBuf = 0 ∧ s.doneClosed = false then none
      else some { s with doneBuf := s.doneBuf - 1, k := s.k + 1 }
    else
      -- close(c); close(done)
      if s.cClosed = true ∨ s.doneClosed = true then some { s with panicked := true }
      else some { s with cClosed := true, doneClosed := true, pc := .finished }
  | .finished => none

/-- One atomic step of the system; `none` when the action is not enabled (the
goroutine does not exist, has returned, or is blocked) or the program has
crashed. Both channels have capacity `len(tiles)`. -/
def step (tiles : List Tile) (batchSize : Int) (a : Action) (s : Sys) : Option Sys :=
  if s.panicked = true then none
  else
    match a with
    | .sched => schedStep tiles batchSize s
    | .workerSend j ok =>
      match s.workers[j]?, tiles[j]? with
      | some .beforeSend, some t =>
        if s.cClosed = true then some { s with panicked := true }
        else if s.cBuf.length < tiles.length then
          some { s with cBuf := s.cBuf ++ [{ Tile := t, ok := ok }]
                        workers := s.workers.set j .beforeDone }
        else none
      | _, _ => none
    | .workerDone j =>
      match s.workers[j]? with
      | some .beforeDone =>
        if s.doneClosed = true then some { s with panicked := true }
        else if s.doneBuf < tiles.length then
          some { s with doneBuf := s.doneBuf + 1, workers := s.workers.set j .exited }
        else none
      | _ => none
    | .consumer =>
      match s.cBuf with
      | img :: rest => some { s with cBuf := rest, received := s.received ++ [img] }
      | [] =>
        if s.cClosed = true ∧ s.sawClose = false then some { s with sawClose := true }
        else none

/-- The state after a sequence of actions, each enabled in turn. -/
def run (tiles : List Tile) (batchSize : Int) : List Action → Sys → Option Sys
  | [], s => some s
  | a :: rest, s => (step tiles batchSize a s).bind (run tiles batchSize rest)
/-! ## Scheduler invariants (specification side) -/

/-- Sum of a weight over the `download` goroutines. -/
def wsum (f : WorkerPc → Int) : List WorkerPc → Int
  | [] => 0
  | w :: ws => f w + wsum f ws

/-- Weight 1 for a goroutine that has returned. -/
def wExited : WorkerPc → Int
  | .exited => 1
  | _ => 0

/-- Weight 1 for a goroutine that has sent its image. -/
def wSent : WorkerPc → Int
  | .beforeSend => 0
  | _ => 1

/-- Steps a goroutine still has to take. -/
def wLeft : WorkerPc → Int
  | .beforeSend => 2
  | .beforeDone => 1
  | .exited => 0

/-- The part of the scheduler invariant that depends on where the scheduling
goroutine stands. -/
def SchedInv (n : Int) (s : Sys) : Prop :=
  match s.pc with
  | .rangeHead => (s.i : Int) ≤ n ∧ (s.workers.length : Int) = s.i ∧ 0 ≤ s.num
      ∧ s.num + s.numDone = s.i ∧ wsum wExited s.workers = s.doneBuf + s.numDone
  | .batchWait => (s.i : Int) < n ∧ (s.workers.length : Int) = s.i + 1 ∧ 1 ≤ s.num
      ∧ s.num + s.numDone = s.i + 1 ∧ wsum wExited s.workers = s.doneBuf + s.numDone
  | .closeHead => (s.workers.length : Int) = n ∧ 0 ≤ s.k ∧ s.k ≤ s.exp
      ∧ s.exp = n - s.numDone ∧ wsum wExited s.workers = s.doneBuf + s.numDone + s.k
  | .finished => (s.workers.length : Int) = n ∧ wsum wExited s.workers = n ∧ s.doneBuf = 0

/-- The invariant of the scheduler: no goroutine has panicked, the channels are
closed exactly when the scheduling goroutine has returned, the images sent so
far come from distinct goroutines that are past their send, and the counters
agree with the goroutines' positions. -/
structure Inv (tiles : List Tile) (s : Sys) : Prop where
  noPanic : s.panicked = false
  strat : s.strategy.Reachable
  cClosed_iff : s.cClosed = true ↔ s.pc = .finished
  doneClosed_iff : s.doneClosed = true ↔ s.pc = .finished
  sawClose : s.sawClose = true → s.cClosed = true ∧ s.cBuf = []
  numDone_nonneg : 0 ≤ s.numDone
  sched : SchedInv tiles.length s
  sentCount : ((s.received ++ s.cBuf).length : Int) = wsum wSent s.workers
  order : ∃ order : List Nat, order.Nodup
    ∧ (∀ j ∈ order, ∃ w, s.workers[j]? = some w ∧ w ≠ .beforeSend)
    ∧ (s.received ++ s.cBuf).map (fun im => some im.Tile) = order.map (fun j => tiles[j]?)

/-- The number of steps the system can still take. -/
def measure (tiles : List Tile) (s : Sys) : Int :=
  (match s.pc with
    | .rangeHead => ((tiles.length : Int) - s.i) + ((tiles.length : Int) - s.numDone) + 2
    | .batchWait => ((tiles.length : Int) - s.i - 1) + ((tiles.length : Int) - s.numDone) + 2
    | .closeHead => (s.exp - s.k) + 1
    | .finished => 0)
  + 2 * ((tiles.length : Int) - s.workers.length) + wsum wLeft s.workers
  + ((tiles.length : Int) - s.received.length) + (if s.sawClose = true then 0 else 1)

/-- The pacing invariant for `batchSize = b >= 1`: the pauses taken so far
account for the full waves before the current one. -/
def PaceInv (n b : Int) (s : Sys) : Prop :=
  match s.pc with
  | .rangeHead => ∃ r : Int, (s.sleeps : Int) * b + r = s.i
      ∧ ((r = s.num ∧ s.num < b ∧ (s.num = 0 → (s.i : Int) < n ∨ n = 0))
          ∨ (r = b ∧ s.num = 0 ∧ (s.i : Int) = n))
  | .batchWait => (s.sleeps : Int) * b + b = s.i + 1
  | _ => (n = 0 ∧ s.sleeps = 0) ∨ ∃ r : Int, 1 ≤ r ∧ r ≤ b ∧ (s.sleeps : Int) * b + r = n
/-- A complete run for two tiles with `batchSize = 1`: two waves of one fetch
(the second fetch fails), one pause between them, then the close and the
caller's three receives. -/
def sampleRun : List Action :=
  [.sched, .workerSend 0 true, .workerDone 0, .sched, .sched, .workerSend 1 false,
   .workerDone 1, .sched, .sched, .sched, .consumer, .consumer, .consumer]

/-- The state at the end of `sampleRun`. -/
def sampleFinal : Sys :=
  { strategy := .OpenStreetMaps {}
    pc := .finished, i := 2, num := 0, numDone := 2, exp := 0, k := 0
    workers := [.exited, .exited], cBuf := [], cClosed := true, doneBuf := 0
    doneClosed := true
    received := [{ Tile := { X := 0, Y := 0, Zoom := 1 }, ok := true },
                 { Tile := { X := 1, Y := 0, Zoom := 1 }, ok := false }]
    sawClose := true, sleeps := 1, panicked := false }

/-! ## Projection engine (`cartego/coords.go`)

The values of `float64` are read in an ordered field `F` with a floor function
(no NaN, no infinities, no negative zero). Every `float64` operation is the
exact operation followed by the rounding `rnd` of the reading; the functions and
the constants of Go's `math` package are parameters of the reading too.
`realMath` below is the reading without rounding, `float64Math` the reading that
rounds to the nearest `float64`. `math.Floor` and `math.Mod` are exact. -/

/-- A reading of `float64` arithmetic: the rounding applied to the result of
every operation and conversion, the constants `math.Pi`, `2*math.Pi` and
`3*math.Pi` (Go evaluates a constant expression exactly and converts it to
`float64` once), and the functions of Go's package `math` that `coords.go`
calls. -/
structure GoMath (F : Type) where
  rnd : F → F
  Pi : F
  TwoPi : F
  ThreePi : F
  Sin : F → F
  Cos : F → F
  Asin : F → F
  Atan2 : F → F → F
  Atanh : F → F
  Exp : F → F
  Log : F → F
  Pow : F → F → F

/-- Go `type Point struct { Lat, Lon float64 }`. -/
structure Point (F : Type) where
  Lat : F
  Lon : F

/-- Go `const R = 6378100`: radius of the earth in meters. -/
def R : Int := 6378100

/-- Go `const TILESIZE = 256`. -/
def TILESIZE : Int := 256

/-- Go `int(x)` for a `float64`: truncation toward zero. -/
def goInt {F : Type} [LinearOrderedField F] [FloorRing F] (x : F) : Int :=
  if 0 ≤ x then ⌊x⌋ else ⌈x⌉

/-- Go `math.Floor(x)`. -/
def goFloor {F : Type} [LinearOrderedField F] [FloorRing F] (x : F) : F := ((⌊x⌋ : Int) : F)

/-- Go `math.Mod(x, y)`: the remainder of the truncated quotient, with the sign
of `x`. -/
def goFmod {F : Type} [LinearOrderedField F] [FloorRing F] (x y : F) : F :=
  x - y * ((goInt (x / y) : Int) : F)

/-- Go `func toRad(deg float64) float64`. -/
def toRad {F : Type} [LinearOrderedField F] (M : GoMath F) (deg : F) : F :=
  M.rnd (M.rnd (deg * M.Pi) / 180)

/-- Go `func toDeg(rad float64) float64`. -/
def toDeg {F : Type} [LinearOrderedField F] (M : GoMath F) (rad : F) : F :=
  M.rnd (M.rnd (rad * 180) / M.Pi)

/-- Go `func latToYPixels(lat float64, zoom int) int`. -/
def latToYPixels {F : Type} [LinearOrderedField F] [FloorRing F] (M : GoMath F)
    (lat : F) (zoom : Int) : Int :=
  let latM := M.Atanh (M.Sin lat)
  let pixY := M.rnd (-(M.rnd (M.rnd (M.rnd (latM * (TILESIZE : F))
        * M.Exp (M.rnd (M.rnd (zoom : F) * M.Log 2))) / M.TwoPi))
    + M.rnd (M.Exp (M.rnd (M.rnd (zoom : F) * M.Log 2)) * (((TILESIZE / 2 : Int)) : F)))
  goInt (goFloor pixY)

/-- Go `func lonToXPixels(lon float64, zoom int) int`. -/
def lonToXPixels {F : Type} [LinearOrderedField F] [FloorRing F] (M : GoMath F)
    (lon : F) (zoom : Int) : Int :=
  let pixX := M.rnd (M.rnd (M.rnd (M.rnd (lon * (TILESIZE : F))
        * M.Exp (M.rnd (M.rnd (zoom : F) * M.Log 2))) / M.TwoPi)
    + M.rnd (M.Exp (M.rnd (M.rnd (zoom : F) * M.Log 2)) * (((TILESIZE / 2 : Int)) : F)))
  goInt (goFloor pixX)

/-- Go `func getMercatorFromGPS(p Point, zoom int) cartego.Tile`. -/
def getMercatorFromGPS {F : Type} [LinearOrderedField F] [FloorRing F] (M : GoMath F)
    (p : Point F) (zoom : Int) : Tile :=
  let pixX := lonToXPixels M (toRad M p.Lon) zoom
  let pixY := latToYPixels M (toRad M p.Lat) zoom
  let maxTile := goInt (M.Pow 2 (M.rnd (zoom : F)))
  let maxPix := maxTile * TILESIZE
  let pixX1 := if pixX < 0 then pixX + maxPix else if pixX > maxPix then pixX - maxPix else pixX
  let tileX := goInt (goFloor (M.rnd (M.rnd (pixX1 : F) / (TILESIZE : F))))
  let tileY := goInt (goFloor (M.rnd (M.rnd (pixY : F) / (TILESIZE : F))))
  let tileX1 := if tileX ≥ maxTile then tileX - maxTile else tileX
  { X := tileX1, Y := tileY, Zoom := zoom }

/-- Go `func translate(lat, lon, d, bearing float64) Point`. -/
def translate {F : Type} [LinearOrderedField F] [FloorRing F] (M : GoMath F)
    (lat lon d bearing : F) : Point F :=
  let lat1 := toRad M lat
  let lon1 := toRad M lon
  let bearing1 := toRad M bearing
  let lat2 := M.Asin (M.rnd (M.rnd (M.Sin lat1 * M.Cos (M.rnd (d / (R : F))))
    + M.rnd (M.rnd (M.Cos lat1 * M.Sin (M.rnd (d / (R : F)))) * M.Cos bearing1)))
  let lon2 := M.rnd (lon1
    + M.Atan2 (M.rnd (M.rnd (M.Sin bearing1 * M.Sin (M.rnd (d / (R : F)))) * M.Cos lat1))
      (M.rnd (M.Cos (M.rnd (d / (R : F))) - M.rnd (M.Sin lat1 * M.Sin lat2))))
  let lon3 := M.rnd (goFmod (M.rnd (lon2 + M.ThreePi)) M.TwoPi - M.Pi)
  { Lat := toDeg M lat2, Lon := toDeg M lon3 }

/-- The values of `for v := lo; v <= hi; v++`, in order. -/
def intRange (lo hi : Int) : List Int :=
  (List.range (hi + 1 - lo).toNat).map fun (k : Nat) => lo + (k : Int)

/-- The tiles appended by the two inner loops of `getTileCoords` for one zoom
level, given the four corner tiles. -/
def zoomGrid (x0 x1 y0 y1 : Tile) (zoom : Int) : List Tile :=
  (intRange x0.X x1.X).flatMap fun i =>
    (intRange y0.Y y1.Y).map fun j => { X := i, Y := j, Zoom := zoom }

/-- Go `func getTileCoords(lat, lon, radius float64, minZoom, maxZoom int)
(ret []cartego.Tile)`. -/
def getTileCoords {F : Type} [LinearOrderedField F] [FloorRing F] (M : GoMath F)
    (lat lon radius : F) (minZoom maxZoom : Int) : List Tile :=
  let north := translate M lat lon radius 0
  let south := translate M lat lon radius 180
  let west := translate M lat lon radius 270
  let east := translate M lat lon radius 90
  (intRange minZoom maxZoom).flatMap fun zoom =>
    let y0 := getMercatorFromGPS M north zoom
    let y1 := getMercatorFromGPS M south zoom
    let x0 := getMercatorFromGPS M west zoom
    let x1 := getMercatorFromGPS M east zoom
    zoomGrid x0 x1 y0 y1 zoom

/-- The reading without rounding: real arithmetic, and Go's `math` functions as
the functions of real analysis: `Atan2(y, x)` is the argument of `x + y i`,
`Atanh(x)` is `log((1 + x) / (1 - x)) / 2`. -/
noncomputable def realMath : GoMath ℝ where
  rnd := fun x => x
  Pi := Real.pi
  TwoPi := 2 * Real.pi
  ThreePi := 3 * Real.pi
  Sin := Real.sin
  Cos := Real.cos
  Asin := Real.arcsin
  Atan2 := fun y x => Complex.arg ⟨x, y⟩
  Atanh := fun x => Real.log ((1 + x) / (1 - x)) / 2
  Exp := Real.exp
  Log := Real.log
  Pow := fun x y => x ^ y

/-- The integer part of `getMercatorFromGPS`: the wrap of the x pixel by
`maxPix = maxTile * TILESIZE`, the division by the tile size, and the correction
of the tile x by `maxTile`. -/
def tileOfPixels (pixX pixY maxTile zoom : Int) : Tile :=
  let maxPix := maxTile * TILESIZE
  let pixX1 := if pixX < 0 then pixX + maxPix else if pixX > maxPix then pixX - maxPix else pixX
  let tileX := pixX1 / 256
  let tileY := pixY / 256
  let tileX1 := if tileX ≥ maxTile then tileX - maxTile else tileX
  { X := tileX1, Y := tileY, Zoom := zoom }

/-! ## Cache scan and file naming (`cartego/main.go`)

File names are sequences of characters; the library functions below only test
for the ASCII characters `.`, `/`, `-`, `+` and the decimal digits. -/

/-- The loop of Go `path.Ext`, `for i := len(path)-1; i >= 0 && path[i] != '/'; i--`:
the first argument is the part of the path not yet visited, read backwards; the
second is the suffix already passed. -/
def extLoop : List Char → List Char → List Char
  | [], _ => []
  | c :: rest, acc =>
    if c = '/' then []
    else if c = '.' then c :: acc
    else extLoop rest (c :: acc)

/-- Go `path.Ext(path)`: the suffix beginning at the final dot of the final
slash-separated element, empty if there is no dot. -/
def pathExt (path : String) : String := String.mk (extLoop path.data.reverse [])

/-- Go `strings.Split(s, sep)` for a separator of one character: the pieces
between the separators, in order; a text without separator is the only piece. -/
def stringsSplit (sep : Char) : List Char → List (List Char)
  | [] => [[]]
  | c :: cs =>
    if c = sep then [] :: stringsSplit sep cs
    else
      match stringsSplit sep cs with
      | p :: ps => (c :: p) :: ps
      | [] => [[c]]

/-- The value of a list of decimal digits, most significant first. -/
def decimalValue (ds : List Char) : Nat :=
  ds.foldl (fun acc c => 10 * acc + (c.toNat - 48)) 0

/-- Go `strconv.Atoi(s)`: an optional sign, then at least one decimal digit and
nothing else; `none` is a non-nil error (syntax, or a value outside `int64`). -/
def Atoi (s : List Char) : Option Int :=
  let neg : Bool := (parseSign s).1
  let ds : List Char := (parseSign s).2
  if ds = [] ∨ ds.any (fun c => !c.isDigit) then none
  else
    let n : Int := if neg = true then -((decimalValue ds : Nat) : Int) else (decimalValue ds : Nat)
    if n < -(2 ^ 63) ∨ n > 2 ^ 63 - 1 then none else some n

/-- The body of the loop `for _, name := range tiles` of `loadCacheFlat`: a name
that is not recognised leaves the index as it is (`continue`). -/
def loadCacheFlatStep (cachedTiles : cacheLookupTable) (name : String) : cacheLookupTable :=
  let ext := pathExt name
  let parts := stringsSplit '-' (name.data.take (name.length - ext.length))
  match parts with
  | [p0, p1, p2] =>
    match Atoi p0 with
    | none => cachedTiles
    | some zoom =>
      match Atoi p1 with
      | none => cachedTiles
      | some x =>
        match Atoi p2 with
        | none => cachedTiles
        | some y => cachedTiles.Add { Zoom := zoom, X := x, Y := y }
  | _ => cachedTiles

/-- Go `func loadCacheFlat() error`: the first argument is what `os.Open` and
`Readdirnames(-1)` give for the download directory (`none` when either fails),
the second the global `cachedTiles`. The result is `none` when an error is
returned and otherwise the index after the scan (the returned error is nil). -/
def loadCacheFlat (dir : Option (List String)) (cachedTiles : cacheLookupTable) :
    Option cacheLookupTable :=
  match dir with
  | none => none
  | some tiles => some (tiles.foldl loadCacheFlatStep cachedTiles)

/-- The `switch image.Type` of `download` in `main.go`: the extension of the
file to write. -/
def download.ext (typ : String) : String :=
  if typ = "image/png" then ".png"
  else if typ = "image/jpeg" then ".jpg"
  else ""

/-- The file name `fname` of `download` in `main.go`:
`fmt.Sprintf("%d-%d-%d", image.Tile.Zoom, image.Tile.X, image.Tile.Y)+ext`. -/
def download.fname (tile : Tile) (ext : String) : String :=
  fmtD tile.Zoom ++ "-" ++ fmtD tile.X ++ "-" ++ fmtD tile.Y ++ ext

/-- What one turn of the loop of `loadCacheFlat` reads from a name, with the
functions of the scan: `path.Ext`, `strings.Split` and `strconv.Atoi`. -/
def NameDenotes (name : String) (t : Tile) : Prop :=
  ∃ p0 p1 p2 : List Char,
    stringsSplit '-' (name.data.take (name.length - (pathExt name).length)) = [p0, p1, p2]
    ∧ Atoi p0 = some t.Zoom ∧ Atoi p1 = some t.X ∧ Atoi p2 = some t.Y

/-! ### What a flat cache name denotes, in the words of the specification

The three predicates below do not use `pathExt`, `stringsSplit` or `Atoi`: they
describe the extension, the three parts and the decimal numerals by the shape of
the text. -/

/-- Spec of `path.Ext`: the name is `stem ++ ext`, where `ext` is the suffix
beginning at the final dot of the final slash-separated element, and is empty if
that element has no dot. -/
def ExtSplit (name stem ext : List Char) : Prop :=
  name = stem ++ ext
  ∧ ((∃ e : List Char, ext = '.' :: e ∧ '.' ∉ e ∧ '/' ∉ e)
    ∨ (ext = [] ∧ ∀ a b : List Char, name = a ++ '.' :: b → '/' ∈ b))

/-- Spec of a decimal numeral of an `int`: an optional sign `+` or `-`, then at
least one decimal digit; the value is given by positional notation
(`Nat.ofDigits`, least significant digit first) and lies in the range of
`int64`. -/
def IsDecimalOf (s : List Char) (n : Int) : Prop :=
  ∃ (sign : List Char) (ds : List Nat),
    (sign = [] ∨ sign = ['+'] ∨ sign = ['-']) ∧ ds ≠ [] ∧ (∀ d ∈ ds, d < 10)
    ∧ s = sign ++ ds.map Nat.digitChar
    ∧ n = (if sign = ['-'] then -((Nat.ofDigits 10 ds.reverse : Nat) : Int)
        else ((Nat.ofDigits 10 ds.reverse : Nat) : Int))
    ∧ -(2 ^ 63) ≤ n ∧ n < 2 ^ 63

/-- Spec: the name, after removing its extension, consists of exactly three
parts separated by `-`, and the parts are decimal numerals of the zoom, the x
and the y of the tile. -/
def DenotesTile (name : String) (t : Tile) : Prop :=
  ∃ stem ext p0 p1 p2 : List Char,
    ExtSplit name.data stem ext
    ∧ stem = p0 ++ '-' :: (p1 ++ '-' :: p2)
    ∧ '-' ∉ p0 ∧ '-' ∉ p1 ∧ '-' ∉ p2
    ∧ IsDecimalOf p0 t.Zoom ∧ IsDecimalOf p1 t.X ∧ IsDecimalOf p2 t.Y

/-! ### The `float64` reading

A finite `float64` other than zero is `m * 2 ^ e` with an integer `m`,
`2 ^ 52 <= |m| < 2 ^ 53`. The exponent is not bounded here: overflow and
subnormal numbers are outside this reading. -/

/-- Rounding of a number to the nearest integer, a tie going to the even one. -/
def roundEven {F : Type} [LinearOrderedField F] [FloorRing F] (q : F) : Int :=
  if q - (⌊q⌋ : Int) < 1 / 2 then ⌊q⌋
  else if 1 / 2 < q - (⌊q⌋ : Int) then ⌊q⌋ + 1
  else if ⌊q⌋ % 2 = 0 then ⌊q⌋ else ⌊q⌋ + 1

/-- The `float64` nearest to a number (IEEE 754 round to nearest, ties to even):
with `2 ^ e <= |x| < 2 ^ (e + 1)`, the number is rounded to a multiple of
`2 ^ (e - 52)`. -/
def float64Round {F : Type} [LinearOrderedField F] [FloorRing F] (x : F) : F :=
  if x = 0 then 0
  else (roundEven (x / (2 : F) ^ (Int.log 2 |x| - 52)) : F) * (2 : F) ^ (Int.log 2 |x| - 52)

/-- The reading that rounds to the nearest `float64`: every operation, constant
and function of `math` returns the `float64` nearest to the exact result. -/
noncomputable def float64Math : GoMath ℝ where
  rnd := float64Round
  Pi := float64Round Real.pi
  TwoPi := float64Round (2 * Real.pi)
  ThreePi := float64Round (3 * Real.pi)
  Sin := fun x => float64Round (Real.sin x)
  Cos := fun x => float64Round (Real.cos x)
  Asin := fun x => float64Round (Real.arcsin x)
  Atan2 := fun y x => float64Round (Complex.arg ⟨x, y⟩)
  Atanh := fun x => float64Round (Real.log ((1 + x) / (1 - x)) / 2)
  Exp := fun x => float64Round (Real.exp x)
  Log := fun x => float64Round (Real.log x)
  Pow := fun x y => float64Round (x ^ y)

/-- A reading of the operations that `getMercatorFromGPS` uses is accurate to
the relative error `ε` when every rounding, constant and function is within
`ε` of the exact value, relative to it, and `math.Pow(2, float64(n))` is the
exact power of two for `0 <= n <= 1023`. -/
def Accurate (ε : ℝ) (M : GoMath ℝ) : Prop :=
  (∀ x : ℝ, |M.rnd x - x| ≤ ε * |x|)
  ∧ |M.Pi - Real.pi| ≤ ε * Real.pi
  ∧ |M.TwoPi - 2 * Real.pi| ≤ ε * (2 * Real.pi)
  ∧ (∀ x : ℝ, |M.Sin x - Real.sin x| ≤ ε * |Real.sin x|)
  ∧ (∀ x : ℝ, |M.Atanh x - Real.log ((1 + x) / (1 - x)) / 2|
      ≤ ε * |Real.log ((1 + x) / (1 - x)) / 2|)
  ∧ (∀ x : ℝ, |M.Exp x - Real.exp x| ≤ ε * Real.exp x)
  ∧ |M.Log 2 - Real.log 2| ≤ ε * Real.log 2
  ∧ (∀ n : Nat, n ≤ 1023 → M.Pow 2 (M.rnd ((n : Int) : ℝ)) = (2 : ℝ) ^ n)

/-! ## Theorems -/

/-- The loop of `removeDuplicates`, started from any accumulator, appends the
uncached tiles of its input in order. -/
theorem removeDuplicates_foldl (c : cacheLookupTable) (tiles acc : List Tile) :
    tiles.foldl (fun ret t => if !c.Lookup t then ret ++ [t] else ret) acc
      = acc ++ tiles.filter (fun t => !c.Lookup t) := by
  induction tiles generalizing acc with
  | nil => simp
  | cons t ts ih =>
    simp only [List.foldl_cons, ih, List.filter_cons]
    cases h : c.Lookup t <;> simp

/-- C1: `removeDuplicates` returns the input list with exactly the tiles whose
`Lookup` is true removed: it is the order-preserving filter of the input, every
returned tile has `Lookup` false, every input tile with `Lookup` false keeps its
multiplicity, and the result is a subsequence of the input. -/
theorem removeDuplicates_spec (c : cacheLookupTable) (tiles : List Tile) :
    removeDuplicates c tiles = tiles.filter (fun t => !c.Lookup t)
    ∧ (∀ t ∈ removeDuplicates c tiles, c.Lookup t = false)
    ∧ (∀ t, c.Lookup t = false → (removeDuplicates c tiles).count t = tiles.count t)
    ∧ (removeDuplicates c tiles).Sublist tiles := by
  have h : removeDuplicates c tiles = tiles.filter (fun t => !c.Lookup t) := by
    unfold removeDuplicates
    rw [removeDuplicates_foldl]
    simp
  refine ⟨h, ?_, ?_, ?_⟩
  · intro t ht
    rw [h, List.mem_filter] at ht
    simpa using ht.2
  · intro t ht
    rw [h, List.count_filter]
    simp [ht]
  · rw [h]
    exact List.filter_sublist tiles

/-! ### Bing quadkey -/

/-- For a shift count below 63 the mask `1 << k` is `2 ^ k`: no wrap in `int64`. -/
theorem shl1_eq (j : Nat) (hj : j < 63) : shl1 j = ((2 ^ j : Nat) : Int) := by
  have h1 : (2:Int) ^ j < 2 ^ 63 := by
    have : (2:Nat) ^ j < 2 ^ 63 := Nat.pow_lt_pow_right (by norm_num) hj
    exact_mod_cast this
  have h0 : (0:Int) < 2 ^ j := by positivity
  unfold shl1 wrap64
  rw [Int.emod_eq_of_lt (by linarith) (by linarith)]
  push_cast
  ring

/-- The test `a & mask != 0` of the loop reads bit `j` of a non-negative `a`. -/
theorem land_shl1_ne_zero (a : Int) (ha : 0 ≤ a) (j : Nat) (hj : j < 63) :
    (Int.land a (shl1 j) ≠ 0) ↔ bitOf a j = 1 := by
  obtain ⟨n, rfl⟩ := Int.eq_ofNat_of_zero_le ha
  rw [shl1_eq j hj]
  have h : Int.land (n : Int) ((2 ^ j : Nat) : Int) = ((n &&& 2 ^ j : Nat) : Int) := rfl
  rw [h, Nat.and_two_pow, bitOf, Int.toNat_ofNat]
  have hp : 0 < 2 ^ j := by positivity
  rw [Nat.testBit_to_div_mod]
  by_cases hb : n / 2 ^ j % 2 = 1
  · simp [hb]
  · simp [hb]

/-- A bit is 0 or 1. -/
theorem bitOf_lt (a : Int) (j : Nat) : bitOf a j < 2 := by
  unfold bitOf; omega

/-- For at most 63 levels and non-negative indices, the loop appends the bit
characters of `quadBits` to the text it starts from. -/
theorem quadkeyLoop_data (t : Tile) (hx : 0 ≤ t.X) (hy : 0 ≤ t.Y) :
    ∀ (n : Nat) (q : String), n ≤ 63 → (bing.quadkeyLoop t n q).data = q.data ++ quadBits t n := by
  intro n
  induction n with
  | zero => intro q _; simp [bing.quadkeyLoop, quadBits]
  | succ i ih =>
    intro q hn
    have hi : i < 63 := by omega
    simp only [bing.quadkeyLoop, quadBits]
    rw [ih _ (by omega)]
    by_cases h1 : bitOf t.Y i = 1 <;> by_cases h2 : bitOf t.X i = 1 <;>
      simp [land_shl1_ne_zero _ hy i hi, land_shl1_ne_zero _ hx i hi, h1, h2, String.data_append]

/-- The loop only appends the characters `0` and `1`. -/
theorem quadBits_binary (t : Tile) (n : Nat) :
    ∀ c ∈ quadBits t n, c = '0' ∨ c = '1' := by
  induction n with
  | zero => simp [quadBits]
  | succ i ih =>
    intro c hc
    simp only [quadBits, List.mem_cons] at hc
    rcases hc with h | h | h
    · split at h <;> simp [h]
    · split at h <;> simp [h]
    · exact ih c h

/-- Reading the bit characters in base 2 is reading the digits in base 4. -/
theorem quadBits_fold (t : Tile) (n : Nat) : ∀ acc : Nat,
    (quadBits t n).foldl (fun acc c => 2 * acc + (if c = '1' then 1 else 0)) acc
      = (quadDigits t n).foldl (fun a d => 4 * a + d) acc := by
  induction n with
  | zero => intro acc; simp [quadBits, quadDigits]
  | succ i ih =>
    intro acc
    simp only [quadBits, quadDigits, List.foldl_cons]
    rw [ih]
    congr 1
    have hy := bitOf_lt t.Y i
    have hx := bitOf_lt t.X i
    unfold quadDigit
    by_cases h1 : bitOf t.Y i = 1 <;> by_cases h2 : bitOf t.X i = 1 <;> simp [h1, h2] <;> omega

/-- A quadkey digit is below 4. -/
theorem quadDigit_lt (t : Tile) (j : Nat) : quadDigit t j < 4 := by
  have hy := bitOf_lt t.Y j
  have hx := bitOf_lt t.X j
  unfold quadDigit; omega

/-- There is one quadkey digit per level. -/
theorem quadDigits_length (t : Tile) (n : Nat) : (quadDigits t n).length = n := by
  induction n with
  | zero => rfl
  | succ i ih => simp [quadDigits, ih]

/-- All quadkey digits are below 4. -/
theorem quadDigits_lt (t : Tile) (n : Nat) : ∀ d ∈ quadDigits t n, d < 4 := by
  induction n with
  | zero => simp [quadDigits]
  | succ i ih =>
    intro d hd
    simp only [quadDigits, List.mem_cons] at hd
    rcases hd with h | h
    · rw [h]; exact quadDigit_lt t i
    · exact ih d h

/-- The digits listed by position from the left. -/
theorem quadDigits_eq_map (t : Tile) (n : Nat) :
    quadDigits t n = (List.range n).map (fun k => quadDigit t (n - 1 - k)) := by
  induction n with
  | zero => rfl
  | succ i ih =>
    rw [quadDigits, List.range_succ_eq_map, List.map_cons, List.map_map, ih]
    simp only [Nat.add_sub_cancel, Nat.sub_zero, List.cons.injEq, true_and]
    apply List.map_congr_left
    intro k hk
    have := List.mem_range.mp hk
    simp only [Function.comp]
    congr 1
    omega

/-- Appending a digit multiplies the value by 4 and adds the digit. -/
theorem ofMsd4_append (ds : List Nat) (d : Nat) : ofMsd4 (ds ++ [d]) = 4 * ofMsd4 ds + d := by
  simp [ofMsd4, List.foldl_append]

/-- The digits of the value of a digit list are that list, and the value is below
`4 ^ length`. -/
theorem msd4_ofMsd4 (ds : List Nat) (h : ∀ d ∈ ds, d < 4) :
    msd4 ds.length (ofMsd4 ds) = ds ∧ ofMsd4 ds < 4 ^ ds.length := by
  induction ds using List.reverseRecOn with
  | nil => simp [msd4, ofMsd4]
  | append_singleton init d ih =>
    have hd : d < 4 := h d (by simp)
    have hi := ih (fun x hx => h x (by simp [hx]))
    rw [ofMsd4_append, List.length_append, List.length_singleton, msd4]
    have e1 : (4 * ofMsd4 init + d) / 4 = ofMsd4 init := by omega
    have e2 : (4 * ofMsd4 init + d) % 4 = d := by omega
    rw [e1, e2, hi.1]
    refine ⟨rfl, ?_⟩
    rw [pow_succ]
    omega

/-- The digits of 0 are zeros. -/
theorem msd4_zero (len : Nat) : msd4 len 0 = List.replicate len 0 := by
  induction len with
  | zero => rfl
  | succ k ih =>
    rw [msd4, Nat.zero_div, ih]
    simp [List.replicate_succ']

/-- With enough fuel, the digits printed by `Nat.toDigitsCore 4` for a value below
`4 ^ (len + 1)`, left-padded with zeros, are its `len + 1` low digits. -/
theorem toDigitsCore_pad (len : Nat) : ∀ (f v : Nat) (acc : List Char),
    v < 4 ^ (len + 1) → v < f →
    ∃ z, z + (Nat.toDigitsCore 4 f v acc).length = len + 1 + acc.length ∧
      List.replicate z '0' ++ Nat.toDigitsCore 4 f v acc
        = (msd4 (len + 1) v).map Nat.digitChar ++ acc := by
  induction len with
  | zero =>
    intro f v acc hv hf
    obtain ⟨f', rfl⟩ : ∃ f', f = f' + 1 := ⟨f - 1, by omega⟩
    have h0 : v / 4 = 0 := by omega
    refine ⟨0, ?_⟩
    simp [Nat.toDigitsCore, h0, msd4]
    omega
  | succ k ih =>
    intro f v acc hv hf
    obtain ⟨f', rfl⟩ : ∃ f', f = f' + 1 := ⟨f - 1, by omega⟩
    by_cases h0 : v / 4 = 0
    · refine ⟨k + 1, ?_⟩
      have hz : List.map Nat.digitChar (List.replicate (k + 1) 0) = List.replicate (k + 1) '0' := by
        rw [List.map_replicate]; rfl
      simp only [Nat.toDigitsCore, h0, if_true, List.length_cons]
      rw [msd4, h0, msd4_zero, List.map_append, hz]
      constructor
      · omega
      · simp
    · have hv' : v / 4 < 4 ^ (k + 1) := by
        rw [pow_succ] at hv; omega
      obtain ⟨z, hz1, hz2⟩ := ih f' (v / 4) (Nat.digitChar (v % 4) :: acc) hv' (by omega)
      refine ⟨z, ?_⟩
      simp only [Nat.toDigitsCore, h0, if_false]
      constructor
      · rw [hz1]; simp; omega
      · rw [hz2]
        conv_rhs => rw [msd4]
        simp

/-- Padding the base-4 text of `v < 4 ^ len` to `len >= 1` characters gives its
`len` digits. -/
theorem pad_toDigits (s : bing) (len v : Nat) (hlen : 1 ≤ len) (hv : v < 4 ^ len) :
    (s.pad (String.mk (Nat.toDigits 4 v)) (len : Int)).data = (msd4 len v).map Nat.digitChar := by
  obtain ⟨k, rfl⟩ : ∃ k, len = k + 1 := ⟨len - 1, by omega⟩
  obtain ⟨z, hz1, hz2⟩ := toDigitsCore_pad k (v + 1) v [] hv (by omega)
  simp only [List.length_nil, Nat.add_zero, List.append_nil] at hz1 hz2
  unfold bing.pad Nat.toDigits
  rw [← hz2]
  simp only [String.length_mk]
  split
  · rename_i h
    simp only [String.data_append]
    congr 2
    omega
  · rename_i h
    have : z = 0 := by omega
    simp [this]

/-- The characters of `skey` are the quadkey digits, highest level first. -/
theorem skey_data (s : bing) (t : Tile) (hz1 : 1 ≤ t.Zoom) (hz : t.Zoom ≤ 23)
    (hx : 0 ≤ t.X) (hy : 0 ≤ t.Y) :
    (s.skey t).data = (quadDigits t t.Zoom.toNat).map Nat.digitChar := by
  obtain ⟨n, hn⟩ := Int.eq_ofNat_of_zero_le (by omega : 0 ≤ t.Zoom)
  have hn1 : 1 ≤ n := by omega
  have hn23 : n ≤ 23 := by omega
  have hdata : (bing.quadkeyLoop t n "0").data = '0' :: quadBits t n := by
    rw [quadkeyLoop_data t hx hy n "0" (by omega)]; rfl
  have hD := msd4_ofMsd4 (quadDigits t n) (quadDigits_lt t n)
  rw [quadDigits_length] at hD
  have hlt : ofMsd4 (quadDigits t n) < 2 ^ 63 := by
    have h4 : (4:Nat) ^ n ≤ 4 ^ 23 := Nat.pow_le_pow_right (by norm_num) hn23
    have : (4:Nat) ^ 23 < 2 ^ 63 := by norm_num
    omega
  have hbv : binaryValue ('0' :: quadBits t n) = ofMsd4 (quadDigits t n) := by
    unfold binaryValue ofMsd4
    rw [List.foldl_cons]
    exact quadBits_fold t n _
  have hkey : parseInt2 (bing.quadkeyLoop t n "0") = ((ofMsd4 (quadDigits t n) : Nat) : Int) := by
    have hsign : parseSign ('0' :: quadBits t n) = (false, '0' :: quadBits t n) := rfl
    unfold parseInt2
    rw [hdata, hsign]
    have hany : (('0' :: quadBits t n).any fun c => decide (c ≠ '0' ∧ c ≠ '1')) = false := by
      rw [List.any_eq_false]
      intro c hc
      rcases List.mem_cons.mp hc with h | h
      · simp [h]
      · rcases quadBits_binary t n c h with h | h <;> simp [h]
    simp only [hany, hbv]
    have hmin : min (ofMsd4 (quadDigits t n)) (2 ^ 64 - 1) = ofMsd4 (quadDigits t n) := by
      apply min_eq_left; omega
    rw [hmin]
    have hnot : ¬ ((ofMsd4 (quadDigits t n) : Int) ≥ 2 ^ 63) := by
      have : ((ofMsd4 (quadDigits t n) : Nat) : Int) < 2 ^ 63 := by exact_mod_cast hlt
      omega
    simp only [hnot, and_false, if_false, Bool.false_eq_true, false_and, List.cons_ne_nil,
      false_or]
  rw [show s.skey t = s.pad (formatInt4 (parseInt2 (bing.quadkeyLoop t t.Zoom.toNat "0"))) t.Zoom
    from rfl]
  rw [hn, Int.toNat_ofNat, hkey]
  unfold formatInt4
  have hnn : ¬ (((ofMsd4 (quadDigits t n) : Nat) : Int) < 0) := by omega
  rw [if_neg hnn, Int.toNat_ofNat, pad_toDigits s n _ hn1 hD.2, hD.1]

set_option maxRecDepth 8000 in
/-- C5: for a tile with `1 <= zoom <= 23` and non-negative `x`, `y`, the URL
returned by Bing's `GetPath` is the fixed text around a quadkey of exactly `zoom`
base-4 digits whose digit at position `k` from the left (counted from 0) is
`2 * (bit zoom-1-k of y) + (bit zoom-1-k of x)`, whatever the sequence index;
for `zoom = 1, x = 1, y = 0` the quadkey is `"1"`. -/
theorem bing_GetPath_quadkey (s : bing) (t : Tile) (i : Int)
    (hz1 : 1 ≤ t.Zoom) (hz : t.Zoom ≤ 23) (hx : 0 ≤ t.X) (hy : 0 ≤ t.Y) :
    s.GetPath t i = some ("http://ecn.t3.tiles.virtualearth.net/tiles/a"
        ++ String.mk ((List.range t.Zoom.toNat).map fun k =>
            Nat.digitChar (2 * bitOf t.Y (t.Zoom.toNat - 1 - k) + bitOf t.X (t.Zoom.toNat - 1 - k)))
        ++ ".jpeg?g=915&mkt=en-us&n=z")
    ∧ ((List.range t.Zoom.toNat).map fun k =>
          Nat.digitChar (2 * bitOf t.Y (t.Zoom.toNat - 1 - k)
            + bitOf t.X (t.Zoom.toNat - 1 - k))).length = t.Zoom.toNat
    ∧ (∀ i' : Int, s.GetPath t i' = s.GetPath t i)
    ∧ s.GetPath { X := 1, Y := 0, Zoom := 1 } i
        = some "http://ecn.t3.tiles.virtualearth.net/tiles/a1.jpeg?g=915&mkt=en-us&n=z" := by
  have hk : s.skey t = String.mk ((List.range t.Zoom.toNat).map fun k =>
      Nat.digitChar (2 * bitOf t.Y (t.Zoom.toNat - 1 - k) + bitOf t.X (t.Zoom.toNat - 1 - k))) := by
    apply String.ext
    rw [skey_data s t hz1 hz hx hy, quadDigits_eq_map, List.map_map]
    rfl
  refine ⟨?_, by simp, fun _ => rfl, ?_⟩
  · unfold bing.GetPath
    rw [hk]
  · have h1 : bing.GetPath {} { X := 1, Y := 0, Zoom := 1 } 0
        = some "http://ecn.t3.tiles.virtualearth.net/tiles/a1.jpeg?g=915&mkt=en-us&n=z" := by
      decide
    exact h1

set_option maxRecDepth 8000 in
/-- The quadkey of tile `x = 3, y = 5` at zoom 3 is `213`. -/
theorem bing_GetPath_quadkey_witness :
    bing.GetPath {} { X := 3, Y := 5, Zoom := 3 } 7
      = some "http://ecn.t3.tiles.virtualearth.net/tiles/a213.jpeg?g=915&mkt=en-us&n=z" :=
  (bing_GetPath_quadkey {} { X := 3, Y := 5, Zoom := 3 } 7
    (by decide) (by decide) (by decide) (by decide)).1.trans (by decide)

/-! ### Google rotation and mirror/token indexing -/

/-- The receiver of the Google strategy after `GetPath(t, i)`, from a state with
`j` in `0, 1`: `j` becomes `i mod 2` for `i > 0` and is unchanged otherwise. -/
theorem google_GetPath_state (s : google) (t : Tile) (i : Int) (hs : s.j = 0 ∨ s.j = 1) :
    (s.GetPath t i).1 = { j := if i > 0 then i % 2 else s.j } := by
  unfold google.GetPath goMod
  simp only
  by_cases hi : i > 0
  · simp only [hi, if_true]
    rw [Int.tmod_eq_emod (by omega) (by norm_num)]
  · simp only [hi, if_false]
    rcases hs with h | h <;> rw [h] <;> rfl

/-- In a reachable state of the Google strategy the field `j` is 0 or 1. -/
theorem google_Reachable_j (s : google) (h : google.Reachable s) : s.j = 0 ∨ s.j = 1 := by
  induction h with
  | init => left; rfl
  | call s t i _ ih =>
    rw [google_GetPath_state s t i ih]
    simp only
    split <;> omega

/-- From a state with `j` in `0, 1`, `GetPath` returns the URL with host
`khm<j'>` and token `"G"` (`j' = 0`) or `"Ga"` (`j' = 1`), where `j'` is `i mod 2`
for `i > 0` and the old `j` otherwise: only two of the seven tokens occur. -/
theorem google_GetPath_value (s : google) (t : Tile) (i : Int) (hs : s.j = 0 ∨ s.j = 1) :
    (s.GetPath t i).2 = some ("http://khm" ++ fmtD (if i > 0 then i % 2 else s.j)
      ++ ".google.com/kh/v=125&x=" ++ fmtD t.X ++ "&y=" ++ fmtD t.Y ++ "&z=" ++ fmtD t.Zoom
      ++ "&s=" ++ (if (if i > 0 then i % 2 else s.j) = 0 then "G" else "Ga")) := by
  have key : ∀ j : Int, j = 0 ∨ j = 1 →
      (goIndex googGalileos (goMod j googGalileos.length)).map (fun galileo =>
        "http://khm" ++ fmtD (goMod j 2) ++ ".google.com/kh/v=125&x=" ++ fmtD t.X
          ++ "&y=" ++ fmtD t.Y ++ "&z=" ++ fmtD t.Zoom ++ "&s=" ++ galileo)
      = some ("http://khm" ++ fmtD j ++ ".google.com/kh/v=125&x=" ++ fmtD t.X
          ++ "&y=" ++ fmtD t.Y ++ "&z=" ++ fmtD t.Zoom ++ "&s=" ++ (if j = 0 then "G" else "Ga")) := by
    intro j hj
    rcases hj with h | h <;> subst h <;> rfl
  have hst := google_GetPath_state s t i hs
  have hJ : (if i > 0 then i % 2 else s.j) = 0 ∨ (if i > 0 then i % 2 else s.j) = 1 := by
    split <;> omega
  have hval : (s.GetPath t i).2
      = (goIndex googGalileos (goMod (s.GetPath t i).1.j googGalileos.length)).map (fun galileo =>
        "http://khm" ++ fmtD (goMod (s.GetPath t i).1.j 2) ++ ".google.com/kh/v=125&x=" ++ fmtD t.X
          ++ "&y=" ++ fmtD t.Y ++ "&z=" ++ fmtD t.Zoom ++ "&s=" ++ galileo) := rfl
  rw [hval, hst]
  exact key _ hJ

/-- Calls of the Google strategy with positive sequence indices, from any state
with `j` in `0, 1`: the host index is `i mod 2` and the token is `G` for even `i`
and `Ga` for odd `i`, so the tokens `Gal`, ..., `Galileo` never occur. -/
theorem google_calls_positive (t : Tile) (l : List Nat) :
    ∀ s : google, (s.j = 0 ∨ s.j = 1) →
      google.calls s (l.map fun n => (t, ((n + 1 : Nat) : Int)))
        = l.map fun n => some ("http://khm" ++ fmtD (((n + 1 : Nat) : Int) % 2)
            ++ ".google.com/kh/v=125&x=" ++ fmtD t.X ++ "&y=" ++ fmtD t.Y ++ "&z=" ++ fmtD t.Zoom
            ++ "&s=" ++ (if ((n + 1 : Nat) : Int) % 2 = 0 then "G" else "Ga")) := by
  induction l with
  | nil => intro s _; rfl
  | cons n rest ih =>
    intro s hs
    have hpos : ((n + 1 : Nat) : Int) > 0 := by omega
    have hv := google_GetPath_value s t ((n + 1 : Nat) : Int) hs
    have hst := google_GetPath_state s t ((n + 1 : Nat) : Int) hs
    simp only [hpos, if_true] at hv hst
    simp only [List.map_cons, google.calls]
    have hj : (google.GetPath s t ((n + 1 : Nat) : Int)).1.j = 0
        ∨ (google.GetPath s t ((n + 1 : Nat) : Int)).1.j = 1 := by
      rw [hst]
      show ((n + 1 : Nat) : Int) % 2 = 0 ∨ ((n + 1 : Nat) : Int) % 2 = 1
      omega
    rw [hv, ih _ hj]

/-- C8 (the code at the failing input): three calls with sequence indices 0, 1, 2
on a fresh Google strategy return the tokens `G`, `Ga` and then `G` again, not
`Gal`: the third call repeats the first token. -/
theorem google_calls_third_token :
    google.calls { j := 0 }
        [({ X := 0, Y := 0, Zoom := 0 }, 0), ({ X := 0, Y := 0, Zoom := 0 }, 1),
         ({ X := 0, Y := 0, Zoom := 0 }, 2)]
      = [some "http://khm0.google.com/kh/v=125&x=0&y=0&z=0&s=G",
         some "http://khm1.google.com/kh/v=125&x=0&y=0&z=0&s=Ga",
         some "http://khm0.google.com/kh/v=125&x=0&y=0&z=0&s=G"] := by
  decide

/-- The mirror index `i % 3` of OpenStreetMaps is in range for `i >= 0`. -/
theorem openStreetMaps_GetPath_isSome (s : openStreetMaps) (t : Tile) (i : Int) (hi : 0 ≤ i) :
    (s.GetPath t i).isSome = true := by
  unfold openStreetMaps.GetPath goIndex goMod osmAlphabet
  rw [Int.tmod_eq_emod hi (by norm_num)]
  have h0 : 0 ≤ i % 3 := by omega
  have h3 : (i % 3).toNat < 3 := by omega
  rw [if_pos h0]
  rcases (by omega : (i % 3).toNat = 0 ∨ (i % 3).toNat = 1 ∨ (i % 3).toNat = 2) with h | h | h <;>
    rw [h] <;> rfl

/-- C10 (counterexample): the OpenStreetMaps strategy fails for the sequence index
`-1`: Go's `-1 % 3` is `-1`, and `osmAlphabet[-1]` is out of range. -/
theorem openStreetMaps_GetPath_negative_index :
    (Strategy.GetPath (.OpenStreetMaps {}) { X := 0, Y := 0, Zoom := 0 } (-1)).2 = none := by
  decide

/-- C10 (amended): every reachable strategy value returns a URL for every tile
(any integers as indices and zoom) and every sequence index `i >= 0`; the
strategies other than OpenStreetMaps do so for every integer `i`. -/
theorem Strategy_GetPath_isSome (st : Strategy) (t : Tile) (i : Int)
    (hst : st.Reachable) (hi : 0 ≤ i ∨ st.isOpenStreetMaps = false) :
    (st.GetPath t i).2.isSome = true := by
  cases st with
  | OpenStreetMaps s =>
    rcases hi with hi | hi
    · exact openStreetMaps_GetPath_isSome s t i hi
    · simp [Strategy.isOpenStreetMaps] at hi
  | Google s =>
    have hj := google_Reachable_j s hst
    show (s.GetPath t i).2.isSome = true
    rw [google_GetPath_value s t i hj]
    rfl
  | Bing s => rfl
  | Yahoo s => rfl
  | Nokia s => rfl

/-- A fresh Google strategy returns a URL for negative tile and sequence indices. -/
theorem Strategy_GetPath_isSome_witness :
    (Strategy.GetPath (.Google { j := 0 }) { X := -1, Y := 2, Zoom := 3 } (-4)).2.isSome = true :=
  Strategy_GetPath_isSome (.Google { j := 0 }) { X := -1, Y := 2, Zoom := 3 } (-4)
    google.Reachable.init (Or.inr rfl)

/-! ### Batch scheduler -/

/-- The weight of two lists of goroutines is the sum of their weights. -/
theorem wsum_append (f : WorkerPc → Int) (a b : List WorkerPc) :
    wsum f (a ++ b) = wsum f a + wsum f b := by
  induction a with
  | nil => simp [wsum]
  | cons w ws ih => simp [wsum, ih, add_assoc]

/-- Moving goroutine `j` from position `w` to `w'` changes the weight by
`f w' - f w`. -/
theorem wsum_set (f : WorkerPc → Int) (w' : WorkerPc) :
    ∀ (ws : List WorkerPc) (j : Nat) (w : WorkerPc), ws[j]? = some w →
      wsum f (ws.set j w') = wsum f ws - f w + f w' := by
  intro ws
  induction ws with
  | nil => intro j w h; simp at h
  | cons x xs ih =>
    intro j w h
    cases j with
    | zero =>
      simp only [List.getElem?_cons_zero, Option.some.injEq] at h
      subst h
      simp only [List.set_cons_zero, wsum]
      ring
    | succ j =>
      simp only [List.getElem?_cons_succ] at h
      simp only [List.set_cons_succ, wsum, ih j w h]
      ring

/-- A weight with values in `[0, 1]` sums to at most the number of goroutines. -/
theorem wsum_bounds (f : WorkerPc → Int) (hf : ∀ w, 0 ≤ f w ∧ f w ≤ 1) (ws : List WorkerPc) :
    0 ≤ wsum f ws ∧ wsum f ws ≤ ws.length := by
  induction ws with
  | nil => simp [wsum]
  | cons w ws ih =>
    have := hf w
    simp only [wsum, List.length_cons]
    push_cast
    omega

/-- The weight `wExited` is 0 or 1. -/
theorem wExited_bounds (w : WorkerPc) : 0 ≤ wExited w ∧ wExited w ≤ 1 := by
  cases w <;> simp [wExited]

/-- The weight `wSent` is 0 or 1. -/
theorem wSent_bounds (w : WorkerPc) : 0 ≤ wSent w ∧ wSent w ≤ 1 := by
  cases w <;> simp [wSent]

/-- A goroutine that has returned has sent its image. -/
theorem wsum_wExited_le_wSent (ws : List WorkerPc) : wsum wExited ws ≤ wsum wSent ws := by
  induction ws with
  | nil => simp [wsum]
  | cons w ws ih =>
    simp only [wsum]
    cases w <;> simp [wExited, wSent] <;> omega

/-- The goroutines' remaining steps are not negative. -/
theorem wsum_wLeft_nonneg (ws : List WorkerPc) : 0 ≤ wsum wLeft ws := by
  induction ws with
  | nil => simp [wsum]
  | cons w ws ih =>
    simp only [wsum]
    cases w <;> simp [wLeft] <;> omega

/-- A goroutine that has not sent keeps the count of sent images below the
number of goroutines. -/
theorem wsum_wSent_lt (ws : List WorkerPc) (j : Nat) (h : ws[j]? = some .beforeSend) :
    wsum wSent ws < ws.length := by
  have h1 := wsum_set wSent .beforeDone ws j _ h
  have h2 := (wsum_bounds wSent wSent_bounds (ws.set j .beforeDone)).2
  rw [List.length_set] at h2
  simp only [wSent] at h1
  omega

/-- A goroutine that has not returned keeps the count of returned goroutines
below the number of goroutines. -/
theorem wsum_wExited_lt (ws : List WorkerPc) (j : Nat) (w : WorkerPc) (h : ws[j]? = some w)
    (hw : w ≠ .exited) : wsum wExited ws < ws.length := by
  have h1 := wsum_set wExited .exited ws j _ h
  have h2 := (wsum_bounds wExited wExited_bounds (ws.set j .exited)).2
  rw [List.length_set] at h2
  have h3 : wExited w = 0 := by cases w <;> simp_all [wExited]
  simp only [wExited] at h1
  omega

/-- When fewer goroutines have returned than were started, one of them is still
running. -/
theorem exists_running (ws : List WorkerPc) (h : wsum wExited ws < ws.length) :
    ∃ j : Nat, ws[j]? = some WorkerPc.beforeSend ∨ ws[j]? = some WorkerPc.beforeDone := by
  induction ws with
  | nil => simp [wsum] at h
  | cons w ws ih =>
    cases w with
    | beforeSend => exact ⟨0, Or.inl (by simp)⟩
    | beforeDone => exact ⟨0, Or.inr (by simp)⟩
    | exited =>
      simp only [wsum, wExited, List.length_cons] at h
      push_cast at h
      obtain ⟨j, hj⟩ := ih (by omega)
      exact ⟨j + 1, by simpa using hj⟩

/-- When every goroutine has returned, each started goroutine is past its send. -/
theorem all_exited (ws : List WorkerPc) (h : wsum wExited ws = ws.length) :
    wsum wSent ws = ws.length := by
  have h1 := wsum_wExited_le_wSent ws
  have h2 := (wsum_bounds wSent wSent_bounds ws).2
  omega

/-- For a sequence index `i >= 0`, as produced by `range`, `GetPath` of a
reachable strategy value does not panic. -/
theorem Strategy_GetPath_nonneg_index (st : Strategy) (t : Tile) (i : Int)
    (hst : st.Reachable) (hi : 0 ≤ i) : (st.GetPath t i).2.isSome = true := by
  cases st with
  | OpenStreetMaps s => exact openStreetMaps_GetPath_isSome s t i hi
  | Google s =>
    show (s.GetPath t i).2.isSome = true
    rw [google_GetPath_value s t i (google_Reachable_j s hst)]
    rfl
  | Bing s => rfl
  | Yahoo s => rfl
  | Nokia s => rfl

/-- A call of `GetPath` keeps a strategy value reachable. -/
theorem Strategy_Reachable_GetPath (st : Strategy) (t : Tile) (i : Int) (h : st.Reachable) :
    (st.GetPath t i).1.Reachable := by
  cases st with
  | Google s => exact google.Reachable.call s t i h
  | OpenStreetMaps s => trivial
  | Bing s => trivial
  | Yahoo s => trivial
  | Nokia s => trivial

/-- The scheduler invariant holds when `Download` returns. -/
theorem Inv_Download (tiles : List Tile) (strategy : Option Strategy)
    (hst : ∀ st, strategy = some st → st.Reachable) : Inv tiles (Download strategy) := by
  refine ⟨rfl, ?_, by simp [Download], by simp [Download], by simp [Download], by simp [Download],
    ?_, by simp [Download, wsum], ⟨[], by simp [Download]⟩⟩
  · cases strategy with
    | none => trivial
    | some st => exact hst st rfl
  · simp [SchedInv, Download, wsum]

/-- A step of the scheduling goroutine preserves the invariant. -/
theorem Inv_schedStep (tiles : List Tile) (b : Int) (s s' : Sys) (hI : Inv tiles s)
    (h : schedStep tiles b s = some s') : Inv tiles s' := by
  obtain ⟨hP, hSt, hC, hD, hSaw, hND, hS, hCnt, hO⟩ := hI
  unfold schedStep at h
  cases hpc : s.pc with
  | rangeHead =>
    simp only [hpc] at h
    simp only [SchedInv, hpc] at hS
    obtain ⟨hi, hlen, hnum, hsum, hex⟩ := hS
    cases ht : tiles[s.i]? with
    | some t =>
      simp only [ht] at h
      have hiN : s.i < tiles.length := (List.getElem?_eq_some_iff.mp ht).1
      have hsome := Strategy_GetPath_nonneg_index s.strategy t s.i hSt (by omega)
      cases hg : (s.strategy.GetPath t s.i).2 with
      | none => rw [hg] at hsome; simp at hsome
      | some p =>
        simp only [hg] at h
        have hSt' := Strategy_Reachable_GetPath s.strategy t s.i hSt
        have hsaw' : s.sawClose = true → s.cClosed = true ∧ s.cBuf = [] := hSaw
        have hdf : s.doneClosed = false := by
          cases hd : s.doneClosed with
          | false => rfl
          | true => rw [hD, hpc] at hd; simp at hd
        have hcf : s.cClosed = false := by
          cases hc : s.cClosed with
          | false => rfl
          | true => rw [hC, hpc] at hc; simp at hc
        obtain ⟨order, ho1, ho2, ho3⟩ := hO
        have hO' : ∃ order : List Nat, order.Nodup
            ∧ (∀ j ∈ order, ∃ w, (s.workers ++ [WorkerPc.beforeSend])[j]? = some w
                ∧ w ≠ .beforeSend)
            ∧ (s.received ++ s.cBuf).map (fun im => some im.Tile)
                = order.map (fun j => tiles[j]?) := by
          refine ⟨order, ho1, ?_, ho3⟩
          intro j hj
          obtain ⟨w, hw1, hw2⟩ := ho2 j hj
          refine ⟨w, ?_, hw2⟩
          have hjl : j < s.workers.length := (List.getElem?_eq_some_iff.mp hw1).1
          rw [List.getElem?_append_left hjl]
          exact hw1
        split at h
        · rename_i hb
          cases h
          refine ⟨hP, hSt', ?_, ?_, ?_, hND, ?_, ?_, hO'⟩
          · simp [hcf]
          · simp [hdf]
          · exact hSaw
          · simp only [SchedInv, List.length_append, List.length_singleton, wsum_append, wsum,
              wExited]
            push_cast
            refine ⟨by omega, by omega, by omega, by omega, by omega⟩
          · simp only [wsum_append, wsum, wSent]
            simpa using hCnt
        · rename_i hb
          cases h
          refine ⟨hP, hSt', ?_, ?_, ?_, hND, ?_, ?_, hO'⟩
          · simp [hcf, hpc]
          · simp [hdf, hpc]
          · exact hSaw
          · simp only [SchedInv, hpc, List.length_append, List.length_singleton, wsum_append,
              wsum, wExited]
            push_cast
            refine ⟨by omega, by omega, by omega, by omega, by omega⟩
          · simp only [wsum_append, wsum, wSent]
            simpa using hCnt
    | none =>
      simp only [ht] at h
      cases h
      have hdf : s.doneClosed = false := by
        cases hd : s.doneClosed with
        | false => rfl
        | true => rw [hD, hpc] at hd; simp at hd
      have hcf : s.cClosed = false := by
        cases hc : s.cClosed with
        | false => rfl
        | true => rw [hC, hpc] at hc; simp at hc
      have hiN : tiles.length ≤ s.i := by
        by_contra hcon
        have := List.getElem?_eq_some_iff.mpr ⟨(by omega : s.i < tiles.length), rfl⟩
        rw [ht] at this
        simp at this
      refine ⟨hP, hSt, ?_, ?_, hSaw, hND, ?_, hCnt, hO⟩
      · simp [hcf]
      · simp [hdf]
      · simp only [SchedInv]
        refine ⟨by omega, le_refl _, by omega, trivial, by omega⟩
  | batchWait =>
    simp only [hpc] at h
    simp only [SchedInv, hpc] at hS
    obtain ⟨hi, hlen, hnum, hsum, hex⟩ := hS
    have hdf : s.doneClosed = false := by
      cases hd : s.doneClosed with
      | false => rfl
      | true => rw [hD, hpc] at hd; simp at hd
    have hcf : s.cClosed = false := by
      cases hc : s.cClosed with
      | false => rfl
      | true => rw [hC, hpc] at hc; simp at hc
    split at h
    · simp at h
    · rename_i hblk
      have hdb : 1 ≤ s.doneBuf := by
        by_contra hcon
        exact hblk ⟨by omega, hdf⟩
      have hcast : ((s.doneBuf - 1 : Nat) : Int) = (s.doneBuf : Int) - 1 := by omega
      split at h
      · rename_i hbrk
        split at h
        · cases h
          refine ⟨hP, hSt, by simp [hcf], by simp [hdf], hSaw, by simp; omega, ?_, hCnt, hO⟩
          simp only [SchedInv]
          push_cast
          refine ⟨by omega, by omega, by omega, by omega, by omega⟩
        · cases h
          refine ⟨hP, hSt, by simp [hcf], by simp [hdf], hSaw, by simp; omega, ?_, hCnt, hO⟩
          simp only [SchedInv]
          push_cast
          refine ⟨by omega, by omega, by omega, by omega, by omega⟩
      · rename_i hbrk
        cases h
        refine ⟨hP, hSt, by simp [hcf, hpc], by simp [hdf, hpc], hSaw, by simp; omega, ?_, hCnt, hO⟩
        simp only [SchedInv, hpc]
        refine ⟨by omega, by omega, by omega, by omega, by omega⟩
  | closeHead =>
    simp only [hpc] at h
    simp only [SchedInv, hpc] at hS
    obtain ⟨hlen, hk0, hk, hexp, hex⟩ := hS
    have hdf : s.doneClosed = false := by
      cases hd : s.doneClosed with
      | false => rfl
      | true => rw [hD, hpc] at hd; simp at hd
    have hcf : s.cClosed = false := by
      cases hc : s.cClosed with
      | false => rfl
      | true => rw [hC, hpc] at hc; simp at hc
    split at h
    · rename_i hlt
      split at h
      · simp at h
      · rename_i hblk
        have hdb : 1 ≤ s.doneBuf := by
          by_contra hcon
          exact hblk ⟨by omega, hdf⟩
        cases h
        refine ⟨hP, hSt, by simp [hcf, hpc], by simp [hdf, hpc], hSaw, hND, ?_, hCnt, hO⟩
        simp only [SchedInv, hpc]
        refine ⟨by omega, by omega, by omega, by omega, by omega⟩
    · rename_i hge
      rw [if_neg (by simp [hcf, hdf])] at h
      cases h
      have hb := wsum_bounds wExited wExited_bounds s.workers
      refine ⟨hP, hSt, by simp, by simp, ?_, hND, ?_, hCnt, hO⟩
      · intro hs
        have := hSaw hs
        rw [hcf] at this
        simp at this
      · simp only [SchedInv]
        refine ⟨by omega, by omega, by omega⟩
  | finished =>
    simp [hpc] at h

/-- While a goroutine is still running, the scheduling goroutine has not
returned, so neither channel is closed. -/
theorem Inv_running_open (tiles : List Tile) (s : Sys) (hI : Inv tiles s) (j : Nat)
    (w : WorkerPc) (hw : s.workers[j]? = some w) (hne : w ≠ .exited) :
    s.pc ≠ .finished ∧ s.cClosed = false ∧ s.doneClosed = false := by
  have hlt := wsum_wExited_lt s.workers j w hw hne
  have hpc : s.pc ≠ .finished := by
    intro hpc
    have hS := hI.sched
    simp only [SchedInv, hpc] at hS
    omega
  refine ⟨hpc, ?_, ?_⟩
  · cases hc : s.cClosed with
    | false => rfl
    | true => exact absurd (hI.cClosed_iff.mp hc) hpc
  · cases hd : s.doneClosed with
    | false => rfl
    | true => exact absurd (hI.doneClosed_iff.mp hd) hpc

/-- The position-dependent invariant only reads the scheduler's counters, the
number of goroutines, and how many have returned. -/
theorem SchedInv_congr (n : Int) (s s' : Sys) (h : SchedInv n s) (hpc : s'.pc = s.pc)
    (hi : s'.i = s.i) (hnum : s'.num = s.num) (hnd : s'.numDone = s.numDone)
    (hexp : s'.exp = s.exp) (hk : s'.k = s.k) (hl : s'.workers.length = s.workers.length)
    (hne : s.pc ≠ .finished)
    (hw : wsum wExited s'.workers - s'.doneBuf = wsum wExited s.workers - s.doneBuf) :
    SchedInv n s' := by
  unfold SchedInv at h ⊢
  rw [hpc, hi, hnum, hnd, hexp, hk, hl]
  cases hp : s.pc with
  | rangeHead => simp only [hp] at h ⊢; refine ⟨h.1, h.2.1, h.2.2.1, h.2.2.2.1, by omega⟩
  | batchWait => simp only [hp] at h ⊢; refine ⟨h.1, h.2.1, h.2.2.1, h.2.2.2.1, by omega⟩
  | closeHead => simp only [hp] at h ⊢; refine ⟨h.1, h.2.1, h.2.2.1, h.2.2.2.1, by omega⟩
  | finished => exact absurd hp hne

/-- Every atomic step preserves the scheduler invariant. -/
theorem Inv_step (tiles : List Tile) (b : Int) (a : Action) (s s' : Sys) (hI : Inv tiles s)
    (h : step tiles b a s = some s') : Inv tiles s' := by
  unfold step at h
  rw [if_neg (by simp [hI.noPanic])] at h
  cases a with
  | sched => exact Inv_schedStep tiles b s s' hI h
  | workerSend j ok =>
    simp only at h
    split at h
    · rename_i t hw ht
      obtain ⟨hpc, hcf, hdf⟩ := Inv_running_open tiles s hI j _ hw (by simp)
      rw [if_neg (by simp [hcf])] at h
      split at h
      · cases h
        obtain ⟨hP, hSt, hC, hD, hSaw, hND, hS, hCnt, order, ho1, ho2, ho3⟩ := hI
        have hws := wsum_set wSent .beforeDone s.workers j _ hw
        have hwe := wsum_set wExited .beforeDone s.workers j _ hw
        simp only [wSent] at hws
        simp only [wExited] at hwe
        refine ⟨hP, hSt, hC, hD, ?_, hND, ?_, ?_, order ++ [j], ?_, ?_, ?_⟩
        · intro hs
          have := (hSaw hs).1
          rw [hcf] at this
          simp at this
        · refine SchedInv_congr _ s _ hS rfl rfl rfl rfl rfl rfl (by simp) hpc ?_
          show wsum wExited (s.workers.set j .beforeDone) - (s.doneBuf : Int) = _
          rw [hwe]
          omega
        · simp only [List.length_append, List.length_singleton] at hCnt ⊢
          push_cast at hCnt ⊢
          rw [hws]
          omega
        · rw [List.nodup_append]
          refine ⟨ho1, by simp, ?_⟩
          intro x hx hx'
          simp only [List.mem_singleton] at hx'
          subst hx'
          obtain ⟨w, hw1, hw2⟩ := ho2 x hx
          rw [hw] at hw1
          exact hw2 (Option.some.inj hw1).symm
        · intro x hx
          by_cases hxj : x = j
          · subst hxj
            refine ⟨.beforeDone, ?_, by simp⟩
            have hjl : x < s.workers.length := (List.getElem?_eq_some_iff.mp hw).1
            simp [List.getElem?_set, hjl]
          · rcases List.mem_append.mp hx with hx | hx
            · obtain ⟨w, hw1, hw2⟩ := ho2 x hx
              refine ⟨w, ?_, hw2⟩
              rw [List.getElem?_set_ne (Ne.symm hxj)]
              exact hw1
            · simp at hx; exact absurd hx hxj
        · rw [← List.append_assoc, List.map_append, ho3, List.map_append]
          simp [ht]
      · simp at h
    · simp at h
  | workerDone j =>
    simp only at h
    split at h
    · rename_i hw
      obtain ⟨hpc, hcf, hdf⟩ := Inv_running_open tiles s hI j _ hw (by simp)
      rw [if_neg (by simp [hdf])] at h
      split at h
      · cases h
        obtain ⟨hP, hSt, hC, hD, hSaw, hND, hS, hCnt, order, ho1, ho2, ho3⟩ := hI
        have hws := wsum_set wSent .exited s.workers j _ hw
        have hwe := wsum_set wExited .exited s.workers j _ hw
        simp only [wSent] at hws
        simp only [wExited] at hwe
        refine ⟨hP, hSt, hC, hD, hSaw, hND, ?_, ?_, order, ho1, ?_, ho3⟩
        · refine SchedInv_congr _ s _ hS rfl rfl rfl rfl rfl rfl (by simp) hpc ?_
          show wsum wExited (s.workers.set j .exited) - ((s.doneBuf + 1 : Nat) : Int) = _
          rw [hwe]
          push_cast
          omega
        · rw [hws]
          simpa using hCnt
        · intro x hx
          by_cases hxj : x = j
          · subst hxj
            refine ⟨.exited, ?_, by simp⟩
            have hjl : x < s.workers.length := (List.getElem?_eq_some_iff.mp hw).1
            simp [List.getElem?_set, hjl]
          · obtain ⟨w, hw1, hw2⟩ := ho2 x hx
            refine ⟨w, ?_, hw2⟩
            rw [List.getElem?_set_ne (Ne.symm hxj)]
            exact hw1
      · simp at h
    · simp at h
  | consumer =>
    simp only at h
    obtain ⟨hP, hSt, hC, hD, hSaw, hND, hS, hCnt, hO⟩ := hI
    split at h
    · rename_i img rest hbuf
      cases h
      have hlist : (s.received ++ [img]) ++ rest = s.received ++ s.cBuf := by
        rw [hbuf]; simp
      refine ⟨hP, hSt, hC, hD, ?_, hND, ?_, ?_, ?_⟩
      · intro hs
        have := (hSaw hs).2
        rw [hbuf] at this
        simp at this
      · unfold SchedInv at hS ⊢
        exact hS
      · show (((s.received ++ [img]) ++ rest).length : Int) = _
        rw [hlist]
        exact hCnt
      · show ∃ order : List Nat, order.Nodup
            ∧ (∀ j ∈ order, ∃ w, s.workers[j]? = some w ∧ w ≠ .beforeSend)
            ∧ ((s.received ++ [img]) ++ rest).map (fun im => some im.Tile)
                = order.map (fun j => tiles[j]?)
        rw [hlist]
        exact hO
    · rename_i hbuf
      split at h
      · rename_i hcs
        cases h
        refine ⟨hP, hSt, hC, hD, ?_, hND, ?_, hCnt, hO⟩
        · intro _
          exact ⟨hcs.1, hbuf⟩
        · unfold SchedInv at hS ⊢
          exact hS
      · simp at h

/-- Every state reached by a run from a state satisfying the invariant
satisfies it. -/
theorem Inv_run (tiles : List Tile) (b : Int) (acts : List Action) :
    ∀ (s s' : Sys), Inv tiles s → run tiles b acts s = some s' → Inv tiles s' := by
  induction acts with
  | nil =>
    intro s s' hI h
    simp only [run, Option.some.injEq] at h
    exact h ▸ hI
  | cons a rest ih =>
    intro s s' hI h
    simp only [run] at h
    cases hstep : step tiles b a s with
    | none => rw [hstep] at h; simp at h
    | some s1 =>
      rw [hstep] at h
      exact ih s1 s' (Inv_step tiles b a s s1 hI hstep) h

/-- Every atomic step lowers the measure by exactly one. -/
theorem measure_step (tiles : List Tile) (b : Int) (a : Action) (s s' : Sys) (hI : Inv tiles s)
    (h : step tiles b a s = some s') : measure tiles s' + 1 = measure tiles s := by
  unfold step at h
  rw [if_neg (by simp [hI.noPanic])] at h
  cases a with
  | sched =>
    simp only at h
    have hS := hI.sched
    unfold schedStep at h
    cases hpc : s.pc with
    | rangeHead =>
      simp only [hpc] at h
      simp only [SchedInv, hpc] at hS
      cases ht : tiles[s.i]? with
      | some t =>
        simp only [ht] at h
        have hiN : s.i < tiles.length := (List.getElem?_eq_some_iff.mp ht).1
        have hsome := Strategy_GetPath_nonneg_index s.strategy t s.i hI.strat (by omega)
        cases hg : (s.strategy.GetPath t s.i).2 with
        | none => rw [hg] at hsome; simp at hsome
        | some p =>
          simp only [hg] at h
          split at h
          · cases h
            simp only [measure, hpc, List.length_append, List.length_singleton, wsum_append, wsum,
              wLeft]
            push_cast
            omega
          · cases h
            simp only [measure, hpc, List.length_append, List.length_singleton, wsum_append, wsum,
              wLeft]
            push_cast
            omega
      | none =>
        simp only [ht] at h
        cases h
        have hiN : tiles.length ≤ s.i := by
          by_contra hcon
          have := List.getElem?_eq_some_iff.mpr ⟨(by omega : s.i < tiles.length), rfl⟩
          rw [ht] at this
          simp at this
        simp only [measure, hpc]
        omega
    | batchWait =>
      simp only [hpc] at h
      split at h
      · simp at h
      · split at h
        · split at h
          · cases h
            simp only [measure, hpc]
            push_cast
            omega
          · cases h
            simp only [measure, hpc]
            push_cast
            omega
        · cases h
          simp only [measure, hpc]
          omega
    | closeHead =>
      simp only [hpc] at h
      simp only [SchedInv, hpc] at hS
      split at h
      · split at h
        · simp at h
        · cases h
          simp only [measure, hpc]
          omega
      · have hcf : s.cClosed = false := by
          cases hc : s.cClosed with
          | false => rfl
          | true => have := hI.cClosed_iff.mp hc; rw [hpc] at this; simp at this
        have hdf : s.doneClosed = false := by
          cases hd : s.doneClosed with
          | false => rfl
          | true => have := hI.doneClosed_iff.mp hd; rw [hpc] at this; simp at this
        rw [if_neg (by simp [hcf, hdf])] at h
        cases h
        simp only [measure, hpc]
        omega
    | finished => simp [hpc] at h
  | workerSend j ok =>
    simp only at h
    split at h
    · rename_i t hw ht
      obtain ⟨hpc, hcf, hdf⟩ := Inv_running_open tiles s hI j _ hw (by simp)
      rw [if_neg (by simp [hcf])] at h
      split at h
      · cases h
        have hwl := wsum_set wLeft .beforeDone s.workers j _ hw
        simp only [wLeft] at hwl
        simp only [measure, List.length_set, hwl]
        omega
      · simp at h
    · simp at h
  | workerDone j =>
    simp only at h
    split at h
    · rename_i hw
      obtain ⟨hpc, hcf, hdf⟩ := Inv_running_open tiles s hI j _ hw (by simp)
      rw [if_neg (by simp [hdf])] at h
      split at h
      · cases h
        have hwl := wsum_set wLeft .exited s.workers j _ hw
        simp only [wLeft] at hwl
        simp only [measure, List.length_set, hwl]
        omega
      · simp at h
    · simp at h
  | consumer =>
    simp only at h
    split at h
    · cases h
      simp only [measure, List.length_append, List.length_singleton]
      push_cast
      omega
    · split at h
      · rename_i hcs
        cases h
        simp only [measure, hcs.2]
        simp
      · simp at h

/-- Under the invariant the measure is not negative. -/
theorem measure_nonneg (tiles : List Tile) (s : Sys) (hI : Inv tiles s) :
    0 ≤ measure tiles s := by
  obtain ⟨hP, hSt, hC, hD, hSaw, hND, hS, hCnt, hO⟩ := hI
  have hw := wsum_wLeft_nonneg s.workers
  have hs := (wsum_bounds wSent wSent_bounds s.workers).2
  have hsaw : (0 : Int) ≤ (if s.sawClose = true then 0 else 1) := by split <;> omega
  simp only [List.length_append] at hCnt
  push_cast at hCnt
  unfold measure
  unfold SchedInv at hS
  cases hpc : s.pc with
  | rangeHead => simp only [hpc] at hS ⊢; omega
  | batchWait => simp only [hpc] at hS ⊢; omega
  | closeHead => simp only [hpc] at hS ⊢; omega
  | finished => simp only [hpc] at hS ⊢; omega

/-- A run of `n` steps lowers the measure by `n`. -/
theorem measure_run (tiles : List Tile) (b : Int) (acts : List Action) :
    ∀ (s s' : Sys), Inv tiles s → run tiles b acts s = some s' →
      measure tiles s' + acts.length = measure tiles s := by
  induction acts with
  | nil =>
    intro s s' _ h
    simp only [run, Option.some.injEq] at h
    subst h
    simp
  | cons a rest ih =>
    intro s s' hI h
    simp only [run] at h
    cases hstep : step tiles b a s with
    | none => rw [hstep] at h; simp at h
    | some s1 =>
      rw [hstep] at h
      have h1 := measure_step tiles b a s s1 hI hstep
      have h2 := ih s1 s' (Inv_step tiles b a s s1 hI hstep) h
      simp only [List.length_cons]
      push_cast
      omega

/-- Deadlock freedom: in a state satisfying the invariant where no action is
enabled, the caller has seen the channel closed. -/
theorem stuck_sawClose (tiles : List Tile) (b : Int) (s : Sys) (hI : Inv tiles s)
    (hstuck : ∀ a, step tiles b a s = none) : s.sawClose = true := by
  have hnp : ¬ (s.panicked = true) := by simp [hI.noPanic]
  -- a running goroutine can always take its step
  have hrun : ∀ j : Nat, ¬ (s.workers[j]? = some WorkerPc.beforeSend
      ∨ s.workers[j]? = some WorkerPc.beforeDone) := by
    intro j hj
    have hS := hI.sched
    have hlenN : (s.workers.length : Int) ≤ tiles.length := by
      unfold SchedInv at hS
      cases hpc : s.pc <;> simp only [hpc] at hS <;> omega
    rcases hj with hj | hj
    · obtain ⟨hpc, hcf, hdf⟩ := Inv_running_open tiles s hI j _ hj (by simp)
      have hjl : j < s.workers.length := (List.getElem?_eq_some_iff.mp hj).1
      have hjt : j < tiles.length := by omega
      have ht : tiles[j]? = some tiles[j] := List.getElem?_eq_some_iff.mpr ⟨hjt, rfl⟩
      have hlt := wsum_wSent_lt s.workers j hj
      have hc := hI.sentCount
      simp only [List.length_append] at hc
      push_cast at hc
      have hcap : s.cBuf.length < tiles.length := by omega
      have := hstuck (.workerSend j true)
      simp [step, hnp, hj, ht, hcf, hcap] at this
    · obtain ⟨hpc, hcf, hdf⟩ := Inv_running_open tiles s hI j _ hj (by simp)
      have hlt := wsum_wExited_lt s.workers j _ hj (by simp)
      have hcap : s.doneBuf < tiles.length := by
        unfold SchedInv at hS
        have hnd := hI.numDone_nonneg
        cases hp : s.pc with
        | rangeHead => simp only [hp] at hS; omega
        | batchWait => simp only [hp] at hS; omega
        | closeHead => simp only [hp] at hS; omega
        | finished => exact absurd hp hpc
      have := hstuck (.workerDone j)
      simp [step, hnp, hj, hdf, hcap] at this
  have hall : ¬ (wsum wExited s.workers < s.workers.length) := by
    intro hlt
    obtain ⟨j, hj⟩ := exists_running s.workers hlt
    exact hrun j hj
  have hsched := hstuck .sched
  simp only [step, if_neg hnp] at hsched
  have hS := hI.sched
  unfold schedStep at hsched
  cases hpc : s.pc with
  | rangeHead =>
    simp only [hpc] at hsched
    cases ht : tiles[s.i]? with
    | some t =>
      simp only [ht] at hsched
      cases hg : (s.strategy.GetPath t s.i).2 with
      | none => simp [hg] at hsched
      | some p =>
        simp only [hg] at hsched
        split at hsched <;> simp at hsched
    | none => simp [ht] at hsched
  | batchWait =>
    simp only [hpc] at hsched
    simp only [SchedInv, hpc] at hS
    split at hsched
    · rename_i hblk
      have := hblk.1
      omega
    · split at hsched
      · split at hsched <;> simp at hsched
      · simp at hsched
  | closeHead =>
    simp only [hpc] at hsched
    simp only [SchedInv, hpc] at hS
    split at hsched
    · split at hsched
      · rename_i hlt hblk
        have := hblk.1
        omega
      · simp at hsched
    · split at hsched <;> simp at hsched
  | finished =>
    have hcl : s.cClosed = true := hI.cClosed_iff.mpr hpc
    have hcons := hstuck .consumer
    simp only [step, if_neg hnp] at hcons
    cases hbuf : s.cBuf with
    | cons img rest => simp [hbuf] at hcons
    | nil =>
      simp only [hbuf, hcl, true_and] at hcons
      cases hs : s.sawClose with
      | true => rfl
      | false => simp [hs] at hcons

/-- Reading a list at every index in turn gives the list back. -/
theorem map_getElem?_range (tiles : List Tile) :
    (List.range tiles.length).map (fun j => tiles[j]?) = tiles.map some := by
  apply List.ext_getElem?
  intro i
  by_cases hi : i < tiles.length
  · simp [List.getElem?_range, hi]
  · have h1 : tiles.length ≤ i := by omega
    rw [List.getElem?_map, List.getElem?_map, List.getElem?_eq_none (by simpa using h1),
      List.getElem?_eq_none h1]
    rfl

/-- Once the channel `c` is closed, the images sent on it are exactly one per
submitted tile. -/
theorem Inv_closed_perm (tiles : List Tile) (s : Sys) (hI : Inv tiles s)
    (hc : s.cClosed = true) : ((s.received ++ s.cBuf).map Image.Tile).Perm tiles := by
  obtain ⟨hP, hSt, hC, hD, hSaw, hND, hS, hCnt, order, ho1, ho2, ho3⟩ := hI
  have hpc := hC.mp hc
  simp only [SchedInv, hpc] at hS
  obtain ⟨hlen, hex, _⟩ := hS
  have hsent := all_exited s.workers (by omega)
  have holen : order.length = tiles.length := by
    have := congrArg List.length ho3
    simp only [List.length_map] at this
    omega
  have hsub : order ⊆ List.range tiles.length := by
    intro j hj
    obtain ⟨w, hw, _⟩ := ho2 j hj
    have hjl : j < s.workers.length := (List.getElem?_eq_some_iff.mp hw).1
    exact List.mem_range.mpr (by omega)
  have hperm : order.Perm (List.range tiles.length) :=
    (List.subperm_of_subset ho1 hsub).perm_of_length_le (by simp [holen])
  have h1 : ((s.received ++ s.cBuf).map (fun im => some im.Tile)).Perm (tiles.map some) := by
    rw [ho3, ← map_getElem?_range]
    exact hperm.map _
  have h2 := h1.filterMap id
  have e1 : List.filterMap id (List.map (fun im => some im.Tile) (s.received ++ s.cBuf))
      = (s.received ++ s.cBuf).map Image.Tile := by
    rw [List.filterMap_map]
    exact congrFun (List.filterMap_eq_map Image.Tile) _
  have e2 : List.filterMap id (List.map some tiles) = tiles := by
    rw [List.filterMap_map]
    exact List.filterMap_some tiles
  rw [e1, e2] at h2
  exact h2

/-- Steps of the `download` goroutines and of the caller leave the scheduling
goroutine's position, counters and pause count unchanged. -/
theorem step_keeps_sched (tiles : List Tile) (b : Int) (a : Action) (s s' : Sys)
    (ha : a ≠ .sched) (h : step tiles b a s = some s') :
    s'.pc = s.pc ∧ s'.i = s.i ∧ s'.num = s.num ∧ s'.sleeps = s.sleeps := by
  unfold step at h
  split at h
  · simp at h
  · cases a with
    | sched => exact absurd rfl ha
    | workerSend j ok =>
      simp only at h
      split at h
      · split at h
        · cases h; simp
        · split at h
          · cases h; simp
          · simp at h
      · simp at h
    | workerDone j =>
      simp only at h
      split at h
      · split at h
        · cases h; simp
        · split at h
          · cases h; simp
          · simp at h
      · simp at h
    | consumer =>
      simp only at h
      split at h
      · cases h; simp
      · split at h
        · cases h; simp
        · simp at h

/-- The pacing invariant holds when `Download` returns. -/
theorem PaceInv_Download (tiles : List Tile) (strategy : Option Strategy) (b : Int)
    (hb : 1 ≤ b) : PaceInv tiles.length b (Download strategy) := by
  simp only [PaceInv, Download]
  refine ⟨0, by simp, Or.inl ⟨rfl, by omega, ?_⟩⟩
  intro _
  omega

/-- Every atomic step preserves the pacing invariant. -/
theorem PaceInv_step (tiles : List Tile) (b : Int) (hb : 1 ≤ b) (a : Action) (s s' : Sys)
    (hI : Inv tiles s) (hp : PaceInv tiles.length b s) (h : step tiles b a s = some s') :
    PaceInv tiles.length b s' := by
  by_cases ha : a = .sched
  · subst ha
    unfold step at h
    rw [if_neg (by simp [hI.noPanic])] at h
    simp only at h
    have hS := hI.sched
    unfold schedStep at h
    cases hpc : s.pc with
    | rangeHead =>
      simp only [hpc] at h
      simp only [SchedInv, hpc] at hS
      simp only [PaceInv, hpc] at hp
      obtain ⟨r, hr, hcase⟩ := hp
      cases ht : tiles[s.i]? with
      | some t =>
        simp only [ht] at h
        have hiN : s.i < tiles.length := (List.getElem?_eq_some_iff.mp ht).1
        have hsome := Strategy_GetPath_nonneg_index s.strategy t s.i hI.strat (by omega)
        cases hg : (s.strategy.GetPath t s.i).2 with
        | none => rw [hg] at hsome; simp at hsome
        | some p =>
          simp only [hg] at h
          split at h
          · rename_i hbt
            cases h
            simp only [PaceInv] at hbt ⊢
            rcases hcase with ⟨h1, h2, h3⟩ | ⟨h1, h2, h3⟩
            · omega
            · omega
          · rename_i hbt
            cases h
            simp only [PaceInv, hpc] at hbt ⊢
            rcases hcase with ⟨h1, h2, h3⟩ | ⟨h1, h2, h3⟩
            · refine ⟨r + 1, by push_cast; omega, Or.inl ⟨by omega, by omega, ?_⟩⟩
              intro h0
              omega
            · omega
      | none =>
        simp only [ht] at h
        cases h
        have hiN : tiles.length ≤ s.i := by
          by_contra hcon
          have := List.getElem?_eq_some_iff.mpr ⟨(by omega : s.i < tiles.length), rfl⟩
          rw [ht] at this
          simp at this
        simp only [PaceInv]
        rcases hcase with ⟨h1, h2, h3⟩ | ⟨h1, h2, h3⟩
        · by_cases h0 : s.num = 0
          · left
            have hN : (tiles.length : Int) = 0 := by
              rcases h3 h0 with h4 | h4 <;> omega
            refine ⟨hN, ?_⟩
            have hz : (s.sleeps : Int) * b = 0 := by omega
            rcases mul_eq_zero.mp hz with h5 | h5
            · exact_mod_cast h5
            · omega
          · right
            exact ⟨r, by omega, by omega, by omega⟩
        · right
          exact ⟨r, by omega, by omega, by omega⟩
    | batchWait =>
      simp only [hpc] at h
      simp only [SchedInv, hpc] at hS
      simp only [PaceInv, hpc] at hp
      split at h
      · simp at h
      · split at h
        · rename_i hbrk
          split at h
          · rename_i hlt
            cases h
            simp only [PaceInv]
            have e : ((s.sleeps + 1 : Nat) : Int) * b = s.sleeps * b + b := by
              push_cast; ring
            refine ⟨0, by rw [e]; push_cast; omega, Or.inl ⟨by omega, by omega, ?_⟩⟩
            intro _
            left
            push_cast
            omega
          · rename_i hlt
            cases h
            simp only [PaceInv]
            refine ⟨b, by push_cast; omega, Or.inr ⟨rfl, by omega, by push_cast; omega⟩⟩
        · cases h
          simp only [PaceInv, hpc]
          exact hp
    | closeHead =>
      simp only [hpc] at h
      simp only [PaceInv, hpc] at hp
      split at h
      · split at h
        · simp at h
        · cases h
          simp only [PaceInv, hpc]
          exact hp
      · split at h
        · cases h
          simp only [PaceInv, hpc]
          exact hp
        · cases h
          simp only [PaceInv]
          exact hp
    | finished => simp [hpc] at h
  · obtain ⟨h1, h2, h3, h4⟩ := step_keeps_sched tiles b a s s' ha h
    unfold PaceInv at hp ⊢
    rw [h1, h2, h3, h4]
    exact hp

/-- Every state reached by a run from `Download` satisfies the pacing
invariant. -/
theorem PaceInv_run (tiles : List Tile) (b : Int) (hb : 1 ≤ b) (acts : List Action) :
    ∀ (s s' : Sys), Inv tiles s → PaceInv tiles.length b s →
      run tiles b acts s = some s' → PaceInv tiles.length b s' := by
  induction acts with
  | nil =>
    intro s s' _ hp h
    simp only [run, Option.some.injEq] at h
    exact h ▸ hp
  | cons a rest ih =>
    intro s s' hI hp h
    simp only [run] at h
    cases hstep : step tiles b a s with
    | none => rw [hstep] at h; simp at h
    | some s1 =>
      rw [hstep] at h
      exact ih s1 s' (Inv_step tiles b a s s1 hI hstep)
        (PaceInv_step tiles b hb a s s1 hI hp hstep) h

/-- Integer form of `ceil(n / b) - 1`: if `n = q * b + r` with `1 <= r <= b`
then `(n + b - 1) / b - 1 = q`. -/
theorem ceil_div_sub_one (n b q r : Int) (hb : 1 ≤ b) (h : q * b + r = n) (hr1 : 1 ≤ r)
    (hr2 : r ≤ b) : (n + b - 1) / b - 1 = q := by
  have hb0 : 0 < b := by omega
  have h1 : q + 1 ≤ (n + b - 1) / b := by
    rw [Int.le_ediv_iff_mul_le hb0]
    have : (q + 1) * b = q * b + b := by ring
    omega
  have h2 : (n + b - 1) / b < q + 2 := by
    rw [Int.ediv_lt_iff_lt_mul hb0]
    have : (q + 2) * b = q * b + 2 * b := by ring
    omega
  omega

/-- Under the two invariants the pauses taken so far never exceed the full
waves that still leave a tile to fetch. -/
theorem PaceInv_bound (tiles : List Tile) (b : Int) (hb : 1 ≤ b) (s : Sys) (hI : Inv tiles s)
    (hp : PaceInv tiles.length b s) :
    s.sleeps = 0 ∨ (s.sleeps : Int) * b + 1 ≤ tiles.length := by
  have hS := hI.sched
  unfold PaceInv at hp
  unfold SchedInv at hS
  cases hpc : s.pc with
  | rangeHead =>
    simp only [hpc] at hp hS
    obtain ⟨r, hr, hcase⟩ := hp
    rcases hcase with ⟨h1, h2, h3⟩ | ⟨h1, h2, h3⟩
    · by_cases h0 : s.num = 0
      · rcases h3 h0 with h4 | h4
        · right; omega
        · left
          have hz : (s.sleeps : Int) * b = 0 := by omega
          rcases mul_eq_zero.mp hz with h5 | h5
          · exact_mod_cast h5
          · omega
      · right; omega
    · right; omega
  | batchWait =>
    simp only [hpc] at hp hS
    right; omega
  | closeHead =>
    simp only [hpc] at hp
    rcases hp with ⟨_, h⟩ | ⟨r, h1, h2, h3⟩
    · left; exact h
    · right; omega
  | finished =>
    simp only [hpc] at hp
    rcases hp with ⟨_, h⟩ | ⟨r, h1, h2, h3⟩
    · left; exact h
    · right; omega

/-- C2: for every tile list, every strategy value, every batch size and every
interleaving of the goroutines' steps (every order in which the fetches
complete), in each reachable state no goroutine has panicked (so nothing is
sent on, or closes, a closed channel), at most `N` images have been sent, the
channel is closed only when the images sent are exactly one per submitted tile,
and the caller sees the close only after receiving exactly those `N` images;
every run has at most `5 N + 3` steps, and a run that cannot be continued has
delivered all `N` results and then the close. -/
theorem Download_delivers_all_then_closes (tiles : List Tile) (strategy : Option Strategy)
    (batchSize : Int) (acts : List Action) (s : Sys)
    (hst : ∀ st, strategy = some st → st.Reachable)
    (hrun : run tiles batchSize acts (Download strategy) = some s) :
    s.panicked = false
    ∧ (s.received ++ s.cBuf).length ≤ tiles.length
    ∧ (s.cClosed = true → ((s.received ++ s.cBuf).map Image.Tile).Perm tiles)
    ∧ (s.sawClose = true → (s.received.map Image.Tile).Perm tiles)
    ∧ acts.length ≤ 5 * tiles.length + 3
    ∧ ((∀ a, step tiles batchSize a s = none) →
        s.sawClose = true ∧ (s.received.map Image.Tile).Perm tiles) := by
  have h0 := Inv_Download tiles strategy hst
  have hI := Inv_run tiles batchSize acts _ s h0 hrun
  have hm := measure_run tiles batchSize acts _ s h0 hrun
  have hm0 := measure_nonneg tiles s hI
  have hsaw : s.sawClose = true → (s.received.map Image.Tile).Perm tiles := by
    intro hs
    obtain ⟨hc, hb⟩ := hI.sawClose hs
    have := Inv_closed_perm tiles s hI hc
    rw [hb, List.append_nil] at this
    exact this
  refine ⟨hI.noPanic, ?_, Inv_closed_perm tiles s hI, hsaw, ?_, ?_⟩
  · have h1 := hI.sentCount
    have h2 := (wsum_bounds wSent wSent_bounds s.workers).2
    have hS := hI.sched
    unfold SchedInv at hS
    cases hpc : s.pc <;> simp only [hpc] at hS <;> omega
  · have hinit : measure tiles (Download strategy) = 5 * (tiles.length : Int) + 3 := by
      simp only [measure, Download, wsum, List.length_nil]
      push_cast
      omega
    omega
  · intro hstuck
    have hs := stuck_sawClose tiles batchSize s hI hstuck
    exact ⟨hs, hsaw hs⟩

/-- C6: for every tile list of length `N`, every batch size `b >= 1` and every
interleaving, the number of `time.Sleep(pause)` calls made so far is 0 when
`N <= b` and at most `ceil(N/b) - 1` when `N >= 1`; once the scheduling loop is
over (the scheduling goroutine is in `closeWhenDone` or has returned) it is
exactly `ceil(N/b) - 1` for `N >= 1`; and every run that cannot be continued has
the scheduling goroutine returned, so the loop does finish. -/
theorem Download_pause_count (tiles : List Tile) (strategy : Option Strategy)
    (batchSize : Int) (acts : List Action) (s : Sys)
    (hst : ∀ st, strategy = some st → st.Reachable) (hb : 1 ≤ batchSize)
    (hrun : run tiles batchSize acts (Download strategy) = some s) :
    ((tiles.length : Int) ≤ batchSize → s.sleeps = 0)
    ∧ (1 ≤ tiles.length →
        (s.sleeps : Int) ≤ ((tiles.length : Int) + batchSize - 1) / batchSize - 1)
    ∧ (s.pc = .closeHead ∨ s.pc = .finished → 1 ≤ tiles.length →
        (s.sleeps : Int) = ((tiles.length : Int) + batchSize - 1) / batchSize - 1)
    ∧ ((∀ a, step tiles batchSize a s = none) → s.pc = .finished) := by
  have h0 := Inv_Download tiles strategy hst
  have hI := Inv_run tiles batchSize acts _ s h0 hrun
  have hp := PaceInv_run tiles batchSize hb acts _ s h0
    (PaceInv_Download tiles strategy batchSize hb) hrun
  have hbound := PaceInv_bound tiles batchSize hb s hI hp
  have hb0 : 0 < batchSize := by omega
  refine ⟨?_, ?_, ?_, ?_⟩
  · intro hN
    rcases hbound with h | h
    · exact h
    · by_contra hne
      have h1 : (1 : Int) ≤ s.sleeps := by omega
      have h2 : 1 * batchSize ≤ (s.sleeps : Int) * batchSize :=
        Int.mul_le_mul_of_nonneg_right h1 (by omega)
      omega
  · intro hN
    have hgoal : (s.sleeps : Int) + 1 ≤ ((tiles.length : Int) + batchSize - 1) / batchSize := by
      rw [Int.le_ediv_iff_mul_le hb0]
      have e : ((s.sleeps : Int) + 1) * batchSize = s.sleeps * batchSize + batchSize := by ring
      rcases hbound with h | h
      · rw [h]; push_cast; omega
      · omega
    omega
  · intro hpc hN
    have hfin : (tiles.length = (0 : Int) ∧ s.sleeps = 0) ∨ ∃ r : Int, 1 ≤ r ∧ r ≤ batchSize
        ∧ (s.sleeps : Int) * batchSize + r = tiles.length := by
      unfold PaceInv at hp
      rcases hpc with h | h <;> simp only [h] at hp <;> exact hp
    rcases hfin with ⟨h, _⟩ | ⟨r, h1, h2, h3⟩
    · omega
    · exact (ceil_div_sub_one _ _ _ r hb h3 h1 h2).symm
  · intro hstuck
    have hs := stuck_sawClose tiles batchSize s hI hstuck
    exact hI.cClosed_iff.mp (hI.sawClose hs).1

/-- The sample run for two tiles ends with both images received, one per tile. -/
theorem Download_delivers_all_then_closes_witness :
    run [{ X := 0, Y := 0, Zoom := 1 }, { X := 1, Y := 0, Zoom := 1 }] 1 sampleRun
        (Download none) = some sampleFinal
    ∧ (sampleFinal.received.map Image.Tile).Perm
        [{ X := 0, Y := 0, Zoom := 1 }, { X := 1, Y := 0, Zoom := 1 }] :=
  ⟨by decide,
   (Download_delivers_all_then_closes
      [{ X := 0, Y := 0, Zoom := 1 }, { X := 1, Y := 0, Zoom := 1 }] none 1 sampleRun
      sampleFinal (fun _ h => nomatch h) (by decide)).2.2.2.1 rfl⟩

/-- The sample run for two tiles with `batchSize = 1` pauses once:
`ceil(2 / 1) - 1 = 1`. -/
theorem Download_pause_count_witness :
    run [{ X := 0, Y := 0, Zoom := 1 }, { X := 1, Y := 0, Zoom := 1 }] 1 sampleRun
        (Download none) = some sampleFinal
    ∧ ((sampleFinal.sleeps : Int) = ((2 : Int) + 1 - 1) / 1 - 1) :=
  ⟨by decide,
   (Download_pause_count
      [{ X := 0, Y := 0, Zoom := 1 }, { X := 1, Y := 0, Zoom := 1 }] none 1 sampleRun
      sampleFinal (fun _ h => nomatch h) (by decide) (by decide)).2.2.1 (Or.inr rfl)
      (by decide)⟩

/-! ### Projection engine -/

/-- A loop range visits no value twice. -/
theorem intRange_nodup (lo hi : Int) : (intRange lo hi).Nodup := by
  unfold intRange
  apply List.Nodup.map
  · intro a b h
    simpa using h
  · exact List.nodup_range _

/-- The values of a loop range are those between the bounds. -/
theorem mem_intRange (lo hi v : Int) : v ∈ intRange lo hi ↔ lo ≤ v ∧ v ≤ hi := by
  unfold intRange
  simp only [List.mem_map, List.mem_range]
  constructor
  · rintro ⟨k, hk, rfl⟩
    omega
  · intro h
    exact ⟨(v - lo).toNat, by omega, by omega⟩

/-- A loop range is empty exactly when the upper bound is below the lower. -/
theorem intRange_eq_nil (lo hi : Int) : intRange lo hi = [] ↔ hi < lo := by
  unfold intRange
  simp only [List.map_eq_nil_iff, List.range_eq_nil]
  omega

/-- A loop from `v` to `v` visits `v` once. -/
theorem intRange_self (v : Int) : intRange v v = [v] := by
  unfold intRange
  have : (v + 1 - v).toNat = 1 := by omega
  rw [this]
  simp [List.range_succ]

/-- The tiles of one zoom level are pairwise different and carry that zoom. -/
theorem zoomGrid_nodup (x0 x1 y0 y1 : Tile) (zoom : Int) :
    (zoomGrid x0 x1 y0 y1 zoom).Nodup := by
  unfold zoomGrid
  rw [List.nodup_flatMap]
  refine ⟨?_, ?_⟩
  · intro i _
    apply List.Nodup.map
    · intro a b h
      simpa using h
    · exact intRange_nodup _ _
  · apply List.Nodup.pairwise_of_forall_ne (intRange_nodup _ _)
    intro a _ b _ hab
    simp only [Function.onFun, List.disjoint_left, List.mem_map]
    rintro t ⟨j, _, rfl⟩ ⟨j', _, h⟩
    simp only [Tile.mk.injEq] at h
    exact hab h.1.symm

/-- The tiles of one zoom level are those within the four bounds, at that zoom. -/
theorem mem_zoomGrid (x0 x1 y0 y1 : Tile) (zoom : Int) (t : Tile) :
    t ∈ zoomGrid x0 x1 y0 y1 zoom ↔
      x0.X ≤ t.X ∧ t.X ≤ x1.X ∧ y0.Y ≤ t.Y ∧ t.Y ≤ y1.Y ∧ t.Zoom = zoom := by
  unfold zoomGrid
  simp only [List.mem_flatMap, List.mem_map, mem_intRange]
  constructor
  · rintro ⟨i, hi, j, hj, rfl⟩
    exact ⟨hi.1, hi.2, hj.1, hj.2, rfl⟩
  · rintro ⟨h1, h2, h3, h4, h5⟩
    exact ⟨t.X, ⟨h1, h2⟩, t.Y, ⟨h3, h4⟩, by rw [← h5]⟩

/-- Grids built for pairwise different zoom levels, one after the other, hold
no tile twice. -/
theorem zoomLevels_nodup (zs : List Int) (hz : zs.Nodup) (c : Int → Tile × Tile × Tile × Tile) :
    (zs.flatMap fun zoom => zoomGrid (c zoom).1 (c zoom).2.1 (c zoom).2.2.1 (c zoom).2.2.2 zoom).Nodup := by
  rw [List.nodup_flatMap]
  refine ⟨fun z _ => zoomGrid_nodup _ _ _ _ z, ?_⟩
  apply List.Nodup.pairwise_of_forall_ne hz
  intro a _ b _ hab
  simp only [Function.onFun, List.disjoint_left]
  intro t hta htb
  have h1 := ((mem_zoomGrid _ _ _ _ a t).mp hta).2.2.2.2
  have h2 := ((mem_zoomGrid _ _ _ _ b t).mp htb).2.2.2.2
  exact hab (h1.symm.trans h2)

/-- The conversion `int(math.Floor(x))` is the integer floor. -/
theorem goInt_goFloor {F : Type} [LinearOrderedField F] [FloorRing F] (x : F) :
    goInt (goFloor x) = ⌊x⌋ := by
  unfold goInt goFloor
  split <;> simp

/-- Converting an integer-valued float gives that integer. -/
theorem goInt_intCast {F : Type} [LinearOrderedField F] [FloorRing F] (n : Int) :
    goInt (n : F) = n := by
  unfold goInt
  split <;> simp

/-- The floor of a quotient of an integer by 256 is the integer quotient. -/
theorem floor_div_TILESIZE {F : Type} [LinearOrderedField F] [FloorRing F] (n : Int) :
    ⌊(n : F) / (TILESIZE : F)⌋ = n / 256 := by
  have h : (TILESIZE : F) = 256 := by simp [TILESIZE]
  have hq := Int.ediv_add_emod n 256
  have hr0 := Int.emod_nonneg n (by norm_num : (256 : Int) ≠ 0)
  have hr1 := Int.emod_lt_of_pos n (by norm_num : (0 : Int) < 256)
  have hn : (n : F) = 256 * ((n / 256 : Int) : F) + ((n % 256 : Int) : F) := by
    exact_mod_cast hq.symm
  have h0 : (0 : F) ≤ ((n % 256 : Int) : F) := by exact_mod_cast hr0
  have h1 : ((n % 256 : Int) : F) < 256 := by exact_mod_cast hr1
  rw [h, Int.floor_eq_iff]
  constructor
  · rw [le_div_iff₀ (by norm_num)]
    linarith
  · rw [div_lt_iff₀ (by norm_num)]
    linarith

/-- Real reading: nothing is rounded. -/
theorem realMath_rnd (x : ℝ) : realMath.rnd x = x := rfl

/-- Real reading: `math.Exp(float64(zoom) * math.Log(2))` is `2 ^ zoom`. -/
theorem realMath_exp_log (z : Int) :
    realMath.Exp (realMath.rnd (realMath.rnd (z : ℝ) * realMath.Log 2)) = (2 : ℝ) ^ z := by
  show Real.exp ((z : ℝ) * Real.log 2) = (2 : ℝ) ^ z
  rw [mul_comm, ← Real.rpow_def_of_pos (by norm_num), Real.rpow_intCast]

/-- Real reading: `int(math.Pow(2, float64(zoom)))` is `2 ^ zoom` for
`zoom >= 0`. -/
theorem realMath_maxTile (z : Int) (hz : 0 ≤ z) :
    goInt (realMath.Pow 2 (z : ℝ)) = 2 ^ z.toNat := by
  show goInt ((2 : ℝ) ^ (z : ℝ)) = 2 ^ z.toNat
  obtain ⟨n, rfl⟩ := Int.eq_ofNat_of_zero_le hz
  have h : ((2 : ℝ) ^ (((n : Int)) : ℝ)) = (((2 ^ n : Int)) : ℝ) := by
    rw [Int.cast_natCast, Real.rpow_natCast]
    push_cast
    rfl
  rw [h, goInt_intCast]
  simp

/-- Real reading: the x pixel of a longitude given in degrees. -/
theorem lonToXPixels_real (lon : ℝ) (z : Int) :
    lonToXPixels realMath (toRad realMath lon) z = ⌊(lon + 180) / 360 * (2 : ℝ) ^ z * 256⌋ := by
  unfold lonToXPixels
  simp only [realMath_exp_log]
  simp only [goInt_goFloor, realMath_rnd]
  congr 1
  have hpi : Real.pi ≠ 0 := Real.pi_ne_zero
  show (lon * Real.pi / 180 * ((TILESIZE : Int) : ℝ) * (2 : ℝ) ^ z) / (2 * Real.pi)
      + (2 : ℝ) ^ z * (((TILESIZE / 2 : Int)) : ℝ) = _
  have h1 : ((TILESIZE : Int) : ℝ) = 256 := by simp [TILESIZE]
  have h2 : (((TILESIZE / 2 : Int)) : ℝ) = 128 := by
    have : (TILESIZE / 2 : Int) = 128 := by decide
    rw [this]; norm_num
  rw [h1, h2]
  field_simp
  ring

/-- Real reading: the y pixel of a latitude given in degrees. -/
theorem latToYPixels_real (lat : ℝ) (z : Int) :
    latToYPixels realMath (toRad realMath lat) z
      = ⌊(1 - realMath.Atanh (Real.sin (lat * Real.pi / 180)) / Real.pi) / 2
          * (2 : ℝ) ^ z * 256⌋ := by
  unfold latToYPixels
  simp only [realMath_exp_log]
  simp only [goInt_goFloor, realMath_rnd]
  congr 1
  have hpi : Real.pi ≠ 0 := Real.pi_ne_zero
  show -((realMath.Atanh (Real.sin (lat * Real.pi / 180)) * ((TILESIZE : Int) : ℝ)
        * (2 : ℝ) ^ z) / (2 * Real.pi))
      + (2 : ℝ) ^ z * (((TILESIZE / 2 : Int)) : ℝ) = _
  have h1 : ((TILESIZE : Int) : ℝ) = 256 := by simp [TILESIZE]
  have h2 : (((TILESIZE / 2 : Int)) : ℝ) = 128 := by
    have : (TILESIZE / 2 : Int) = 128 := by decide
    rw [this]; norm_num
  rw [h1, h2]
  field_simp
  ring

/-- The function `getMercatorFromGPS` is its integer part applied to the two pixel
coordinates and `maxTile`. -/
theorem getMercatorFromGPS_eq {F : Type} [LinearOrderedField F] [FloorRing F] (M : GoMath F)
    (p : Point F) (zoom : Int) (hr : ∀ n : Int, M.rnd (n : F) = n)
    (hd : ∀ n : Int, M.rnd ((n : F) / (TILESIZE : F)) = (n : F) / (TILESIZE : F)) :
    getMercatorFromGPS M p zoom =
      tileOfPixels (lonToXPixels M (toRad M p.Lon) zoom) (latToYPixels M (toRad M p.Lat) zoom)
        (goInt (M.Pow 2 (zoom : F))) zoom := by
  unfold getMercatorFromGPS tileOfPixels
  simp only [hr, hd, goInt_goFloor, floor_div_TILESIZE]

/-- The wrap handles one turn below and two turns above: for `maxTile = T > 0`,
`W = 256 T` and `-W <= p < 3 W` the tile x is `(p mod W) / 256`, within `[0, T)`. -/
theorem tileOfPixels_wrap (p py T z : Int) (hT : 0 < T) (hlo : -(T * 256) ≤ p)
    (hhi : p < 3 * (T * 256)) :
    (tileOfPixels p py T z).X = p % (T * 256) / 256
    ∧ 0 ≤ (tileOfPixels p py T z).X ∧ (tileOfPixels p py T z).X < T := by
  have hmod : ∀ k r : Int, p = r + T * 256 * k → 0 ≤ r → r < T * 256 → p % (T * 256) = r := by
    intro k r hp h0 h1
    rw [hp, Int.add_mul_emod_self_left, Int.emod_eq_of_lt h0 h1]
  simp only [tileOfPixels, TILESIZE]
  by_cases h1 : p < 0
  · rw [hmod (-1) (p + T * 256) (by ring) (by omega) (by omega)]
    simp only [h1, if_true]
    split <;> omega
  · by_cases h2 : p > T * 256
    · simp only [h1, h2, if_false, if_true]
      by_cases h3 : p < 2 * (T * 256)
      · rw [hmod 1 (p - T * 256) (by ring) (by omega) (by omega)]
        split <;> omega
      · rw [hmod 2 (p - 2 * (T * 256)) (by ring) (by omega) (by omega)]
        split <;> omega
    · simp only [h1, h2, if_false]
      by_cases h3 : p = T * 256
      · rw [hmod 1 0 (by omega) (by omega) (by omega)]
        split <;> omega
      · rw [hmod 0 p (by ring) (by omega) (by omega)]
        split <;> omega

/-- Without wrap: for a pixel `0 <= p < 256 T`, or for `T = 0` and `p >= 0`,
the tile x is `p / 256`. -/
theorem tileOfPixels_inside (p py T z : Int) (h0 : 0 ≤ p)
    (h : p < T * 256 ∨ T = 0) :
    tileOfPixels p py T z = { X := p / 256, Y := py / 256, Zoom := z } := by
  simp only [tileOfPixels, TILESIZE, Tile.mk.injEq, and_true]
  rcases h with h | h
  · rw [if_neg (by omega), if_neg (by omega), if_neg (by omega)]
  · subst h
    simp only [zero_mul, add_zero, sub_zero, ite_self]

/-- Dividing the floor of `256 x` by 256 gives the floor of `x`. -/
theorem floor_mul_TILESIZE_div (x : ℝ) : ⌊x * 256⌋ / 256 = ⌊x⌋ := by
  have h1 : ((⌊x⌋ : Int) : ℝ) ≤ x := Int.floor_le x
  have h2 : x < ((⌊x⌋ : Int) : ℝ) + 1 := Int.lt_floor_add_one x
  have h3 : ⌊x⌋ * 256 ≤ ⌊x * 256⌋ := by
    rw [Int.le_floor]; push_cast; linarith
  have h4 : ⌊x * 256⌋ < ⌊x⌋ * 256 + 256 := by
    rw [Int.floor_lt]; push_cast; linarith
  omega

/-- C9 (refutation): no input makes `getTileCoords` return the same tile at two
different positions: within one zoom level the pairs `(i, j)` of the two loops
are pairwise different, and different zoom levels give different tiles. -/
theorem getTileCoords_no_repeated_tile :
    ¬ ∃ (lat lon radius : ℝ) (minZoom maxZoom : Int) (p q : Nat) (t : Tile), p ≠ q
      ∧ (getTileCoords realMath lat lon radius minZoom maxZoom)[p]? = some t
      ∧ (getTileCoords realMath lat lon radius minZoom maxZoom)[q]? = some t := by
  rintro ⟨lat, lon, radius, minZoom, maxZoom, p, q, t, hpq, hp, hq⟩
  have hnd : (getTileCoords realMath lat lon radius minZoom maxZoom).Nodup :=
    zoomLevels_nodup (intRange minZoom maxZoom) (intRange_nodup _ _) fun zoom =>
      (getMercatorFromGPS realMath (translate realMath lat lon radius 270) zoom,
       getMercatorFromGPS realMath (translate realMath lat lon radius 90) zoom,
       getMercatorFromGPS realMath (translate realMath lat lon radius 0) zoom,
       getMercatorFromGPS realMath (translate realMath lat lon radius 180) zoom)
  obtain ⟨hp1, hp2⟩ := List.getElem?_eq_some_iff.mp hp
  obtain ⟨hq1, hq2⟩ := List.getElem?_eq_some_iff.mp hq
  exact hpq ((List.Nodup.getElem_inj_iff hnd).mp (hp2.trans hq2.symm))

/-- C9 (amended): for every reading of the `math` functions and every input, the
list returned by `getTileCoords` holds no tile twice, and each of its tiles
carries a zoom level within `[minZoom, maxZoom]`. -/
theorem getTileCoords_nodup {F : Type} [LinearOrderedField F] [FloorRing F] (M : GoMath F)
    (lat lon radius : F) (minZoom maxZoom : Int) :
    (getTileCoords M lat lon radius minZoom maxZoom).Nodup
    ∧ ∀ t ∈ getTileCoords M lat lon radius minZoom maxZoom,
        minZoom ≤ t.Zoom ∧ t.Zoom ≤ maxZoom := by
  constructor
  · exact zoomLevels_nodup (intRange minZoom maxZoom) (intRange_nodup _ _) fun zoom =>
      (getMercatorFromGPS M (translate M lat lon radius 270) zoom,
       getMercatorFromGPS M (translate M lat lon radius 90) zoom,
       getMercatorFromGPS M (translate M lat lon radius 0) zoom,
       getMercatorFromGPS M (translate M lat lon radius 180) zoom)
  · intro t ht
    unfold getTileCoords at ht
    simp only [List.mem_flatMap] at ht
    obtain ⟨zoom, hz, hmem⟩ := ht
    have h5 := ((mem_zoomGrid _ _ _ _ zoom t).mp hmem).2.2.2.2
    rw [h5]
    exact (mem_intRange _ _ _).mp hz

/-- C4 (amended): for every reading of the `math` functions, every latitude,
longitude, radius and zoom `z`, `getTileCoords(lat, lon, radius, z, z)` is exactly
the grid of tiles `(i, j, z)` with `i` from the west tile's X to the east tile's X
and `j` from the north tile's Y to the south tile's Y, in loop order; it is
non-empty exactly when west X <= east X and north Y <= south Y; and when the four
cardinal points fall in one tile it is that single tile. -/
theorem getTileCoords_single_zoom {F : Type} [LinearOrderedField F] [FloorRing F]
    (M : GoMath F) (lat lon radius : F) (z : Int) :
    getTileCoords M lat lon radius z z
      = ((intRange (getMercatorFromGPS M (translate M lat lon radius 270) z).X
          (getMercatorFromGPS M (translate M lat lon radius 90) z).X).flatMap fun i =>
          (intRange (getMercatorFromGPS M (translate M lat lon radius 0) z).Y
            (getMercatorFromGPS M (translate M lat lon radius 180) z).Y).map fun j =>
            ({ X := i, Y := j, Zoom := z } : Tile))
    ∧ (getTileCoords M lat lon radius z z ≠ [] ↔
        (getMercatorFromGPS M (translate M lat lon radius 270) z).X
            ≤ (getMercatorFromGPS M (translate M lat lon radius 90) z).X
          ∧ (getMercatorFromGPS M (translate M lat lon radius 0) z).Y
            ≤ (getMercatorFromGPS M (translate M lat lon radius 180) z).Y)
    ∧ (∀ T : Tile,
        getMercatorFromGPS M (translate M lat lon radius 270) z = T →
        getMercatorFromGPS M (translate M lat lon radius 90) z = T →
        getMercatorFromGPS M (translate M lat lon radius 0) z = T →
        getMercatorFromGPS M (translate M lat lon radius 180) z = T →
        getTileCoords M lat lon radius z z = [T]) := by
  have hgrid : getTileCoords M lat lon radius z z
      = zoomGrid (getMercatorFromGPS M (translate M lat lon radius 270) z)
          (getMercatorFromGPS M (translate M lat lon radius 90) z)
          (getMercatorFromGPS M (translate M lat lon radius 0) z)
          (getMercatorFromGPS M (translate M lat lon radius 180) z) z := by
    unfold getTileCoords
    rw [intRange_self]
    simp
  refine ⟨hgrid, ?_, ?_⟩
  · rw [hgrid]
    constructor
    · intro hne
      obtain ⟨t, ht⟩ := List.exists_mem_of_ne_nil _ hne
      have := (mem_zoomGrid _ _ _ _ z t).mp ht
      omega
    · rintro ⟨hx, hy⟩
      apply List.ne_nil_of_mem
      exact (mem_zoomGrid _ _ _ _ z
        ({ X := (getMercatorFromGPS M (translate M lat lon radius 270) z).X
           Y := (getMercatorFromGPS M (translate M lat lon radius 0) z).Y
           Zoom := z } : Tile)).mpr ⟨le_refl _, hx, le_refl _, hy, rfl⟩
  · intro T hW hE hN hS
    rw [hgrid, hW, hE, hN, hS]
    have hz : T.Zoom = z := by rw [← hW]; rfl
    unfold zoomGrid
    rw [intRange_self, intRange_self]
    simp [← hz]

/-- C7 (amended): in the real reading, for `zoom = z >= 1` and a point whose x
pixel `p = lonToXPixels(toRad(lon), z)` satisfies `-W <= p < 3 W` with
`W = 2^z * 256`, the tile x returned by `getMercatorFromGPS` is
`floor((p mod W) / 256)` and lies in `[0, 2^z)`. -/
theorem getMercatorFromGPS_wrap (p : Point ℝ) (z : Int) (hz : 1 ≤ z)
    (hlo : -(2 ^ z.toNat * 256) ≤ lonToXPixels realMath (toRad realMath p.Lon) z)
    (hhi : lonToXPixels realMath (toRad realMath p.Lon) z < 3 * (2 ^ z.toNat * 256)) :
    (getMercatorFromGPS realMath p z).X
        = lonToXPixels realMath (toRad realMath p.Lon) z % (2 ^ z.toNat * 256) / 256
    ∧ 0 ≤ (getMercatorFromGPS realMath p z).X
    ∧ (getMercatorFromGPS realMath p z).X < 2 ^ z.toNat := by
  rw [getMercatorFromGPS_eq realMath _ _ (fun _ => rfl) (fun _ => rfl), realMath_maxTile z (by omega)]
  exact tileOfPixels_wrap _ _ _ z (by positivity) hlo hhi

/-- C7 (counterexample): at zoom 1 the longitude 900 degrees has x pixel
`p = 1536 = 3 W` (`W = 512`); the single subtraction of `W` and the single
correction by `2^zoom` leave the tile x at 2, outside `[0, 2)`, where
`floor((p mod W) / 256)` is 0. -/
theorem getMercatorFromGPS_wrap_fails :
    lonToXPixels realMath (toRad realMath 900) 1 = 1536
    ∧ (getMercatorFromGPS realMath { Lat := 0, Lon := 900 } 1).X = 2
    ∧ ¬ ((getMercatorFromGPS realMath { Lat := 0, Lon := 900 } 1).X
          = lonToXPixels realMath (toRad realMath 900) 1 % (2 ^ 1 * 256) / 256
        ∧ (getMercatorFromGPS realMath { Lat := 0, Lon := 900 } 1).X < 2 ^ 1) := by
  have hp : lonToXPixels realMath (toRad realMath 900) 1 = 1536 := by
    rw [lonToXPixels_real]
    have : ((900 : ℝ) + 180) / 360 * (2 : ℝ) ^ (1 : Int) * 256 = ((1536 : Int) : ℝ) := by
      norm_num
    rw [this, Int.floor_intCast]
  have hX : (getMercatorFromGPS realMath { Lat := 0, Lon := 900 } 1).X = 2 := by
    rw [getMercatorFromGPS_eq realMath _ _ (fun _ => rfl) (fun _ => rfl), realMath_maxTile 1 (by norm_num)]
    simp only [hp]
    simp [tileOfPixels, TILESIZE]
  refine ⟨hp, hX, ?_⟩
  rw [hX]
  omega

/-- Real reading: the argument of `cos θ + i sin θ` for `-π < θ <= π`. -/
theorem realMath_Atan2_sin_cos (θ : ℝ) (h1 : -Real.pi < θ) (h2 : θ ≤ Real.pi) :
    realMath.Atan2 (Real.sin θ) (Real.cos θ) = θ := by
  show Complex.arg ⟨Real.cos θ, Real.sin θ⟩ = θ
  have h := Complex.arg_cos_add_sin_mul_I (θ := θ) ⟨h1, h2⟩
  have e : (⟨Real.cos θ, Real.sin θ⟩ : ℂ) = Complex.cos θ + Complex.sin θ * Complex.I := by
    apply Complex.ext
    · simp [← Complex.ofReal_cos, ← Complex.ofReal_sin]
    · simp [← Complex.ofReal_cos, ← Complex.ofReal_sin]
  rw [e, h]

/-- Real reading: the point one earth radius west of latitude 0, longitude 180
is at latitude 0 and longitude `(π - 1)` radians. -/
theorem translate_west :
    translate realMath 0 180 6378100 270
      = { Lat := toDeg realMath 0, Lon := toDeg realMath (Real.pi - 1) } := by
  have hpi := Real.pi_gt_d2
  have hpi' := Real.pi_lt_d2
  have hb : toRad realMath 270 = Real.pi + Real.pi / 2 := by
    show (270 : ℝ) * Real.pi / 180 = _
    ring
  have hl : toRad realMath 180 = Real.pi := by
    show (180 : ℝ) * Real.pi / 180 = _
    ring
  have h0 : toRad realMath 0 = 0 := by
    show (0 : ℝ) * Real.pi / 180 = _
    ring
  have hd : (6378100 : ℝ) / ((R : Int) : ℝ) = 1 := by
    simp [R]
  have hcos : Real.cos (Real.pi + Real.pi / 2) = 0 := by
    rw [Real.cos_add_pi_div_two, Real.sin_pi, neg_zero]
  have hsin : Real.sin (Real.pi + Real.pi / 2) = -1 := by
    rw [Real.sin_add_pi_div_two, Real.cos_pi]
  have harg : realMath.Atan2 (-1 * Real.sin 1 * 1) (Real.cos 1 - 0 * 0) = -1 := by
    have := realMath_Atan2_sin_cos (-1) (by linarith) (by linarith)
    rw [Real.sin_neg, Real.cos_neg] at this
    have e1 : -1 * Real.sin 1 * 1 = -Real.sin 1 := by ring
    have e2 : Real.cos 1 - 0 * 0 = Real.cos 1 := by ring
    rw [e1, e2]
    exact this
  have hmod : goFmod (Real.pi + -1 + 3 * Real.pi) (2 * Real.pi) = 2 * Real.pi - 1 := by
    unfold goFmod goInt
    have hq : ⌊(Real.pi + -1 + 3 * Real.pi) / (2 * Real.pi)⌋ = 1 := by
      rw [Int.floor_eq_iff]
      constructor
      · rw [le_div_iff₀ (by positivity)]; push_cast; linarith
      · rw [div_lt_iff₀ (by positivity)]; push_cast; linarith
    have hpos : 0 ≤ (Real.pi + -1 + 3 * Real.pi) / (2 * Real.pi) := by
      apply div_nonneg <;> linarith
    rw [if_pos hpos, hq]
    push_cast
    ring
  unfold translate
  simp only [hb, hl, h0, hd]
  show ({ Lat := toDeg realMath (Real.arcsin (Real.sin 0 * Real.cos 1
          + Real.cos 0 * Real.sin 1 * Real.cos (Real.pi + Real.pi / 2)))
          Lon := toDeg realMath (goFmod (Real.pi + realMath.Atan2
            (Real.sin (Real.pi + Real.pi / 2) * Real.sin 1 * Real.cos 0)
            (Real.cos 1 - Real.sin 0 * Real.sin (Real.arcsin (Real.sin 0 * Real.cos 1
              + Real.cos 0 * Real.sin 1 * Real.cos (Real.pi + Real.pi / 2))))
            + 3 * Real.pi) (2 * Real.pi) - Real.pi) } : Point ℝ) = _
  have hlat : Real.arcsin (Real.sin 0 * Real.cos 1
      + Real.cos 0 * Real.sin 1 * Real.cos (Real.pi + Real.pi / 2)) = 0 := by
    rw [hcos, Real.sin_zero]
    simp
  rw [hlat, hsin, Real.cos_zero, Real.sin_zero, harg, hmod]
  congr 2
  ring

/-- Real reading: the point one earth radius east of latitude 0, longitude 180
is at latitude 0 and longitude `(1 - π)` radians: the longitude has wrapped. -/
theorem translate_east :
    translate realMath 0 180 6378100 90
      = { Lat := toDeg realMath 0, Lon := toDeg realMath (1 - Real.pi) } := by
  have hpi := Real.pi_gt_d2
  have hpi' := Real.pi_lt_d2
  have hb : toRad realMath 90 = Real.pi / 2 := by
    show (90 : ℝ) * Real.pi / 180 = _
    ring
  have hl : toRad realMath 180 = Real.pi := by
    show (180 : ℝ) * Real.pi / 180 = _
    ring
  have h0 : toRad realMath 0 = 0 := by
    show (0 : ℝ) * Real.pi / 180 = _
    ring
  have hd : (6378100 : ℝ) / ((R : Int) : ℝ) = 1 := by
    simp [R]
  have harg : realMath.Atan2 (1 * Real.sin 1 * 1) (Real.cos 1 - 0 * 0) = 1 := by
    have := realMath_Atan2_sin_cos 1 (by linarith) (by linarith)
    have e1 : 1 * Real.sin 1 * 1 = Real.sin 1 := by ring
    have e2 : Real.cos 1 - 0 * 0 = Real.cos 1 := by ring
    rw [e1, e2]
    exact this
  have hmod : goFmod (Real.pi + 1 + 3 * Real.pi) (2 * Real.pi) = 1 := by
    unfold goFmod goInt
    have hq : ⌊(Real.pi + 1 + 3 * Real.pi) / (2 * Real.pi)⌋ = 2 := by
      rw [Int.floor_eq_iff]
      constructor
      · rw [le_div_iff₀ (by positivity)]; push_cast; linarith
      · rw [div_lt_iff₀ (by positivity)]; push_cast; linarith
    have hpos : 0 ≤ (Real.pi + 1 + 3 * Real.pi) / (2 * Real.pi) := by
      apply div_nonneg <;> linarith
    rw [if_pos hpos, hq]
    push_cast
    ring
  unfold translate
  simp only [hb, hl, h0, hd]
  show ({ Lat := toDeg realMath (Real.arcsin (Real.sin 0 * Real.cos 1
          + Real.cos 0 * Real.sin 1 * Real.cos (Real.pi / 2)))
          Lon := toDeg realMath (goFmod (Real.pi + realMath.Atan2
            (Real.sin (Real.pi / 2) * Real.sin 1 * Real.cos 0)
            (Real.cos 1 - Real.sin 0 * Real.sin (Real.arcsin (Real.sin 0 * Real.cos 1
              + Real.cos 0 * Real.sin 1 * Real.cos (Real.pi / 2))))
            + 3 * Real.pi) (2 * Real.pi) - Real.pi) } : Point ℝ) = _
  have hlat : Real.arcsin (Real.sin 0 * Real.cos 1
      + Real.cos 0 * Real.sin 1 * Real.cos (Real.pi / 2)) = 0 := by
    rw [Real.cos_pi_div_two, Real.sin_zero]
    simp
  rw [hlat, Real.sin_pi_div_two, Real.cos_zero, Real.sin_zero, harg, hmod]

/-- Real reading: converting radians to degrees and back is the identity. -/
theorem toRad_toDeg (x : ℝ) : toRad realMath (toDeg realMath x) = x := by
  show x * 180 / Real.pi * Real.pi / 180 = x
  have hpi : Real.pi ≠ 0 := Real.pi_ne_zero
  field_simp

/-- C4 (counterexample): at latitude 0, longitude 180 and radius 6378100 m (one
earth radius), zoom 1, the west point falls in tile column 1 and the east point,
across the antimeridian, in column 0, so the loop over `i` from 1 to 0 does not
run and `getTileCoords` returns the empty list. -/
theorem getTileCoords_empty_across_antimeridian :
    (getMercatorFromGPS realMath (translate realMath 0 180 6378100 270) 1).X = 1
    ∧ (getMercatorFromGPS realMath (translate realMath 0 180 6378100 90) 1).X = 0
    ∧ getTileCoords realMath 0 180 6378100 1 1 = [] := by
  have hpi := Real.pi_gt_d2
  have hpi' := Real.pi_lt_d2
  have hpos : (0 : ℝ) < Real.pi := Real.pi_pos
  have hW : lonToXPixels realMath (toRad realMath (toDeg realMath (Real.pi - 1))) 1 = 430 := by
    rw [lonToXPixels_real, Int.floor_eq_iff]
    have e : (toDeg realMath (Real.pi - 1) + 180) / 360 * (2 : ℝ) ^ (1 : Int) * 256
        = 512 - 256 / Real.pi := by
      show ((Real.pi - 1) * 180 / Real.pi + 180) / 360 * (2 : ℝ) ^ (1 : Int) * 256 = _
      field_simp
      ring
    rw [e]
    have h1 : 256 / Real.pi < 82 := by rw [div_lt_iff₀ hpos]; linarith
    have h2 : 81 < 256 / Real.pi := by rw [lt_div_iff₀ hpos]; linarith
    constructor <;> push_cast <;> linarith
  have hE : lonToXPixels realMath (toRad realMath (toDeg realMath (1 - Real.pi))) 1 = 81 := by
    rw [lonToXPixels_real, Int.floor_eq_iff]
    have e : (toDeg realMath (1 - Real.pi) + 180) / 360 * (2 : ℝ) ^ (1 : Int) * 256
        = 256 / Real.pi := by
      show ((1 - Real.pi) * 180 / Real.pi + 180) / 360 * (2 : ℝ) ^ (1 : Int) * 256 = _
      field_simp
      ring
    rw [e]
    have h1 : 256 / Real.pi < 82 := by rw [div_lt_iff₀ hpos]; linarith
    have h2 : 81 < 256 / Real.pi := by rw [lt_div_iff₀ hpos]; linarith
    constructor <;> push_cast <;> linarith
  have hX0 : (getMercatorFromGPS realMath (translate realMath 0 180 6378100 270) 1).X = 1 := by
    rw [translate_west, getMercatorFromGPS_eq realMath _ _ (fun _ => rfl) (fun _ => rfl), realMath_maxTile 1 (by norm_num)]
    simp only [hW]
    simp [tileOfPixels, TILESIZE]
  have hX1 : (getMercatorFromGPS realMath (translate realMath 0 180 6378100 90) 1).X = 0 := by
    rw [translate_east, getMercatorFromGPS_eq realMath _ _ (fun _ => rfl) (fun _ => rfl), realMath_maxTile 1 (by norm_num)]
    simp only [hE]
    simp [tileOfPixels, TILESIZE]
  refine ⟨hX0, hX1, ?_⟩
  unfold getTileCoords
  rw [intRange_self]
  simp only [List.flatMap_cons, List.flatMap_nil, List.append_nil]
  unfold zoomGrid
  rw [hX0, hX1, (intRange_eq_nil 1 0).mpr (by norm_num)]
  rfl


/-- Taylor bound for the sine up to degree 9. -/
theorem sin_taylor9 (x : ℝ) (hx : |x| ≤ 1) :
    |Real.sin x - (x - x ^ 3 / 6 + x ^ 5 / 120 - x ^ 7 / 5040 + x ^ 9 / 362880)|
      ≤ |x| ^ 10 * (11 / 36288000) := by
  have habs : Complex.abs ((x : ℂ) * Complex.I) = |x| := by simp
  have h := Complex.exp_bound (x := (x : ℂ) * Complex.I) (by rw [habs]; exact hx)
    (n := 10) (by norm_num)
  rw [habs] at h
  have him := (Complex.abs_im_le_abs
    (Complex.exp ((x : ℂ) * Complex.I)
      - ∑ m ∈ Finset.range 10, ((x : ℂ) * Complex.I) ^ m / (m.factorial : ℂ))).trans h
  have e : (Complex.exp ((x : ℂ) * Complex.I)
      - ∑ m ∈ Finset.range 10, ((x : ℂ) * Complex.I) ^ m / (m.factorial : ℂ)).im
      = Real.sin x - (x - x ^ 3 / 6 + x ^ 5 / 120 - x ^ 7 / 5040 + x ^ 9 / 362880) := by
    rw [Complex.sub_im, Complex.exp_ofReal_mul_I_im]
    congr 1
    have hI2 : Complex.I ^ 2 = -1 := Complex.I_sq
    have hI3 : Complex.I ^ 3 = -Complex.I := by rw [pow_succ, hI2]; ring
    have hI4 : Complex.I ^ 4 = 1 := Complex.I_pow_four
    have hI5 : Complex.I ^ 5 = Complex.I := by rw [pow_succ, hI4]; ring
    have hI6 : Complex.I ^ 6 = -1 := by rw [pow_succ, hI5]; exact Complex.I_mul_I
    have hI7 : Complex.I ^ 7 = -Complex.I := by rw [pow_succ, hI6]; ring
    have hI8 : Complex.I ^ 8 = 1 := by rw [pow_succ, hI7]; simp
    have hI9 : Complex.I ^ 9 = Complex.I := by rw [pow_succ, hI8]; ring
    simp only [Finset.sum_range_succ, Finset.sum_range_zero, mul_pow, hI2, hI3, hI4, hI5, hI6,
      hI7, hI8, hI9, Nat.factorial]
    simp only [Complex.add_im, Complex.div_natCast_im, Complex.mul_im, Complex.neg_im,
      Complex.I_im, Complex.I_re, Complex.one_im, Complex.one_re, Complex.neg_re]
    simp [← Complex.ofReal_pow]
    ring
  rw [e] at him
  calc _ ≤ |x| ^ 10 * (((10 : ℕ).succ : ℝ) * (((10 : ℕ).factorial : ℝ) * (10 : ℕ))⁻¹) := him
    _ = |x| ^ 10 * (11 / 36288000) := by
      congr 1
      norm_num [Nat.factorial]

/-- Taylor bound for the exponential up to degree 9. -/
theorem exp_taylor10 (x : ℝ) (hx : |x| ≤ 1) :
    |Real.exp x - (1 + x + x ^ 2 / 2 + x ^ 3 / 6 + x ^ 4 / 24 + x ^ 5 / 120 + x ^ 6 / 720
        + x ^ 7 / 5040 + x ^ 8 / 40320 + x ^ 9 / 362880)|
      ≤ |x| ^ 10 * (11 / 36288000) := by
  have h := Real.exp_bound hx (n := 10) (by norm_num)
  have e : (∑ m ∈ Finset.range 10, x ^ m / (m.factorial : ℝ))
      = 1 + x + x ^ 2 / 2 + x ^ 3 / 6 + x ^ 4 / 24 + x ^ 5 / 120 + x ^ 6 / 720
        + x ^ 7 / 5040 + x ^ 8 / 40320 + x ^ 9 / 362880 := by
    simp only [Finset.sum_range_succ, Finset.sum_range_zero, Nat.factorial]
    norm_num
  rw [e] at h
  calc _ ≤ |x| ^ 10 * (((10 : ℕ).succ : ℝ) / (((10 : ℕ).factorial : ℝ) * (10 : ℕ))) := h
    _ = |x| ^ 10 * (11 / 36288000) := by
      congr 1
      norm_num [Nat.factorial]

/-- Real reading: the sine near the reference latitude 40.306107 degrees
(0.70347428 radians). -/
theorem sin_near_reference (θ : ℝ) (h1 : 703474 / 1000000 ≤ θ) (h2 : θ ≤ 7034745 / 10000000) :
    (646870 / 1000000 : ℝ) ≤ Real.sin θ ∧ Real.sin θ ≤ 646872 / 1000000 := by
  have hpi := Real.pi_gt_d2
  have hlo := Real.sin_le_sin_of_le_of_le_pi_div_two (x := 703474 / 1000000)
    (y := θ) (by linarith) (by linarith) h1
  have hhi := Real.sin_le_sin_of_le_of_le_pi_div_two (x := θ)
    (y := 7034745 / 10000000) (by linarith) (by linarith) h2
  have t1 := sin_taylor9 (703474 / 1000000) (by rw [abs_le]; constructor <;> norm_num)
  have t2 := sin_taylor9 (7034745 / 10000000) (by rw [abs_le]; constructor <;> norm_num)
  rw [abs_le, abs_of_pos (by norm_num)] at t1 t2
  constructor
  · refine le_trans ?_ hlo
    have := t1.1
    norm_num at this ⊢
    linarith
  · refine le_trans hhi ?_
    have := t2.2
    norm_num at this ⊢
    linarith

/-- Real reading: `Atanh` of the sine near the reference latitude. -/
theorem atanh_near_reference (θ : ℝ) (h1 : 703474 / 1000000 ≤ θ)
    (h2 : θ ≤ 7034745 / 10000000) :
    (769895 / 1000000 : ℝ) ≤ realMath.Atanh (Real.sin θ)
    ∧ realMath.Atanh (Real.sin θ) ≤ 769905 / 1000000 := by
  obtain ⟨hs1, hs2⟩ := sin_near_reference θ h1 h2
  set s := Real.sin θ with hs
  show (769895 / 1000000 : ℝ) ≤ Real.log ((1 + s) / (1 - s)) / 2
    ∧ Real.log ((1 + s) / (1 - s)) / 2 ≤ 769905 / 1000000
  have hden : 0 < 1 - s := by linarith
  have hr : 0 < (1 + s) / (1 - s) := div_pos (by linarith) hden
  have e1 := exp_taylor10 (769895 / 1000000) (by rw [abs_le]; constructor <;> norm_num)
  have e2 := exp_taylor10 (769905 / 1000000) (by rw [abs_le]; constructor <;> norm_num)
  rw [abs_le, abs_of_pos (by norm_num)] at e1 e2
  have hsq : ∀ a : ℝ, Real.exp (2 * a) = Real.exp a ^ 2 := by
    intro a
    rw [two_mul, Real.exp_add, sq]
  constructor
  · have hexp : Real.exp (769895 / 1000000) ≤ 2159541 / 1000000 := by
      have := e1.2
      norm_num at this ⊢
      linarith
    have h2 : Real.exp (2 * (769895 / 1000000)) ≤ (1 + s) / (1 - s) := by
      rw [hsq, le_div_iff₀ hden]
      have hpos : 0 ≤ Real.exp (769895 / 1000000) := (Real.exp_pos _).le
      have hle : Real.exp (769895 / 1000000) ^ 2 ≤ (2159541 / 1000000) ^ 2 :=
        pow_le_pow_left₀ hpos hexp 2
      nlinarith
    have := (Real.le_log_iff_exp_le hr).mpr h2
    linarith
  · have hexp : (2159560 / 1000000 : ℝ) ≤ Real.exp (769905 / 1000000) := by
      have := e2.1
      norm_num at this ⊢
      linarith
    have h2 : (1 + s) / (1 - s) ≤ Real.exp (2 * (769905 / 1000000)) := by
      rw [hsq, div_le_iff₀ hden]
      have hle : (2159560 / 1000000 : ℝ) ^ 2 ≤ Real.exp (769905 / 1000000) ^ 2 :=
        pow_le_pow_left₀ (by norm_num) hexp 2
      nlinarith
    have := (Real.log_le_iff_le_exp hr).mpr h2
    linarith

/-- Real reading: the tile of a point with longitude in `[-180, 180)` is given
by the floors of the two scaled Mercator coordinates, for every zoom. -/
theorem getMercatorFromGPS_formula (lat lon : ℝ) (z : Int) (h1 : -180 ≤ lon) (h2 : lon < 180) :
    getMercatorFromGPS realMath { Lat := lat, Lon := lon } z
      = { X := ⌊(lon + 180) / 360 * (2 : ℝ) ^ z⌋
          Y := ⌊(1 - realMath.Atanh (Real.sin (lat * Real.pi / 180)) / Real.pi) / 2 * (2 : ℝ) ^ z⌋
          Zoom := z } := by
  have hz2 : (0 : ℝ) < (2 : ℝ) ^ z := zpow_pos (by norm_num) z
  have ha0 : 0 ≤ (lon + 180) / 360 := by apply div_nonneg <;> linarith
  have ha1 : (lon + 180) / 360 < 1 := by rw [div_lt_iff₀ (by norm_num)]; linarith
  have hp0 : 0 ≤ ⌊(lon + 180) / 360 * (2 : ℝ) ^ z * 256⌋ :=
    Int.floor_nonneg.mpr (by positivity)
  rw [getMercatorFromGPS_eq realMath _ _ (fun _ => rfl) (fun _ => rfl), lonToXPixels_real,
    latToYPixels_real]
  by_cases hz : 0 ≤ z
  · rw [realMath_maxTile z hz, tileOfPixels_inside _ _ _ _ hp0, floor_mul_TILESIZE_div,
      floor_mul_TILESIZE_div]
    left
    rw [Int.floor_lt]
    obtain ⟨n, rfl⟩ := Int.eq_ofNat_of_zero_le hz
    have e : (2 : ℝ) ^ ((n : Int)) = (2 : ℝ) ^ n := zpow_natCast 2 n
    rw [e] at hz2 ⊢
    simp only [Int.toNat_ofNat]
    push_cast
    have : (lon + 180) / 360 * (2 : ℝ) ^ n < 1 * (2 : ℝ) ^ n :=
      mul_lt_mul_of_pos_right ha1 hz2
    linarith
  · have hT : goInt (realMath.Pow 2 (z : ℝ)) = 0 := by
      show goInt ((2 : ℝ) ^ (z : ℝ)) = 0
      rw [Real.rpow_intCast]
      have hlt : (2 : ℝ) ^ z < 1 := zpow_lt_one_of_neg₀ (by norm_num) (by omega)
      unfold goInt
      rw [if_pos hz2.le, Int.floor_eq_iff]
      constructor <;> push_cast <;> linarith
    rw [hT, tileOfPixels_inside _ _ _ _ hp0 (Or.inr rfl), floor_mul_TILESIZE_div,
      floor_mul_TILESIZE_div]

/-- Real reading: every point within about `2e-7` radians of latitude
40.306107 degrees and `1e-4` degrees of longitude -111.654995 lies in tile
`(24883, 49475)` at zoom 17 and `(49767, 98950)` at zoom 18. -/
theorem getMercatorFromGPS_near_reference (p : Point ℝ)
    (hlat1 : 703474 / 1000000 ≤ p.Lat * Real.pi / 180)
    (hlat2 : p.Lat * Real.pi / 180 ≤ 7034745 / 10000000)
    (hlon1 : -111.6551 ≤ p.Lon) (hlon2 : p.Lon ≤ -111.6549) :
    getMercatorFromGPS realMath p 17 = { X := 24883, Y := 49475, Zoom := 17 }
    ∧ getMercatorFromGPS realMath p 18 = { X := 49767, Y := 98950, Zoom := 18 } := by
  have hpi := Real.pi_gt_d6
  have hpi' := Real.pi_lt_d6
  have hpos : (0 : ℝ) < Real.pi := Real.pi_pos
  obtain ⟨ha1, ha2⟩ := atanh_near_reference _ hlat1 hlat2
  have hq1 : (32121 / 131072 : ℝ)
      < realMath.Atanh (Real.sin (p.Lat * Real.pi / 180)) / Real.pi := by
    rw [lt_div_iff₀ hpos]
    norm_num at hpi' ha1 ⊢
    linarith
  have hq2 : realMath.Atanh (Real.sin (p.Lat * Real.pi / 180)) / Real.pi
      < (32122 / 131072 : ℝ) := by
    rw [div_lt_iff₀ hpos]
    norm_num at hpi ha2 ⊢
    linarith
  have hp : p = { Lat := p.Lat, Lon := p.Lon } := rfl
  norm_num at hlon1 hlon2
  constructor
  · rw [hp, getMercatorFromGPS_formula _ _ _ (by linarith) (by linarith)]
    have hx : ⌊(p.Lon + 180) / 360 * (2 : ℝ) ^ (17 : Int)⌋ = 24883 := by
      rw [Int.floor_eq_iff]
      constructor <;> norm_num <;> linarith
    have hy : ⌊(1 - realMath.Atanh (Real.sin (p.Lat * Real.pi / 180)) / Real.pi) / 2
        * (2 : ℝ) ^ (17 : Int)⌋ = 49475 := by
      rw [Int.floor_eq_iff]
      constructor <;> norm_num <;> linarith
    rw [hx, hy]
  · rw [hp, getMercatorFromGPS_formula _ _ _ (by linarith) (by linarith)]
    have hx : ⌊(p.Lon + 180) / 360 * (2 : ℝ) ^ (18 : Int)⌋ = 49767 := by
      rw [Int.floor_eq_iff]
      constructor <;> norm_num <;> linarith
    have hy : ⌊(1 - realMath.Atanh (Real.sin (p.Lat * Real.pi / 180)) / Real.pi) / 2
        * (2 : ℝ) ^ (18 : Int)⌋ = 98950 := by
      rw [Int.floor_eq_iff]
      constructor <;> norm_num <;> linarith
    rw [hx, hy]

set_option maxRecDepth 4000 in
/-- C3: reading the float arithmetic as real arithmetic (and `int` as the
integers), for every zoom `z` and every point with `-180 <= lon < 180` and
`|lat| < 90`, the sine of the latitude is strictly inside `(-1, 1)`, where
`Atanh` is the inverse hyperbolic tangent, and `getMercatorFromGPS` returns the
Web-Mercator tile `X = floor((lon+180)/360 * 2^z)`,
`Y = floor((1 - atanh(sin(lat))/pi)/2 * 2^z)`, `Zoom = z`; the point
`(40.306107, -111.654995)` maps to tile `(24883, 49475)` at zoom 17 and to
`(49767, 98950)` at zoom 18. -/
theorem getMercatorFromGPS_standard (lat lon : ℝ) (z : Int) (h1 : -180 ≤ lon) (h2 : lon < 180)
    (h3 : |lat| < 90) :
    |Real.sin (lat * Real.pi / 180)| < 1
    ∧ getMercatorFromGPS realMath { Lat := lat, Lon := lon } z
      = { X := ⌊(lon + 180) / 360 * (2 : ℝ) ^ z⌋
          Y := ⌊(1 - realMath.Atanh (Real.sin (lat * Real.pi / 180)) / Real.pi) / 2 * (2 : ℝ) ^ z⌋
          Zoom := z }
    ∧ getMercatorFromGPS realMath { Lat := 40.306107, Lon := -111.654995 } 17
      = { X := 24883, Y := 49475, Zoom := 17 }
    ∧ getMercatorFromGPS realMath { Lat := 40.306107, Lon := -111.654995 } 18
      = { X := 49767, Y := 98950, Zoom := 18 } := by
  have hpi := Real.pi_gt_d6
  have hpi' := Real.pi_lt_d6
  have href := getMercatorFromGPS_near_reference { Lat := 40.306107, Lon := -111.654995 }
    (by norm_num at hpi ⊢; linarith) (by norm_num at hpi' ⊢; linarith)
    (by norm_num) (by norm_num)
  refine ⟨?_, getMercatorFromGPS_formula lat lon z h1 h2, href.1, href.2⟩
  rw [abs_lt] at h3 ⊢
  have hpos : (0 : ℝ) < Real.pi := Real.pi_pos
  have hlo : -(Real.pi / 2) < lat * Real.pi / 180 := by nlinarith [h3.1]
  have hhi : lat * Real.pi / 180 < Real.pi / 2 := by nlinarith [h3.2]
  constructor
  · have := Real.sin_lt_sin_of_lt_of_le_pi_div_two (le_refl (-(Real.pi / 2))) hhi.le hlo
    rwa [Real.sin_neg, Real.sin_pi_div_two] at this
  · have := Real.sin_lt_sin_of_lt_of_le_pi_div_two hlo.le (le_refl (Real.pi / 2)) hhi
    rwa [Real.sin_pi_div_two] at this

/-- The tile formula at latitude 0, longitude 0, zoom 1. -/
theorem getMercatorFromGPS_standard_witness :
    getMercatorFromGPS realMath { Lat := 0, Lon := 0 } 1
      = { X := ⌊((0 : ℝ) + 180) / 360 * (2 : ℝ) ^ (1 : Int)⌋
          Y := ⌊(1 - realMath.Atanh (Real.sin ((0 : ℝ) * Real.pi / 180)) / Real.pi) / 2
            * (2 : ℝ) ^ (1 : Int)⌋
          Zoom := 1 } :=
  (getMercatorFromGPS_standard 0 0 1 (by norm_num) (by norm_num) (by norm_num)).2.1

/-- At zoom 1 the longitude 270 degrees has x pixel 640, one turn above the map
width 512, and is wrapped. -/
theorem getMercatorFromGPS_wrap_witness :
    (getMercatorFromGPS realMath { Lat := 0, Lon := 270 } 1).X
        = lonToXPixels realMath (toRad realMath 270) 1 % (2 ^ (1 : Int).toNat * 256) / 256
    ∧ lonToXPixels realMath (toRad realMath 270) 1 = 640 := by
  have hp : lonToXPixels realMath (toRad realMath 270) 1 = 640 := by
    rw [lonToXPixels_real]
    have : ((270 : ℝ) + 180) / 360 * (2 : ℝ) ^ (1 : Int) * 256 = ((640 : Int) : ℝ) := by
      norm_num
    rw [this, Int.floor_intCast]
  exact ⟨(getMercatorFromGPS_wrap { Lat := 0, Lon := 270 } 1 (by norm_num)
    (by rw [hp]; decide) (by rw [hp]; decide)).1, hp⟩

/-- Real reading: the normalisation `math.Mod(lon2 + 3π, 2π) - π` leaves a
longitude within `[-π, π)` unchanged. -/
theorem goFmod_normalise (x : ℝ) (h1 : -Real.pi ≤ x) (h2 : x < Real.pi) :
    goFmod (x + 3 * Real.pi) (2 * Real.pi) - Real.pi = x := by
  have hpos : (0 : ℝ) < Real.pi := Real.pi_pos
  unfold goFmod goInt
  have hq : ⌊(x + 3 * Real.pi) / (2 * Real.pi)⌋ = 1 := by
    rw [Int.floor_eq_iff]
    constructor
    · rw [le_div_iff₀ (by positivity)]; push_cast; linarith
    · rw [div_lt_iff₀ (by positivity)]; push_cast; linarith
  have hnn : 0 ≤ (x + 3 * Real.pi) / (2 * Real.pi) := by
    apply div_nonneg <;> linarith
  rw [if_pos hnn, hq]
  push_cast
  ring

/-- Real reading: `Atan2(y, x)` is small when `y` is small and `x >= 1/2`. -/
theorem realMath_Atan2_small (x y : ℝ) (hx : 1 / 2 ≤ x) (hy : |y| ≤ 2 / 10 ^ 10) :
    |realMath.Atan2 y x| ≤ 1 / 10 ^ 9 := by
  have hpi := Real.pi_gt_d2
  show |Complex.arg ⟨x, y⟩| ≤ 1 / 10 ^ 9
  rw [Complex.arg_of_re_nonneg (show 0 ≤ (⟨x, y⟩ : ℂ).re by show 0 ≤ x; linarith)]
  have habs : x ≤ Complex.abs ⟨x, y⟩ := Complex.re_le_abs ⟨x, y⟩
  have hapos : 0 < Complex.abs ⟨x, y⟩ := by linarith
  have ht : |y / Complex.abs ⟨x, y⟩| ≤ 4 / 10 ^ 10 := by
    rw [abs_div, abs_of_pos hapos, div_le_iff₀ hapos]
    calc |y| ≤ 2 / 10 ^ 10 := hy
      _ = 4 / 10 ^ 10 * (1 / 2) := by norm_num
      _ ≤ 4 / 10 ^ 10 * Complex.abs ⟨x, y⟩ := by
        apply mul_le_mul_of_nonneg_left (by linarith) (by norm_num)
  show |Real.arcsin (y / Complex.abs ⟨x, y⟩)| ≤ 1 / 10 ^ 9
  rw [abs_le] at ht ⊢
  have hsin : (4 / 10 ^ 10 : ℝ) ≤ Real.sin (1 / 10 ^ 9) := by
    have := Real.sin_gt_sub_cube (x := 1 / 10 ^ 9) (by norm_num) (by norm_num)
    norm_num at this ⊢
    linarith
  have hup : Real.arcsin (4 / 10 ^ 10) ≤ 1 / 10 ^ 9 := by
    rw [Real.arcsin_le_iff_le_sin ⟨by norm_num, by norm_num⟩
      ⟨by norm_num; linarith, by norm_num; linarith⟩]
    exact hsin
  constructor
  · have h1 : Real.arcsin (-(4 / 10 ^ 10)) ≤ Real.arcsin (y / Complex.abs ⟨x, y⟩) :=
      Real.monotone_arcsin ht.1
    rw [Real.arcsin_neg] at h1
    linarith
  · exact (Real.monotone_arcsin ht.2).trans hup

/-- Real reading: the latitude reached after an angular distance `ε` in any
direction is within `ε` of the start latitude `φ`. -/
theorem translate_lat_bounds (φ ε c : ℝ) (hφ1 : 7034741 / 10000000 ≤ φ)
    (hφ2 : φ ≤ 7034744 / 10000000) (hε0 : 0 < ε) (hε1 : ε < 2 / 10 ^ 10)
    (hc1 : -1 ≤ c) (hc2 : c ≤ 1) :
    φ - ε ≤ Real.arcsin (Real.sin φ * Real.cos ε + Real.cos φ * Real.sin ε * c)
    ∧ Real.arcsin (Real.sin φ * Real.cos ε + Real.cos φ * Real.sin ε * c) ≤ φ + ε := by
  have hpi := Real.pi_gt_d2
  have hsε0 : 0 ≤ Real.sin ε := Real.sin_nonneg_of_nonneg_of_le_pi hε0.le (by linarith)
  have hcφ0 : 0 ≤ Real.cos φ :=
    Real.cos_nonneg_of_neg_pi_div_two_le_of_le (by linarith) (by linarith)
  have hprod : 0 ≤ Real.cos φ * Real.sin ε := mul_nonneg hcφ0 hsε0
  have hlo : Real.sin (φ - ε) ≤ Real.sin φ * Real.cos ε + Real.cos φ * Real.sin ε * c := by
    rw [Real.sin_sub]
    nlinarith
  have hhi : Real.sin φ * Real.cos ε + Real.cos φ * Real.sin ε * c ≤ Real.sin (φ + ε) := by
    rw [Real.sin_add]
    nlinarith
  constructor
  · have := Real.monotone_arcsin hlo
    rwa [Real.arcsin_sin (by linarith) (by linarith)] at this
  · have := Real.monotone_arcsin hhi
    rwa [Real.arcsin_sin (by linarith) (by linarith)] at this

/-- Real reading: the change of longitude after an angular distance
`ε < 2e-10` near the reference latitude is below `1e-9` radians. -/
theorem translate_lon_bounds (φ ε sb lat2 : ℝ) (hφ1 : 7034741 / 10000000 ≤ φ)
    (hφ2 : φ ≤ 7034744 / 10000000) (hε0 : 0 < ε) (hε1 : ε < 2 / 10 ^ 10)
    (hs1 : -1 ≤ sb) (hs2 : sb ≤ 1) (hl1 : φ - ε ≤ lat2) (hl2 : lat2 ≤ φ + ε) :
    |realMath.Atan2 (sb * Real.sin ε * Real.cos φ) (Real.cos ε - Real.sin φ * Real.sin lat2)|
      ≤ 1 / 10 ^ 9 := by
  have hpi := Real.pi_gt_d2
  have hsε0 : 0 ≤ Real.sin ε := Real.sin_nonneg_of_nonneg_of_le_pi hε0.le (by linarith)
  have hsε1 : Real.sin ε ≤ ε := Real.sin_le hε0.le
  have hcε0 : 1 - ε ^ 2 / 2 ≤ Real.cos ε := Real.one_sub_sq_div_two_le_cos
  have hcφ0 : 0 ≤ Real.cos φ :=
    Real.cos_nonneg_of_neg_pi_div_two_le_of_le (by linarith) (by linarith)
  have hcφ1 : Real.cos φ ≤ 1 := Real.cos_le_one φ
  have hsφ := sin_near_reference φ (by linarith) (by linarith)
  have hsl := sin_near_reference lat2 (by linarith) (by linarith)
  apply realMath_Atan2_small
  · have h1 : Real.sin φ * Real.sin lat2 ≤ 646872 / 1000000 * (646872 / 1000000) :=
      mul_le_mul hsφ.2 hsl.2 (by linarith [hsl.1]) (by norm_num)
    have h2 : ε ^ 2 ≤ 1 / 100 := by
      have : ε ^ 2 ≤ (1 / 10) ^ 2 := pow_le_pow_left₀ hε0.le (by norm_num at hε1 ⊢; linarith) 2
      norm_num at this ⊢
      linarith
    norm_num at h1 ⊢
    linarith
  · have h2 : 0 ≤ Real.sin ε * Real.cos φ := mul_nonneg hsε0 hcφ0
    have h1 : Real.sin ε * Real.cos φ ≤ 2 / 10 ^ 10 := by
      have : Real.sin ε * Real.cos φ ≤ Real.sin ε * 1 :=
        mul_le_mul_of_nonneg_left hcφ1 hsε0
      linarith
    rw [abs_le]
    have e : sb * Real.sin ε * Real.cos φ = sb * (Real.sin ε * Real.cos φ) := by ring
    rw [e]
    constructor
    · have : -1 * (Real.sin ε * Real.cos φ) ≤ sb * (Real.sin ε * Real.cos φ) :=
        mul_le_mul_of_nonneg_right hs1 h2
      linarith
    · have : sb * (Real.sin ε * Real.cos φ) ≤ 1 * (Real.sin ε * Real.cos φ) :=
        mul_le_mul_of_nonneg_right hs2 h2
      linarith

/-- Real reading: a point whose latitude is within `2e-10` radians and whose
longitude is within `1e-9` radians of the reference point, after the
normalisation of the longitude and the conversion to degrees. -/
theorem reference_point_bounds (lat2 a : ℝ)
    (hl1 : 7034741 / 10000000 - 2 / 10 ^ 10 ≤ lat2)
    (hl2 : lat2 ≤ 7034744 / 10000000 + 2 / 10 ^ 10) (ha : |a| ≤ 1 / 10 ^ 9) :
    703474 / 1000000 ≤ toDeg realMath lat2 * Real.pi / 180
    ∧ toDeg realMath lat2 * Real.pi / 180 ≤ 7034745 / 10000000
    ∧ -111.6551 ≤ toDeg realMath
        (goFmod (-111.654995 * Real.pi / 180 + a + 3 * Real.pi) (2 * Real.pi) - Real.pi)
    ∧ toDeg realMath
        (goFmod (-111.654995 * Real.pi / 180 + a + 3 * Real.pi) (2 * Real.pi) - Real.pi)
        ≤ -111.6549 := by
  have hpi := Real.pi_gt_d2
  have hpi' := Real.pi_lt_d2
  have hpos : (0 : ℝ) < Real.pi := Real.pi_pos
  have hpine : Real.pi ≠ 0 := hpos.ne'
  rw [abs_le] at ha
  have hnorm : goFmod (-111.654995 * Real.pi / 180 + a + 3 * Real.pi) (2 * Real.pi) - Real.pi
      = -111.654995 * Real.pi / 180 + a := by
    apply goFmod_normalise
    · norm_num at ha ⊢; linarith
    · norm_num at ha ⊢; linarith
  have hLat : toDeg realMath lat2 * Real.pi / 180 = lat2 := by
    show lat2 * 180 / Real.pi * Real.pi / 180 = lat2
    field_simp
  have hLon : toDeg realMath (-111.654995 * Real.pi / 180 + a)
      = -111.654995 + a * 180 / Real.pi := by
    show (-111.654995 * Real.pi / 180 + a) * 180 / Real.pi = _
    field_simp
  have ha1 : a * 180 / Real.pi ≤ 1 / 10 ^ 7 := by
    rw [div_le_iff₀ hpos]
    norm_num at ha ⊢
    linarith
  have ha2 : -(1 / 10 ^ 7) ≤ a * 180 / Real.pi := by
    rw [le_div_iff₀ hpos]
    norm_num at ha ⊢
    linarith
  rw [hnorm, hLat, hLon]
  norm_num at ha1 ha2 hl1 hl2 ⊢
  refine ⟨by linarith, by linarith, by linarith, by linarith⟩

/-- Real reading: the point reached from the reference point
`(40.306107, -111.654995)` after 0.001 m in any direction is within `2e-10`
radians of its latitude and `1e-7` degrees of its longitude. -/
theorem translate_reference (bearing : ℝ) :
    703474 / 1000000 ≤ (translate realMath 40.306107 (-111.654995) 0.001 bearing).Lat
        * Real.pi / 180
    ∧ (translate realMath 40.306107 (-111.654995) 0.001 bearing).Lat * Real.pi / 180
        ≤ 7034745 / 10000000
    ∧ -111.6551 ≤ (translate realMath 40.306107 (-111.654995) 0.001 bearing).Lon
    ∧ (translate realMath 40.306107 (-111.654995) 0.001 bearing).Lon ≤ -111.6549 := by
  have hpi := Real.pi_gt_d6
  have hpi' := Real.pi_lt_d6
  have hφ1 : (7034741 / 10000000 : ℝ) ≤ 40.306107 * Real.pi / 180 := by
    norm_num at hpi ⊢; linarith
  have hφ2 : 40.306107 * Real.pi / 180 ≤ (7034744 / 10000000 : ℝ) := by
    norm_num at hpi' ⊢; linarith
  have hε0 : (0 : ℝ) < 0.001 / ((R : Int) : ℝ) := by norm_num [R]
  have hε1 : (0.001 : ℝ) / ((R : Int) : ℝ) < 2 / 10 ^ 10 := by norm_num [R]
  obtain ⟨hl1, hl2⟩ := translate_lat_bounds (40.306107 * Real.pi / 180)
    (0.001 / ((R : Int) : ℝ)) (Real.cos (bearing * Real.pi / 180)) hφ1 hφ2 hε0 hε1
    (Real.neg_one_le_cos _) (Real.cos_le_one _)
  have ha := translate_lon_bounds (40.306107 * Real.pi / 180)
    (0.001 / ((R : Int) : ℝ)) (Real.sin (bearing * Real.pi / 180)) _ hφ1 hφ2 hε0 hε1
    (Real.neg_one_le_sin _) (Real.sin_le_one _) hl1 hl2
  have hl1' := le_trans (by linarith : (7034741 / 10000000 : ℝ) - 2 / 10 ^ 10
    ≤ 40.306107 * Real.pi / 180 - 0.001 / ((R : Int) : ℝ)) hl1
  have hl2' := le_trans hl2 (by linarith : 40.306107 * Real.pi / 180 + 0.001 / ((R : Int) : ℝ)
    ≤ (7034744 / 10000000 : ℝ) + 2 / 10 ^ 10)
  exact reference_point_bounds _ _ hl1' hl2' ha

/-- Real reading of the repository's test `TestGetTileCoords`: for the reference
point with radius 0.001 m and zoom levels 17 to 18 the four cardinal points fall
in one tile at each level, and `getTileCoords` returns exactly the two tiles the
test expects. -/
theorem getTileCoords_reference :
    getTileCoords realMath 40.306107 (-111.654995) 0.001 17 18
      = [{ X := 24883, Y := 49475, Zoom := 17 }, { X := 49767, Y := 98950, Zoom := 18 }] := by
  have hT : ∀ bearing : ℝ,
      getMercatorFromGPS realMath (translate realMath 40.306107 (-111.654995) 0.001 bearing) 17
        = { X := 24883, Y := 49475, Zoom := 17 }
      ∧ getMercatorFromGPS realMath (translate realMath 40.306107 (-111.654995) 0.001 bearing) 18
        = { X := 49767, Y := 98950, Zoom := 18 } := by
    intro bearing
    obtain ⟨h1, h2, h3, h4⟩ := translate_reference bearing
    exact getMercatorFromGPS_near_reference _ h1 h2 h3 h4
  have hr : intRange 17 18 = [17, 18] := by decide
  unfold getTileCoords
  rw [hr]
  simp only [List.flatMap_cons, List.flatMap_nil, List.append_nil, (hT _).1, (hT _).2]
  unfold zoomGrid
  simp only [intRange_self]
  rfl

/-- At zoom 17 the four cardinal points of the test's region (radius 0.001 m
around the reference point) fall in one tile, and the grid is that tile. -/
theorem getTileCoords_single_zoom_witness :
    getTileCoords realMath 40.306107 (-111.654995) 0.001 17 17
      = [{ X := 24883, Y := 49475, Zoom := 17 }] :=
  (getTileCoords_single_zoom realMath 40.306107 (-111.654995) 0.001 17).2.2
    { X := 24883, Y := 49475, Zoom := 17 }
    (getMercatorFromGPS_near_reference _ (translate_reference 270).1 (translate_reference 270).2.1
      (translate_reference 270).2.2.1 (translate_reference 270).2.2.2).1
    (getMercatorFromGPS_near_reference _ (translate_reference 90).1 (translate_reference 90).2.1
      (translate_reference 90).2.2.1 (translate_reference 90).2.2.2).1
    (getMercatorFromGPS_near_reference _ (translate_reference 0).1 (translate_reference 0).2.1
      (translate_reference 0).2.2.1 (translate_reference 0).2.2.2).1
    (getMercatorFromGPS_near_reference _ (translate_reference 180).1 (translate_reference 180).2.1
      (translate_reference 180).2.2.1 (translate_reference 180).2.2.2).1

/-! ### Cache scan -/

/-- After `Add(tile)` the index holds `tile` and whatever it held before. -/
theorem Lookup_Add (c : cacheLookupTable) (t t' : Tile) :
    (c.Add t).Lookup t' = true ↔ (t' = t ∨ c.Lookup t' = true) := by
  obtain ⟨x, y, z⟩ := t
  obtain ⟨x', y', z'⟩ := t'
  unfold cacheLookupTable.Lookup cacheLookupTable.Add GoMap.set GoMap.empty
  simp only [Tile.mk.injEq]
  by_cases hz : z' = z
  · subst hz
    by_cases hx : x' = x
    · subst hx
      by_cases hy : y' = y
      · subst hy
        rcases h1 : c z' with _ | m
        · simp
        · rcases h2 : m x' with _ | m2 <;> simp [h1, h2]
      · rcases h1 : c z' with _ | m
        · simp [hy]
        · rcases h2 : m x' with _ | m2 <;> simp [h1, h2, hy]
    · rcases h1 : c z' with _ | m
      · simp [hx]
      · rcases h2 : m x with _ | m2 <;> simp [h1, h2, hx]
  · rcases h1 : c z with _ | m
    · simp [hz]
    · rcases h2 : m x with _ | m2 <;> simp [h1, h2, hz]

/-- The empty index holds no tile. -/
theorem Lookup_empty (t : Tile) : cacheLookupTable.Lookup GoMap.empty t = false := rfl

/-- One turn of the scan loop adds the tile the name denotes, if any, and
nothing else. -/
theorem loadCacheFlatStep_Lookup (c : cacheLookupTable) (name : String) (t : Tile) :
    (loadCacheFlatStep c name).Lookup t = true ↔ (c.Lookup t = true ∨ NameDenotes name t) := by
  unfold loadCacheFlatStep NameDenotes
  simp only
  split
  · rename_i p0 p1 p2 hparts
    rw [hparts]
    cases h0 : Atoi p0 with
    | none => simp [h0]
    | some zoom =>
      cases h1 : Atoi p1 with
      | none => simp [h0, h1]
      | some x =>
        cases h2 : Atoi p2 with
        | none => simp [h0, h1, h2]
        | some y =>
          simp only [Lookup_Add]
          constructor
          · rintro (h | h)
            · right
              exact ⟨p0, p1, p2, rfl, by rw [h0, h], by rw [h1, h], by rw [h2, h]⟩
            · left; exact h
          · rintro (h | ⟨q0, q1, q2, hq, hz, hx, hy⟩)
            · right; exact h
            · left
              simp only [List.cons.injEq, and_true] at hq
              obtain ⟨e0, e1, e2⟩ := hq
              subst e0 e1 e2
              rw [h0] at hz
              rw [h1] at hx
              rw [h2] at hy
              obtain ⟨tx, ty, tz⟩ := t
              simp only [Option.some.injEq] at hz hx hy
              subst hz hx hy
              rfl
  · rename_i hne
    constructor
    · intro h; left; exact h
    · rintro (h | ⟨q0, q1, q2, hq, _⟩)
      · exact h
      · exact absurd hq (hne q0 q1 q2)

/-- A name that denotes no tile is skipped: the index is unchanged. -/
theorem loadCacheFlatStep_skip (c : cacheLookupTable) (name : String)
    (h : ∀ t, ¬ NameDenotes name t) : loadCacheFlatStep c name = c := by
  unfold loadCacheFlatStep
  simp only
  split
  · rename_i p0 p1 p2 hparts
    cases h0 : Atoi p0 with
    | none => rfl
    | some zoom =>
      cases h1 : Atoi p1 with
      | none => rfl
      | some x =>
        cases h2 : Atoi p2 with
        | none => rfl
        | some y =>
          exact absurd ⟨p0, p1, p2, hparts, h0, h1, h2⟩ (h { Zoom := zoom, X := x, Y := y })
  · rfl

/-- The scan loop over a list of names adds exactly the tiles the names denote. -/
theorem loadCacheFlat_foldl (names : List String) :
    ∀ (c : cacheLookupTable) (t : Tile),
      (names.foldl loadCacheFlatStep c).Lookup t = true
        ↔ (c.Lookup t = true ∨ ∃ name ∈ names, NameDenotes name t) := by
  induction names with
  | nil => intro c t; simp
  | cons n rest ih =>
    intro c t
    rw [List.foldl_cons, ih, loadCacheFlatStep_Lookup]
    simp only [List.mem_cons, exists_eq_or_imp]
    tauto

/-- A scan over names that denote no tile leaves the index unchanged. -/
theorem loadCacheFlat_foldl_skip (names : List String) :
    ∀ c : cacheLookupTable, (∀ name ∈ names, ∀ t, ¬ NameDenotes name t) →
      names.foldl loadCacheFlatStep c = c := by
  induction names with
  | nil => intro c _; rfl
  | cons n rest ih =>
    intro c h
    rw [List.foldl_cons, loadCacheFlatStep_skip c n (h n (by simp))]
    exact ih c (fun name hn => h name (by simp [hn]))

/-! ### File naming and the scan -/

/-- The loop of `path.Ext` passes over characters that are neither `.` nor `/`. -/
theorem extLoop_append (cs rest : List Char) (h : ∀ c ∈ cs, c ≠ '.' ∧ c ≠ '/') :
    ∀ acc, extLoop (cs ++ rest) acc = extLoop rest (cs.reverse ++ acc) := by
  induction cs with
  | nil => intro acc; rfl
  | cons c cs ih =>
    intro acc
    have hc := h c (by simp)
    rw [List.cons_append, extLoop, if_neg hc.2, if_neg hc.1,
      ih (fun d hd => h d (by simp [hd]))]
    simp

/-- A name without `.` and `/` has no extension. -/
theorem pathExt_none (name : String) (h : ∀ c ∈ name.data, c ≠ '.' ∧ c ≠ '/') :
    pathExt name = "" := by
  unfold pathExt
  have := extLoop_append name.data.reverse [] (by simpa using h) []
  rw [List.append_nil] at this
  rw [this]
  rfl

/-- The extension of `stem ++ "." ++ suffix` is `"." ++ suffix` when the suffix
has neither `.` nor `/`. -/
theorem pathExt_dot (stem suffix : List Char) (h : ∀ c ∈ suffix, c ≠ '.' ∧ c ≠ '/') :
    pathExt (String.mk (stem ++ '.' :: suffix)) = String.mk ('.' :: suffix) := by
  unfold pathExt
  have e : (stem ++ '.' :: suffix).reverse = suffix.reverse ++ '.' :: stem.reverse := by simp
  show String.mk (extLoop (stem ++ '.' :: suffix).reverse []) = _
  rw [e, extLoop_append suffix.reverse _ (by simpa using h) []]
  simp [extLoop]

/-- A text without the separator is the only piece. -/
theorem stringsSplit_none (sep : Char) (p : List Char) (h : ∀ c ∈ p, c ≠ sep) :
    stringsSplit sep p = [p] := by
  induction p with
  | nil => rfl
  | cons c cs ih =>
    rw [stringsSplit, if_neg (h c (by simp)), ih (fun d hd => h d (by simp [hd]))]

/-- A text splits at its first separator. -/
theorem stringsSplit_append (sep : Char) (p rest : List Char) (h : ∀ c ∈ p, c ≠ sep) :
    stringsSplit sep (p ++ sep :: rest) = p :: stringsSplit sep rest := by
  induction p with
  | nil => simp [stringsSplit]
  | cons c cs ih =>
    rw [List.cons_append, stringsSplit, if_neg (h c (by simp)),
      ih (fun d hd => h d (by simp [hd]))]

/-- A decimal digit character: it is a digit, and its value is the digit. -/
theorem digitChar_decimal (k : Nat) (hk : k < 10) :
    (Nat.digitChar k).isDigit = true ∧ (Nat.digitChar k).toNat - 48 = k := by
  interval_cases k <;> decide

/-- Reading digits after a value already read shifts that value. -/
theorem decimalValue_foldl (l : List Char) : ∀ v : Nat,
    l.foldl (fun acc c => 10 * acc + (c.toNat - 48)) v = v * 10 ^ l.length + decimalValue l := by
  induction l with
  | nil => intro v; simp [decimalValue]
  | cons c cs ih =>
    intro v
    unfold decimalValue
    rw [List.foldl_cons, List.foldl_cons, ih, ih (10 * 0 + (c.toNat - 48))]
    simp only [List.length_cons, pow_succ]
    ring

/-- The value of a digit text in terms of its first digit. -/
theorem decimalValue_cons (c : Char) (l : List Char) :
    decimalValue (c :: l) = (c.toNat - 48) * 10 ^ l.length + decimalValue l := by
  unfold decimalValue
  rw [List.foldl_cons, decimalValue_foldl]
  simp [decimalValue]

/-- With enough fuel, the text printed by `Nat.toDigitsCore 10` in front of
digits consists of digits, is not empty, and reads back as the number followed
by those digits. -/
theorem toDigitsCore_decimal : ∀ (f n : Nat) (acc : List Char), n < f →
    (∀ c ∈ acc, c.isDigit = true) →
    (∀ c ∈ Nat.toDigitsCore 10 f n acc, c.isDigit = true)
    ∧ Nat.toDigitsCore 10 f n acc ≠ []
    ∧ decimalValue (Nat.toDigitsCore 10 f n acc) = n * 10 ^ acc.length + decimalValue acc := by
  intro f
  induction f with
  | zero => intro n acc h; omega
  | succ f ih =>
    intro n acc h hacc
    have hd := digitChar_decimal (n % 10) (Nat.mod_lt _ (by norm_num))
    have hacc2 : ∀ c ∈ Nat.digitChar (n % 10) :: acc, c.isDigit = true := by
      intro c hc
      rcases List.mem_cons.1 hc with rfl | hc
      · exact hd.1
      · exact hacc c hc
    rw [Nat.toDigitsCore]
    by_cases h0 : n / 10 = 0
    · simp only [h0, if_true]
      refine ⟨hacc2, by simp, ?_⟩
      rw [decimalValue_cons, hd.2]
      have : n % 10 = n := by omega
      rw [this]
    · simp only [h0, if_false]
      have hlt : n / 10 < f := by omega
      obtain ⟨h1, h2, h3⟩ := ih (n / 10) (Nat.digitChar (n % 10) :: acc) hlt hacc2
      refine ⟨h1, h2, ?_⟩
      rw [h3, decimalValue_cons, hd.2, List.length_cons, pow_succ]
      have e : n / 10 * (10 ^ acc.length * 10) + (n % 10 * 10 ^ acc.length + decimalValue acc)
          = (10 * (n / 10) + n % 10) * 10 ^ acc.length + decimalValue acc := by ring
      rw [e, Nat.div_add_mod]

/-- The decimal text of a natural number consists of digits, is not empty and
reads back as the number. -/
theorem toDigits_decimal (n : Nat) :
    (∀ c ∈ Nat.toDigits 10 n, c.isDigit = true)
    ∧ Nat.toDigits 10 n ≠ []
    ∧ decimalValue (Nat.toDigits 10 n) = n := by
  have := toDigitsCore_decimal (n + 1) n [] (by omega) (by simp)
  simpa [Nat.toDigits, decimalValue] using this

/-- The text that `%d` prints for a non-negative number is its decimal text. -/
theorem fmtD_nonneg (n : Int) (h : 0 ≤ n) : (fmtD n).data = Nat.toDigits 10 n.toNat := by
  obtain ⟨k, rfl⟩ := Int.eq_ofNat_of_zero_le h
  rfl

/-- A text that starts with a digit has no sign. -/
theorem parseSign_digits (s : List Char) (h : ∀ c ∈ s, c.isDigit = true) :
    parseSign s = (false, s) := by
  unfold parseSign
  split
  · exact absurd (h '+' (by simp)) (by decide)
  · exact absurd (h '-' (by simp)) (by decide)
  · rfl

/-- The function `strconv.Atoi` reads back what `%d` printed, for a non-negative
number of 64 bits. -/
theorem Atoi_fmtD (n : Int) (h : 0 ≤ n) (h64 : n < 2 ^ 63) : Atoi (fmtD n).data = some n := by
  obtain ⟨h1, h2, h3⟩ := toDigits_decimal n.toNat
  rw [fmtD_nonneg n h]
  unfold Atoi
  rw [parseSign_digits _ h1]
  have hany : (Nat.toDigits 10 n.toNat).any (fun c => !c.isDigit) = false := by
    rw [List.any_eq_false]
    intro c hc
    simp [h1 c hc]
  simp only [h2, hany, false_or, Bool.false_eq_true, if_false, h3]
  rw [Int.toNat_of_nonneg h]
  rw [if_neg (by omega)]

/-- A decimal digit is none of the characters `-`, `.` and `/`. -/
theorem isDigit_plain (c : Char) (h : c.isDigit = true) : c ≠ '-' ∧ c ≠ '.' ∧ c ≠ '/' := by
  refine ⟨?_, ?_, ?_⟩ <;> (rintro rfl; exact absurd h (by decide))

/-- The part of a written name that the scan splits: what stands before the
extension the saver added, when that part has neither `.` nor `/`. -/
theorem stem_take (stem : List Char) (typ : String) (h : ∀ d ∈ stem, d ≠ '.' ∧ d ≠ '/') :
    let name : String := String.mk (stem ++ (download.ext typ).data)
    name.data.take (name.length - (pathExt name).length) = stem := by
  intro name
  have hext : pathExt name = download.ext typ := by
    show pathExt (String.mk (stem ++ (download.ext typ).data)) = _
    unfold download.ext
    split_ifs
    · exact pathExt_dot _ ['p', 'n', 'g'] (by decide)
    · exact pathExt_dot _ ['j', 'p', 'g'] (by decide)
    · exact pathExt_none _ (by simpa using h)
  have hlen : name.length - (pathExt name).length = stem.length := by
    rw [hext]
    show (stem ++ (download.ext typ).data).length - (download.ext typ).data.length = _
    rw [List.length_append]
    omega
  rw [hlen]
  show (stem ++ (download.ext typ).data).take _ = _
  rw [List.take_left]

/-- The name `a-b-c` followed by an extension the saver uses: `path.Ext` finds
the extension, and the rest splits into the three texts. -/
theorem stem_split (a b c : List Char) (typ : String)
    (ha : ∀ d ∈ a, d.isDigit = true) (hb : ∀ d ∈ b, d.isDigit = true)
    (hc : ∀ d ∈ c, d.isDigit = true) :
    let name : String := String.mk (a ++ '-' :: (b ++ '-' :: c) ++ (download.ext typ).data)
    stringsSplit '-' (name.data.take (name.length - (pathExt name).length)) = [a, b, c] := by
  intro name
  have hstem : ∀ d ∈ a ++ '-' :: (b ++ '-' :: c), d ≠ '.' ∧ d ≠ '/' := by
    intro d hd
    simp only [List.mem_append, List.mem_cons] at hd
    rcases hd with hd | rfl | hd | rfl | hd
    · exact (isDigit_plain d (ha d hd)).2
    · decide
    · exact (isDigit_plain d (hb d hd)).2
    · decide
    · exact (isDigit_plain d (hc d hd)).2
  have e := stem_take _ typ hstem
  simp only at e
  rw [e, stringsSplit_append _ _ _ (fun d hd => (isDigit_plain d (ha d hd)).1),
    stringsSplit_append _ _ _ (fun d hd => (isDigit_plain d (hb d hd)).1),
    stringsSplit_none _ _ (fun d hd => (isDigit_plain d (hc d hd)).1)]

/-- The characters of the file name that `download` writes. -/
theorem download_fname_data (tile : Tile) (ext : String) :
    download.fname tile ext
      = String.mk ((fmtD tile.Zoom).data ++ '-' :: ((fmtD tile.X).data ++ '-' :: (fmtD tile.Y).data)
          ++ ext.data) := by
  unfold download.fname
  apply String.ext
  simp [String.data_append]

/-- Round trip for tiles without a negative component: a tile whose zoom, x
and y are non-negative numbers of 64 bits is denoted by the file name that
`download` writes for it, whatever the image type. -/
theorem download_fname_denotes (tile : Tile) (typ : String)
    (hz : 0 ≤ tile.Zoom ∧ tile.Zoom < 2 ^ 63) (hx : 0 ≤ tile.X ∧ tile.X < 2 ^ 63)
    (hy : 0 ≤ tile.Y ∧ tile.Y < 2 ^ 63) :
    NameDenotes (download.fname tile (download.ext typ)) tile := by
  have dz := toDigits_decimal tile.Zoom.toNat
  have dx := toDigits_decimal tile.X.toNat
  have dy := toDigits_decimal tile.Y.toNat
  rw [← fmtD_nonneg _ hz.1] at dz
  rw [← fmtD_nonneg _ hx.1] at dx
  rw [← fmtD_nonneg _ hy.1] at dy
  refine ⟨(fmtD tile.Zoom).data, (fmtD tile.X).data, (fmtD tile.Y).data, ?_,
    Atoi_fmtD _ hz.1 hz.2, Atoi_fmtD _ hx.1 hx.2, Atoi_fmtD _ hy.1 hy.2⟩
  rw [download_fname_data]
  exact stem_split _ _ _ typ dz.1 dx.1 dy.1

/-- Round trip for tiles without a negative component, through the scan and the
filter: after `loadCacheFlat` has read a directory that holds the file name
written by `download` for the tile, `Lookup` of the tile is true and
`removeDuplicates` drops it. -/
theorem download_scan_roundtrip_nonneg (tile : Tile) (typ : String) (names : List String)
    (cachedTiles : cacheLookupTable)
    (hz : 0 ≤ tile.Zoom ∧ tile.Zoom < 2 ^ 63) (hx : 0 ≤ tile.X ∧ tile.X < 2 ^ 63)
    (hy : 0 ≤ tile.Y ∧ tile.Y < 2 ^ 63)
    (hmem : download.fname tile (download.ext typ) ∈ names) :
    ∃ index : cacheLookupTable,
      loadCacheFlat (some names) cachedTiles = some index
      ∧ index.Lookup tile = true
      ∧ removeDuplicates index [tile] = [] := by
  refine ⟨names.foldl loadCacheFlatStep cachedTiles, rfl, ?_⟩
  have hl : (names.foldl loadCacheFlatStep cachedTiles).Lookup tile = true :=
    (loadCacheFlat_foldl names cachedTiles tile).2
      (Or.inr ⟨_, hmem, download_fname_denotes tile typ hz hx hy⟩)
  refine ⟨hl, ?_⟩
  simp [removeDuplicates, hl]

/-- The function `strings.Split` gives one piece more than there are separators. -/
theorem stringsSplit_length (sep : Char) (l : List Char) :
    (stringsSplit sep l).length = l.count sep + 1 := by
  induction l with
  | nil => rfl
  | cons c cs ih =>
    rw [stringsSplit]
    by_cases h : c = sep
    · subst h
      simp [ih]
    · rw [if_neg h, List.count_cons_of_ne (fun e => h e.symm)]
      rcases hs : stringsSplit sep cs with _ | ⟨p, ps⟩
      · rw [hs] at ih; simp at ih
      · rw [hs] at ih; simpa using ih

/-- A text of digits has no `-`. -/
theorem count_dash_digits (l : List Char) (h : ∀ c ∈ l, c.isDigit = true) : l.count '-' = 0 :=
  List.count_eq_zero.2 (fun hm => absurd (h '-' hm) (by decide))

/-- The text that `%d` prints for a negative number is `-` and decimal digits. -/
theorem fmtD_neg (n : Int) (h : n < 0) :
    (fmtD n).data = '-' :: Nat.toDigits 10 (-n).toNat := by
  obtain ⟨k, rfl⟩ := Int.eq_negSucc_of_lt_zero h
  rfl

/-- The text that `%d` prints has one `-` for a negative number and none
otherwise, and it has neither `.` nor `/`. -/
theorem fmtD_chars (n : Int) :
    (fmtD n).data.count '-' = (if n < 0 then 1 else 0)
    ∧ ∀ c ∈ (fmtD n).data, c ≠ '.' ∧ c ≠ '/' := by
  by_cases h : n < 0
  · have d := toDigits_decimal (-n).toNat
    rw [fmtD_neg n h, if_pos h]
    constructor
    · rw [List.count_cons_self, count_dash_digits _ d.1]
    · intro c hc
      rcases List.mem_cons.1 hc with rfl | hc
      · decide
      · exact (isDigit_plain c (d.1 c hc)).2
  · have d := toDigits_decimal n.toNat
    rw [fmtD_nonneg n (by omega), if_neg h]
    exact ⟨count_dash_digits _ d.1, fun c hc => (isDigit_plain c (d.1 c hc)).2⟩

/-- A tile with a negative component: the file name that `download` writes
for it splits into more than three parts, so it denotes no tile at all. -/
theorem download_fname_negative (tile : Tile) (typ : String)
    (h : tile.Zoom < 0 ∨ tile.X < 0 ∨ tile.Y < 0) :
    ∀ t, ¬ NameDenotes (download.fname tile (download.ext typ)) t := by
  rintro t ⟨p0, p1, p2, hs, -⟩
  have cz := fmtD_chars tile.Zoom
  have cx := fmtD_chars tile.X
  have cy := fmtD_chars tile.Y
  have hstem : ∀ d ∈ (fmtD tile.Zoom).data ++ '-' :: ((fmtD tile.X).data ++ '-' :: (fmtD tile.Y).data),
      d ≠ '.' ∧ d ≠ '/' := by
    intro d hd
    simp only [List.mem_append, List.mem_cons] at hd
    rcases hd with hd | rfl | hd | rfl | hd
    · exact cz.2 d hd
    · decide
    · exact cx.2 d hd
    · decide
    · exact cy.2 d hd
  rw [download_fname_data] at hs
  have e := stem_take _ typ hstem
  simp only at e
  rw [e] at hs
  have hl := stringsSplit_length '-'
    ((fmtD tile.Zoom).data ++ '-' :: ((fmtD tile.X).data ++ '-' :: (fmtD tile.Y).data))
  rw [hs] at hl
  simp only [List.length_cons, List.length_nil, List.count_append, List.count_cons_self,
    cz.1, cx.1, cy.1] at hl
  split_ifs at hl <;> omega

/-- A tile with a negative component, through the scan and the filter: the
scan skips the file name that `download` wrote for it, so after
`loadCacheFlat` has read a directory that holds only that name into an empty
index, `Lookup` of the tile is false and `removeDuplicates` keeps the tile. -/
theorem download_scan_negative (tile : Tile) (typ : String)
    (h : tile.Zoom < 0 ∨ tile.X < 0 ∨ tile.Y < 0) :
    loadCacheFlat (some [download.fname tile (download.ext typ)]) GoMap.empty = some GoMap.empty
    ∧ cacheLookupTable.Lookup GoMap.empty tile = false
    ∧ removeDuplicates GoMap.empty [tile] = [tile] := by
  have hskip := loadCacheFlatStep_skip GoMap.empty _ (download_fname_negative tile typ h)
  refine ⟨?_, ?_, ?_⟩
  · show some (loadCacheFlatStep GoMap.empty _) = _
    rw [hskip]
  · rfl
  · rfl

/-- Real reading: `Atanh` of the sine of 89 degrees lies between `π` and `2π`. -/
theorem atanh_near_pole :
    Real.pi < realMath.Atanh (Real.sin (89 * Real.pi / 180))
    ∧ realMath.Atanh (Real.sin (89 * Real.pi / 180)) ≤ 2 * Real.pi := by
  have hp1 := Real.pi_gt_d2
  have hp2 := Real.pi_lt_d2
  have hx1 : (174 / 10000 : ℝ) ≤ Real.pi / 180 := by linarith
  have hx2 : Real.pi / 180 ≤ 175 / 10000 := by linarith
  have hs : Real.sin (89 * Real.pi / 180) = Real.cos (Real.pi / 180) := by
    rw [← Real.sin_pi_div_two_sub]
    congr 1
    ring
  rw [hs]
  set x := Real.pi / 180 with hx
  have hx0 : 0 ≤ x := by linarith
  have hb := Real.cos_bound (x := x) (by rw [abs_of_nonneg hx0]; linarith)
  rw [abs_of_nonneg hx0, abs_le] at hb
  have hsq1 : (174 / 10000 : ℝ) ^ 2 ≤ x ^ 2 := pow_le_pow_left₀ (by norm_num) hx1 2
  have hsq2 : x ^ 2 ≤ (175 / 10000 : ℝ) ^ 2 := pow_le_pow_left₀ hx0 hx2 2
  have hq2 : x ^ 4 ≤ (175 / 10000 : ℝ) ^ 4 := pow_le_pow_left₀ hx0 hx2 4
  have hq0 : 0 ≤ x ^ 4 := by positivity
  set s := Real.cos x with hsdef
  have h1 : (15 / 100000 : ℝ) ≤ 1 - s := by
    norm_num at hsq1 hq2
    linarith [hb.2]
  have h2 : 1 - s ≤ (16 / 100000 : ℝ) := by
    norm_num at hsq2 hq2
    linarith [hb.1]
  have hpos : 0 < 1 - s := by linarith
  have hr1 : (12499 : ℝ) ≤ (1 + s) / (1 - s) := by
    rw [le_div_iff₀ hpos]
    linarith
  have hr2 : (1 + s) / (1 - s) ≤ 13334 := by
    rw [div_le_iff₀ hpos]
    linarith
  have hr0 : 0 < (1 + s) / (1 - s) := by linarith
  have he7 : Real.exp 7 < 12499 := by
    have e : Real.exp 7 = Real.exp 1 ^ 7 := by
      rw [← Real.exp_nat_mul]
      norm_num
    have hlt : Real.exp 1 ^ 7 ≤ (272 / 100 : ℝ) ^ 7 :=
      pow_le_pow_left₀ (Real.exp_pos 1).le (by linarith [Real.exp_one_lt_d9]) 7
    rw [e]
    norm_num at hlt
    linarith
  have he12 : (13334 : ℝ) < Real.exp 12 := by
    have e : Real.exp 12 = Real.exp 1 ^ 12 := by
      rw [← Real.exp_nat_mul]
      norm_num
    have hlt : (27 / 10 : ℝ) ^ 12 ≤ Real.exp 1 ^ 12 :=
      pow_le_pow_left₀ (by norm_num) (by linarith [Real.exp_one_gt_d9]) 12
    rw [e]
    norm_num at hlt
    linarith
  show Real.pi < Real.log ((1 + s) / (1 - s)) / 2
    ∧ Real.log ((1 + s) / (1 - s)) / 2 ≤ 2 * Real.pi
  constructor
  · have : 2 * Real.pi < Real.log ((1 + s) / (1 - s)) := by
      rw [Real.lt_log_iff_exp_lt hr0]
      have : Real.exp (2 * Real.pi) ≤ Real.exp 7 := Real.exp_le_exp.2 (by linarith)
      linarith
    linarith
  · have : Real.log ((1 + s) / (1 - s)) ≤ 4 * Real.pi := by
      rw [Real.log_le_iff_le_exp hr0]
      have : Real.exp 12 ≤ Real.exp (4 * Real.pi) := Real.exp_le_exp.2 (by linarith)
      linarith
    linarith

/-- Real reading: the point at latitude 89, longitude 0 lies in the tile with
x = 1 and y = -1 at zoom 1, a tile with a negative component. -/
theorem getMercatorFromGPS_near_pole :
    getMercatorFromGPS realMath { Lat := 89, Lon := 0 } 1 = { X := 1, Y := -1, Zoom := 1 } := by
  obtain ⟨h1, h2⟩ := atanh_near_pole
  have hpi := Real.pi_pos
  rw [getMercatorFromGPS_formula 89 0 1 (by norm_num) (by norm_num)]
  have hX : ⌊((0 : ℝ) + 180) / 360 * (2 : ℝ) ^ (1 : Int)⌋ = 1 := by
    rw [Int.floor_eq_iff]
    norm_num
  have hY : ⌊(1 - realMath.Atanh (Real.sin (89 * Real.pi / 180)) / Real.pi) / 2
      * (2 : ℝ) ^ (1 : Int)⌋ = -1 := by
    rw [Int.floor_eq_iff]
    have e : (1 - realMath.Atanh (Real.sin (89 * Real.pi / 180)) / Real.pi) / 2
        * (2 : ℝ) ^ (1 : Int) = 1 - realMath.Atanh (Real.sin (89 * Real.pi / 180)) / Real.pi := by
      rw [zpow_one]
      ring
    rw [e]
    have ha : 1 < realMath.Atanh (Real.sin (89 * Real.pi / 180)) / Real.pi := by
      rw [lt_div_iff₀ hpi]
      linarith
    have hb : realMath.Atanh (Real.sin (89 * Real.pi / 180)) / Real.pi ≤ 2 := by
      rw [div_le_iff₀ hpi]
      linarith
    constructor <;> push_cast <;> linarith
  rw [hX, hY]

set_option maxRecDepth 8000 in
/-- C12, failing input: the tile (zoom 1, x 1, y -1), which is the tile of the
point at latitude 89 and longitude 0, saved as a PNG image. The saver writes
the name `1-1--1.png`; the scan splits it into four parts and skips it, so
after the scan `Lookup` of the tile is false and `removeDuplicates` keeps the
tile: the round trip fails. -/
theorem download_scan_roundtrip_fails :
    getMercatorFromGPS realMath { Lat := 89, Lon := 0 } 1 = { X := 1, Y := -1, Zoom := 1 }
    ∧ download.fname { X := 1, Y := -1, Zoom := 1 } (download.ext "image/png") = "1-1--1.png"
    ∧ stringsSplit '-' ("1-1--1.png".data.take ("1-1--1.png".length - (pathExt "1-1--1.png").length))
        = ["1".data, "1".data, [], "1".data]
    ∧ (loadCacheFlat (some ["1-1--1.png"]) GoMap.empty).map
        (fun index => index.Lookup { X := 1, Y := -1, Zoom := 1 }) = some false
    ∧ (loadCacheFlat (some ["1-1--1.png"]) GoMap.empty).map
        (fun index => removeDuplicates index [{ X := 1, Y := -1, Zoom := 1 }])
        = some [{ X := 1, Y := -1, Zoom := 1 }] :=
  ⟨getMercatorFromGPS_near_pole, by decide, by decide, by decide, by decide⟩

/-- Round trip for a tile without a negative component, at the reference tile
of the repository's test saved as a PNG image. -/
theorem download_scan_roundtrip_nonneg_witness :
    ∃ index : cacheLookupTable,
      loadCacheFlat (some ["17-24883-49475.png"]) GoMap.empty = some index
      ∧ index.Lookup { X := 24883, Y := 49475, Zoom := 17 } = true
      ∧ removeDuplicates index [{ X := 24883, Y := 49475, Zoom := 17 }] = [] :=
  download_scan_roundtrip_nonneg { X := 24883, Y := 49475, Zoom := 17 } "image/png"
    ["17-24883-49475.png"] GoMap.empty (by decide) (by decide) (by decide) (by decide)

/-! ### The scan against the specification of cache names -/

/-- A digit character is the character of its value. -/
theorem digitChar_of_isDigit (c : Char) (h : c.isDigit = true) :
    c.toNat - 48 < 10 ∧ Nat.digitChar (c.toNat - 48) = c := by
  have h1 : 48 ≤ c.toNat ∧ c.toNat ≤ 57 := by
    simp only [Char.isDigit, Bool.and_eq_true, decide_eq_true_eq] at h
    have a : (48 : UInt32) ≤ c.val := h.1
    have b : c.val ≤ (57 : UInt32) := h.2
    exact ⟨a, b⟩
  have hc : c = Char.ofNat c.toNat := (Char.ofNat_toNat c).symm
  refine ⟨by omega, ?_⟩
  obtain ⟨h48, h57⟩ := h1
  generalize c.toNat = k at hc h48 h57
  subst hc
  interval_cases k <;> rfl

/-- The loop of `Atoi` computes positional notation. -/
theorem decimalValue_ofDigits (ds : List Nat) (h : ∀ d ∈ ds, d < 10) :
    decimalValue (ds.map Nat.digitChar) = Nat.ofDigits 10 ds.reverse := by
  induction ds using List.reverseRecOn with
  | nil => rfl
  | append_singleton ds d ih =>
    have hd := digitChar_decimal d (h d (by simp))
    unfold decimalValue at ih ⊢
    rw [List.map_append, List.foldl_append, ih (fun x hx => h x (by simp [hx]))]
    simp only [List.map_cons, List.map_nil, List.foldl_cons, List.foldl_nil, hd.2,
      List.reverse_append, List.reverse_cons, List.reverse_nil, List.nil_append,
      List.singleton_append, Nat.ofDigits_cons]
    ring

/-- A text of digit characters is the text of its digit values. -/
theorem map_digitChar_of_isDigit (s : List Char) (h : ∀ c ∈ s, c.isDigit = true) :
    (s.map fun c => c.toNat - 48).map Nat.digitChar = s
    ∧ ∀ d ∈ s.map fun c => c.toNat - 48, d < 10 := by
  constructor
  · rw [List.map_map]
    conv_rhs => rw [← List.map_id s]
    apply List.map_congr_left
    intro c hc
    exact (digitChar_of_isDigit c (h c hc)).2
  · intro d hd
    obtain ⟨c, hc, rfl⟩ := List.mem_map.1 hd
    exact (digitChar_of_isDigit c (h c hc)).1

/-- The sign that `Atoi` reads: the text is the sign followed by the rest. -/
theorem parseSign_spec (s : List Char) :
    ∃ sign : List Char, (sign = [] ∨ sign = ['+'] ∨ sign = ['-'])
      ∧ s = sign ++ (parseSign s).2 ∧ ((parseSign s).1 = true ↔ sign = ['-']) := by
  unfold parseSign
  split
  · exact ⟨['+'], by simp, by simp, by simp⟩
  · exact ⟨['-'], by simp, by simp, by simp⟩
  · exact ⟨[], by simp, by simp, by simp⟩

/-- The function `strconv.Atoi` accepts exactly the decimal numerals, with
their values. -/
theorem Atoi_iff (s : List Char) (n : Int) : Atoi s = some n ↔ IsDecimalOf s n := by
  constructor
  · intro h
    obtain ⟨sign, hsign, hs, hneg⟩ := parseSign_spec s
    unfold Atoi at h
    simp only at h
    by_cases h1 : (parseSign s).2 = [] ∨ ((parseSign s).2.any fun c => !c.isDigit) = true
    · rw [if_pos h1] at h
      exact absurd h (by simp)
    rw [if_neg h1] at h
    generalize hv : (if (parseSign s).1 = true then -((decimalValue (parseSign s).2 : Nat) : Int)
      else ((decimalValue (parseSign s).2 : Nat) : Int)) = v at h
    by_cases h2 : v < -(2 ^ 63) ∨ v > 2 ^ 63 - 1
    · rw [if_pos h2] at h
      exact absurd h (by simp)
    rw [if_neg h2] at h
    have hn : v = n := Option.some.inj h
    have hds : (parseSign s).2 ≠ [] := fun e => h1 (Or.inl e)
    have hdig : ∀ c ∈ (parseSign s).2, c.isDigit = true := by
      intro c hc
      by_contra hcon
      exact h1 (Or.inr (List.any_eq_true.2 ⟨c, hc, by simpa using hcon⟩))
    obtain ⟨hm, hlt⟩ := map_digitChar_of_isDigit _ hdig
    have hval := decimalValue_ofDigits _ hlt
    rw [hm] at hval
    have hrange : -(2 ^ 63) ≤ n ∧ n < 2 ^ 63 := by
      rw [← hn]
      constructor <;> omega
    unfold IsDecimalOf
    refine Exists.intro sign (Exists.intro ((parseSign s).2.map fun c => c.toNat - 48) ?_)
    refine And.intro hsign (And.intro ?_ ?_)
    · simpa using hds
    refine And.intro hlt (And.intro ?_ ?_)
    · rw [hm]; exact hs
    refine And.intro ?_ hrange
    rw [← hval, ← hn, ← hv]
    by_cases hb : (parseSign s).1 = true
    · rw [if_pos hb, if_pos (hneg.1 hb)]
    · rw [if_neg hb, if_neg (fun e => hb (hneg.2 e))]
  · intro h
    unfold IsDecimalOf at h
    obtain ⟨sign, ds, hsign, hne, hlt, hs, hn, hrange⟩ := h
    have hlo := hrange.1
    have hhi := hrange.2
    have hdig : ∀ c ∈ ds.map Nat.digitChar, c.isDigit = true := by
      intro c hc
      obtain ⟨d, hd, rfl⟩ := List.mem_map.1 hc
      exact (digitChar_decimal d (hlt d hd)).1
    have hps : parseSign s = (decide (sign = ['-']), ds.map Nat.digitChar) := by
      rcases hsign with rfl | rfl | rfl
      · rw [hs, List.nil_append, parseSign_digits _ hdig]
        simp
      · rw [hs]; rfl
      · rw [hs]; rfl
    have hany : (ds.map Nat.digitChar).any (fun c => !c.isDigit) = false := by
      rw [List.any_eq_false]
      intro c hc
      simp [hdig c hc]
    have hne2 : ds.map Nat.digitChar ≠ [] := by simpa using hne
    unfold Atoi
    simp only [hps, hne2, hany, false_or, Bool.false_eq_true, if_false,
      decimalValue_ofDigits ds hlt, decide_eq_true_eq]
    rw [← hn, if_neg (by omega)]

/-- The pieces of `strings.Split` have no separator, and joined by the
separator they give the text back. -/
theorem stringsSplit_spec (sep : Char) (l : List Char) :
    (∀ p ∈ stringsSplit sep l, sep ∉ p)
    ∧ ∃ p ps, stringsSplit sep l = p :: ps
      ∧ l = p ++ (ps.flatMap fun q => sep :: q) := by
  induction l with
  | nil => exact ⟨by simp [stringsSplit], [], [], rfl, rfl⟩
  | cons c cs ih =>
    obtain ⟨ih1, p, ps, hps, hl⟩ := ih
    rw [stringsSplit]
    by_cases h : c = sep
    · subst h
      rw [if_pos rfl]
      refine ⟨?_, [], p :: ps, by rw [hps], ?_⟩
      · intro q hq
        rcases List.mem_cons.1 hq with rfl | hq
        · simp
        · exact ih1 q hq
      · rw [List.flatMap_cons, List.nil_append, List.cons_append, ← hl]
    · rw [if_neg h, hps]
      refine ⟨?_, c :: p, ps, rfl, ?_⟩
      · intro q hq
        rcases List.mem_cons.1 hq with rfl | hq
        · intro hm
          rcases List.mem_cons.1 hm with e | hm
          · exact h e.symm
          · exact ih1 p (by rw [hps]; simp) hm
        · exact ih1 q (by rw [hps]; simp [hq])
      · rw [List.cons_append, ← hl]

/-- A text splits into exactly three parts when it is three texts without the
separator, joined by two separators. -/
theorem stringsSplit_three (sep : Char) (l p0 p1 p2 : List Char) :
    stringsSplit sep l = [p0, p1, p2]
      ↔ (l = p0 ++ sep :: (p1 ++ sep :: p2) ∧ sep ∉ p0 ∧ sep ∉ p1 ∧ sep ∉ p2) := by
  constructor
  · intro h
    obtain ⟨h1, p, ps, hps, hl⟩ := stringsSplit_spec sep l
    rw [h] at h1 hps
    obtain ⟨rfl, rfl⟩ := List.cons.inj hps
    refine ⟨?_, h1 p0 (by simp), h1 p1 (by simp), h1 p2 (by simp)⟩
    rw [hl]
    simp
  · rintro ⟨rfl, h0, h1, h2⟩
    rw [stringsSplit_append _ _ _ (fun d hd e => h0 (by rw [← e]; exact hd)),
      stringsSplit_append _ _ _ (fun d hd e => h1 (by rw [← e]; exact hd)),
      stringsSplit_none _ _ (fun d hd e => h2 (by rw [← e]; exact hd))]

/-- The loop of `path.Ext` on the reversed name: either it meets a dot before
any slash and returns the dot with what it passed over, or it meets a slash or
the end first and returns the empty text. -/
theorem extLoop_cases (l : List Char) : ∀ acc : List Char,
    (∃ a b, l = a ++ '.' :: b ∧ (∀ c ∈ a, c ≠ '.' ∧ c ≠ '/')
        ∧ extLoop l acc = '.' :: (a.reverse ++ acc))
    ∨ (extLoop l acc = [] ∧ ∃ a, (∀ c ∈ a, c ≠ '.' ∧ c ≠ '/')
        ∧ (l = a ∨ ∃ b, l = a ++ '/' :: b)) := by
  induction l with
  | nil => intro acc; exact Or.inr ⟨rfl, [], by simp, Or.inl rfl⟩
  | cons c cs ih =>
    intro acc
    rw [extLoop]
    by_cases h1 : c = '/'
    · rw [if_pos h1]
      exact Or.inr ⟨rfl, [], by simp, Or.inr ⟨cs, by simp [h1]⟩⟩
    rw [if_neg h1]
    by_cases h2 : c = '.'
    · rw [if_pos h2]
      exact Or.inl ⟨[], cs, by simp [h2], by simp, by simp [h2]⟩
    rw [if_neg h2]
    have hc : ∀ d ∈ c :: ([] : List Char), d ≠ '.' ∧ d ≠ '/' := by
      intro d hd
      rw [List.mem_singleton] at hd
      subst hd
      exact ⟨h2, h1⟩
    rcases ih (c :: acc) with ⟨a, b, hl, ha, he⟩ | ⟨he, a, ha, hl⟩
    · refine Or.inl ⟨c :: a, b, by simp [hl], ?_, ?_⟩
      · intro d hd
        rcases List.mem_cons.1 hd with rfl | hd
        · exact ⟨h2, h1⟩
        · exact ha d hd
      · rw [he]; simp
    · refine Or.inr ⟨he, c :: a, ?_, ?_⟩
      · intro d hd
        rcases List.mem_cons.1 hd with rfl | hd
        · exact ⟨h2, h1⟩
        · exact ha d hd
      · rcases hl with rfl | ⟨b, rfl⟩
        · exact Or.inl rfl
        · exact Or.inr ⟨b, by simp⟩

/-- The function `path.Ext` meets its specification: the name is the stem the
scan keeps followed by the extension. -/
theorem pathExt_spec (name : String) :
    ExtSplit name.data (name.data.take (name.length - (pathExt name).length))
      (pathExt name).data := by
  have hlen : name.length = name.data.length := rfl
  rcases extLoop_cases name.data.reverse [] with ⟨a, b, hl, ha, he⟩ | ⟨he, a, ha, hl⟩
  · have hn : name.data = b.reverse ++ '.' :: a.reverse := by
      have := congrArg List.reverse hl
      simpa using this
    have hext : (pathExt name).data = '.' :: a.reverse := by
      unfold pathExt
      rw [he]
      simp
    have hlen2 : (pathExt name).length = a.length + 1 := by
      show (pathExt name).data.length = _
      rw [hext]
      simp
    have htake : name.data.take (name.length - (pathExt name).length) = b.reverse := by
      rw [hlen, hlen2, hn]
      have : (b.reverse ++ '.' :: a.reverse).length - (a.length + 1) = b.reverse.length := by
        simp
      rw [this, List.take_left]
    rw [htake, hext]
    refine ⟨hn, Or.inl ⟨a.reverse, rfl, ?_, ?_⟩⟩
    · intro hm
      exact (ha '.' (List.mem_reverse.1 hm)).1 rfl
    · intro hm
      exact (ha '/' (List.mem_reverse.1 hm)).2 rfl
  · have hext : (pathExt name).data = [] := by
      unfold pathExt
      rw [he]
    have hlen2 : (pathExt name).length = 0 := by
      show (pathExt name).data.length = _
      rw [hext]
      rfl
    rw [hext, hlen2, Nat.sub_zero, hlen, List.take_length]
    refine ⟨by simp, Or.inr ⟨rfl, ?_⟩⟩
    intro x y hxy
    have hdot : '.' ∉ a.reverse := fun hm => (ha '.' (List.mem_reverse.1 hm)).1 rfl
    rcases hl with hl | ⟨b, hl⟩
    · have hn : name.data = a.reverse := by
        have := congrArg List.reverse hl
        simpa using this
      exact absurd (by rw [← hn, hxy]; simp) hdot
    · have hn : name.data = b.reverse ++ '/' :: a.reverse := by
        have := congrArg List.reverse hl
        simpa using this
      rw [hn] at hxy
      rcases List.append_eq_append_iff.1 hxy with ⟨t, _, ht⟩ | ⟨t, _, ht⟩
      · rcases t with _ | ⟨c, t⟩
        · simp at ht
        · rw [List.cons_append] at ht
          obtain ⟨_, ht2⟩ := List.cons.inj ht
          exact absurd (by rw [ht2]; simp) hdot
      · rcases t with _ | ⟨c, t⟩
        · simp at ht
        · rw [List.cons_append] at ht
          obtain ⟨_, ht2⟩ := List.cons.inj ht
          rw [ht2]
          simp

/-- The specification of the extension determines the stem and the extension:
they are what the scan computes with `path.Ext`. -/
theorem ExtSplit_unique (name : String) (stem ext : List Char)
    (h : ExtSplit name.data stem ext) :
    ext = (pathExt name).data
    ∧ stem = name.data.take (name.length - (pathExt name).length) := by
  obtain ⟨hn, hform⟩ := h
  have hlen : name.length = name.data.length := rfl
  have hname : name = String.mk (stem ++ ext) := by
    apply String.ext
    exact hn
  have hext : ext = (pathExt name).data := by
    rcases hform with ⟨e, rfl, he1, he2⟩ | ⟨rfl, hno⟩
    · rw [hname, pathExt_dot stem e (fun c hc => ⟨fun e1 => he1 (e1 ▸ hc), fun e2 => he2 (e2 ▸ hc)⟩)]
    · rcases extLoop_cases name.data.reverse [] with ⟨a, b, hl, ha, _⟩ | ⟨he, _⟩
      · have hn2 : name.data = b.reverse ++ '.' :: a.reverse := by
          have := congrArg List.reverse hl
          simpa using this
        have := hno _ _ hn2
        exact absurd rfl (ha '/' (List.mem_reverse.1 this)).2
      · unfold pathExt
        rw [he]
  refine ⟨hext, ?_⟩
  rw [hlen, hn]
  show stem = (stem ++ ext).take ((stem ++ ext).length - (pathExt name).data.length)
  rw [← hext]
  have : (stem ++ ext).length - ext.length = stem.length := by simp
  rw [this, List.take_left]

/-- What one turn of the scan loop reads from a name is what the name denotes
in the words of the specification. -/
theorem NameDenotes_iff (name : String) (t : Tile) : NameDenotes name t ↔ DenotesTile name t := by
  constructor
  · rintro ⟨p0, p1, p2, hs, h0, h1, h2⟩
    obtain ⟨hl, n0, n1, n2⟩ := (stringsSplit_three _ _ _ _ _).1 hs
    exact ⟨_, _, p0, p1, p2, pathExt_spec name, hl, n0, n1, n2,
      (Atoi_iff _ _).1 h0, (Atoi_iff _ _).1 h1, (Atoi_iff _ _).1 h2⟩
  · rintro ⟨stem, ext, p0, p1, p2, hsplit, hl, n0, n1, n2, h0, h1, h2⟩
    obtain ⟨-, hstem⟩ := ExtSplit_unique name stem ext hsplit
    refine ⟨p0, p1, p2, ?_, (Atoi_iff _ _).2 h0, (Atoi_iff _ _).2 h1, (Atoi_iff _ _).2 h2⟩
    rw [← hstem]
    exact (stringsSplit_three _ _ _ _ _).2 ⟨hl, n0, n1, n2⟩

/-- The decimal numeral "17" denotes 17, "24883" denotes 24883 and "49475"
denotes 49475. -/
theorem IsDecimalOf_reference :
    IsDecimalOf "17".data 17 ∧ IsDecimalOf "24883".data 24883
    ∧ IsDecimalOf "49475".data 49475 := by
  unfold IsDecimalOf
  refine ⟨⟨[], [1, 7], ?_⟩, ⟨[], [2, 4, 8, 8, 3], ?_⟩, ⟨[], [4, 9, 4, 7, 5], ?_⟩⟩
  · refine ⟨Or.inl rfl, by simp, by decide, rfl, by norm_num [Nat.ofDigits], by norm_num, by norm_num⟩
  · refine ⟨Or.inl rfl, by simp, by decide, rfl, by norm_num [Nat.ofDigits], by norm_num, by norm_num⟩
  · refine ⟨Or.inl rfl, by simp, by decide, rfl, by norm_num [Nat.ofDigits], by norm_num, by norm_num⟩

/-- The name of the reference tile of the repository's test denotes that tile,
in the words of the specification. -/
theorem DenotesTile_reference :
    DenotesTile "17-24883-49475.png" { X := 24883, Y := 49475, Zoom := 17 } := by
  obtain ⟨h0, h1, h2⟩ := IsDecimalOf_reference
  refine ⟨"17-24883-49475".data, ".png".data, "17".data, "24883".data, "49475".data,
    ⟨rfl, Or.inl ⟨"png".data, rfl, by decide, by decide⟩⟩, rfl, by decide, by decide, by decide,
    h0, h1, h2⟩

set_option maxRecDepth 8000 in
/-- C11: for every list of entry names of the storage directory and every
index, `loadCacheFlat` returns no error, and afterwards `Lookup` is true for a
tile exactly when it was true before or some name, after removing its
extension, consists of exactly three parts separated by `-` that are decimal
numerals of its zoom, x and y (`DenotesTile`, stated without the functions of
the scan); from the empty index, exactly the denoted tiles are present; a name
that denotes no tile leaves the index unchanged, and so does a scan of such
names. The name `17-24883-49475.png` denotes the tile (17, 24883, 49475), and
a scan of that name among names that denote nothing adds that tile and no
other. -/
theorem loadCacheFlat_scan :
    (∀ (names : List String) (cachedTiles : cacheLookupTable),
      ∃ index : cacheLookupTable,
        loadCacheFlat (some names) cachedTiles = some index
        ∧ (∀ t, index.Lookup t = true
            ↔ (cachedTiles.Lookup t = true ∨ ∃ name ∈ names, DenotesTile name t))
        ∧ (∀ t, (loadCacheFlat (some names) GoMap.empty).map (fun c => c.Lookup t) = some true
            ↔ ∃ name ∈ names, DenotesTile name t)
        ∧ (∀ name ∈ names, (∀ t, ¬ DenotesTile name t) →
            ∀ c : cacheLookupTable, loadCacheFlatStep c name = c)
        ∧ ((∀ name ∈ names, ∀ t, ¬ DenotesTile name t) → index = cachedTiles))
    ∧ DenotesTile "17-24883-49475.png" { X := 24883, Y := 49475, Zoom := 17 }
    ∧ (loadCacheFlat (some ["readme.txt", "17-24883-49475.png", "17-24883.png", "a-b-c.jpg"])
        GoMap.empty).map (fun c => (c.Lookup { X := 24883, Y := 49475, Zoom := 17 },
          c.Lookup { X := 24883, Y := 49475, Zoom := 18 }, c.Lookup { X := 49475, Y := 24883, Zoom := 17 }))
        = some (true, false, false) := by
  refine ⟨?_, DenotesTile_reference, by decide⟩
  intro names cachedTiles
  refine ⟨names.foldl loadCacheFlatStep cachedTiles, rfl, ?_, ?_, ?_, ?_⟩
  · intro t
    rw [loadCacheFlat_foldl names cachedTiles t]
    simp only [NameDenotes_iff]
  · intro t
    have h := loadCacheFlat_foldl names GoMap.empty t
    rw [Lookup_empty] at h
    simp only [loadCacheFlat, Option.map_some', Option.some.injEq]
    rw [h]
    simp [NameDenotes_iff]
  · intro name _ h c
    exact loadCacheFlatStep_skip c name (fun t ht => h t ((NameDenotes_iff name t).1 ht))
  · intro h
    exact loadCacheFlat_foldl_skip names cachedTiles
      (fun name hn t ht => h name hn t ((NameDenotes_iff name t).1 ht))

/-! ### The `float64` reading -/

/-- Rounding to the nearest integer moves a number by at most one half. -/
theorem roundEven_near {F : Type} [LinearOrderedField F] [FloorRing F] (q : F) :
    |((roundEven q : Int) : F) - q| ≤ 1 / 2 := by
  have h1 := Int.floor_le q
  have h2 := Int.lt_floor_add_one q
  unfold roundEven
  rw [abs_le]
  split_ifs with a b c
  · constructor <;> linarith
  · push_cast
    constructor <;> linarith
  · constructor <;> linarith
  · push_cast
    constructor <;> linarith

/-- An integer is its own rounding. -/
theorem roundEven_intCast {F : Type} [LinearOrderedField F] [FloorRing F] (m : Int) :
    roundEven (m : F) = m := by
  unfold roundEven
  rw [Int.floor_intCast, sub_self, if_pos (by norm_num)]

/-- A number within one half of an integer, and not a tie, rounds to it. -/
theorem roundEven_eq {F : Type} [LinearOrderedField F] [FloorRing F] (q : F) (m : Int)
    (h : |q - m| < 1 / 2) : roundEven q = m := by
  rw [abs_lt] at h
  have h1 := Int.floor_le q
  have h2 := Int.lt_floor_add_one q
  unfold roundEven
  by_cases hf : ⌊q⌋ = m
  · rw [hf, if_pos (by linarith)]
  · have hlt : ⌊q⌋ < m ∨ m < ⌊q⌋ := lt_or_gt_of_ne hf
    rcases hlt with hlt | hlt
    · have hm : ⌊q⌋ + 1 = m := by
        have h3 : (m : F) ≤ q + 1 / 2 := by linarith
        have h4 : ((⌊q⌋ : Int) : F) + 1 ≤ m := by exact_mod_cast hlt
        have h5 : (m : F) < ((⌊q⌋ : Int) : F) + 2 := by linarith
        have h6 : m < ⌊q⌋ + 2 := by exact_mod_cast h5
        omega
      have hq : (1 : F) / 2 < q - (⌊q⌋ : Int) := by
        have : ((m : Int) : F) = ((⌊q⌋ : Int) : F) + 1 := by rw [← hm]; push_cast; ring
        linarith
      rw [if_neg (by linarith), if_pos hq, hm]
    · exfalso
      have h4 : (m : F) + 1 ≤ ((⌊q⌋ : Int) : F) := by exact_mod_cast hlt
      linarith

/-- The exponent of a number between two consecutive powers of two. -/
theorem log_two_eq (x : ℝ) (e : Int) (h1 : (2 : ℝ) ^ e ≤ x) (h2 : x < (2 : ℝ) ^ (e + 1)) :
    Int.log 2 x = e := by
  have hx : 0 < x := lt_of_lt_of_le (zpow_pos (by norm_num) e) h1
  have a : e ≤ Int.log 2 x := by
    rw [← Int.zpow_le_iff_le_log (by norm_num) hx]
    exact_mod_cast h1
  have b : Int.log 2 x < e + 1 := by
    rw [← Int.lt_zpow_iff_log_lt (by norm_num) hx]
    exact_mod_cast h2
  omega

/-- Zero is a `float64`. -/
theorem float64Round_zero : float64Round (0 : ℝ) = 0 := by
  unfold float64Round
  rw [if_pos rfl]

/-- Rounding to `float64` moves a number by at most `2 ^ -53` of its size. -/
theorem float64Round_near (x : ℝ) : |float64Round x - x| ≤ (2 : ℝ) ^ (-53 : Int) * |x| := by
  unfold float64Round
  by_cases hx : x = 0
  · rw [if_pos hx, hx]; simp
  rw [if_neg hx]
  have hpos : 0 < |x| := abs_pos.2 hx
  have hlog : (2 : ℝ) ^ (Int.log 2 |x|) ≤ |x| := by
    have := Int.zpow_log_le_self (b := 2) (r := |x|) (by norm_num) hpos
    exact_mod_cast this
  set e := Int.log 2 |x| with he
  have hp : (0 : ℝ) < (2 : ℝ) ^ (e - 52) := zpow_pos (by norm_num) _
  have hr := roundEven_near (x / (2 : ℝ) ^ (e - 52))
  have e1 : ((roundEven (x / (2 : ℝ) ^ (e - 52)) : Int) : ℝ) * (2 : ℝ) ^ (e - 52) - x
      = (((roundEven (x / (2 : ℝ) ^ (e - 52)) : Int) : ℝ) - x / (2 : ℝ) ^ (e - 52))
        * (2 : ℝ) ^ (e - 52) := by
    field_simp
  rw [e1, abs_mul, abs_of_pos hp]
  have e2 : (2 : ℝ) ^ (e - 52) = (2 : ℝ) ^ e * (2 : ℝ) ^ (-52 : Int) := by
    rw [← zpow_add₀ (by norm_num)]
    congr 1
  have e3 : (2 : ℝ) ^ (-53 : Int) = 1 / 2 * (2 : ℝ) ^ (-52 : Int) := by
    rw [show (-53 : Int) = -1 + -52 by norm_num, zpow_add₀ (by norm_num)]
    norm_num
  have h52 : (0 : ℝ) < (2 : ℝ) ^ (-52 : Int) := zpow_pos (by norm_num) _
  calc |((roundEven (x / (2 : ℝ) ^ (e - 52)) : Int) : ℝ) - x / (2 : ℝ) ^ (e - 52)|
        * (2 : ℝ) ^ (e - 52)
      ≤ 1 / 2 * (2 : ℝ) ^ (e - 52) := mul_le_mul_of_nonneg_right hr hp.le
    _ = 1 / 2 * (2 : ℝ) ^ (-52 : Int) * (2 : ℝ) ^ e := by rw [e2]; ring
    _ ≤ 1 / 2 * (2 : ℝ) ^ (-52 : Int) * |x| :=
        mul_le_mul_of_nonneg_left hlog (by positivity)
    _ = (2 : ℝ) ^ (-53 : Int) * |x| := by rw [e3]

/-- A number within half a unit of `m * 2 ^ e`, in the range whose unit is
`2 ^ e`, rounds to `m * 2 ^ e`. -/
theorem float64Round_eq (x : ℝ) (m e : Int) (h1 : (2 : ℝ) ^ (e + 52) ≤ |x|)
    (h2 : |x| < (2 : ℝ) ^ (e + 53)) (h : |x / (2 : ℝ) ^ e - m| < 1 / 2) :
    float64Round x = (m : ℝ) * (2 : ℝ) ^ e := by
  have hx : x ≠ 0 := by
    intro h0
    rw [h0, abs_zero] at h1
    exact absurd h1 (not_le.2 (zpow_pos (by norm_num) _))
  have hl : Int.log 2 |x| = e + 52 := log_two_eq _ _ h1 (by rw [show e + 52 + 1 = e + 53 by ring]; exact h2)
  unfold float64Round
  rw [if_neg hx, hl, show e + 52 - 52 = e by ring, roundEven_eq _ m h]

/-- The number `m * 2 ^ e` with `2 ^ 52 <= |m| < 2 ^ 53` is a `float64`. -/
theorem float64Round_repr (m e : Int) (h1 : 2 ^ 52 ≤ |m|) (h2 : |m| < 2 ^ 53) :
    float64Round ((m : ℝ) * (2 : ℝ) ^ e) = (m : ℝ) * (2 : ℝ) ^ e := by
  have hp : (0 : ℝ) < (2 : ℝ) ^ e := zpow_pos (by norm_num) _
  have habs : |(m : ℝ) * (2 : ℝ) ^ e| = |(m : ℝ)| * (2 : ℝ) ^ e := by
    rw [abs_mul, abs_of_pos hp]
  have hm1 : (2 : ℝ) ^ (52 : Int) ≤ |(m : ℝ)| := by
    have : ((2 ^ 52 : Int) : ℝ) ≤ ((|m| : Int) : ℝ) := by exact_mod_cast h1
    rw [Int.cast_abs] at this
    calc (2 : ℝ) ^ (52 : Int) = ((2 ^ 52 : Int) : ℝ) := by norm_num
      _ ≤ _ := this
  have hm2 : |(m : ℝ)| < (2 : ℝ) ^ (53 : Int) := by
    have : ((|m| : Int) : ℝ) < ((2 ^ 53 : Int) : ℝ) := by exact_mod_cast h2
    rw [Int.cast_abs] at this
    calc |(m : ℝ)| < ((2 ^ 53 : Int) : ℝ) := this
      _ = _ := by norm_num
  apply float64Round_eq
  · rw [habs, zpow_add₀ (by norm_num), mul_comm]
    exact mul_le_mul_of_nonneg_right hm1 hp.le
  · rw [habs, zpow_add₀ (by norm_num), mul_comm ((2 : ℝ) ^ e)]
    exact mul_lt_mul_of_pos_right hm2 hp
  · rw [mul_div_assoc, div_self hp.ne', mul_one, sub_self, abs_zero]
    norm_num

/-- The logarithm of 2 to twenty decimals, from seventy terms of the series of
`log (1 - x)` at `x = 1/2`. -/
theorem log_two_near_20 :
    (69314718055994530941 / 10 ^ 20 : ℝ) < Real.log 2
    ∧ Real.log 2 < 69314718055994530943 / 10 ^ 20 := by
  have t : |(2⁻¹ : ℝ)| = 2⁻¹ := by rw [abs_of_pos]; norm_num
  have z := Real.abs_log_sub_add_sum_range_le (show |(2⁻¹ : ℝ)| < 1 by rw [t]; norm_num) 70
  rw [t] at z
  simp only [Finset.sum_range_succ, Finset.sum_range_zero] at z
  norm_num1 at z
  rw [one_div (2 : ℝ), Real.log_inv, abs_le] at z
  constructor
  · have := z.2
    norm_num1
    linarith
  · have := z.1
    norm_num1
    linarith

/-- Every `n * 2 ^ j` with an integer `|n| < 2 ^ 53` is a `float64`. -/
theorem float64Round_dyadic (n j : Int) (h : |n| < 2 ^ 53) :
    float64Round ((n : ℝ) * (2 : ℝ) ^ j) = (n : ℝ) * (2 : ℝ) ^ j := by
  have hp : (0 : ℝ) < (2 : ℝ) ^ j := zpow_pos (by norm_num) _
  by_cases hn : n = 0
  · rw [hn]; simp [float64Round_zero]
  have hx : (n : ℝ) * (2 : ℝ) ^ j ≠ 0 := mul_ne_zero (by exact_mod_cast hn) hp.ne'
  have hlt : |(n : ℝ) * (2 : ℝ) ^ j| < (2 : ℝ) ^ (53 + j) := by
    rw [abs_mul, abs_of_pos hp, zpow_add₀ (by norm_num)]
    apply mul_lt_mul_of_pos_right _ hp
    have : ((|n| : Int) : ℝ) < ((2 ^ 53 : Int) : ℝ) := by exact_mod_cast h
    rw [Int.cast_abs] at this
    calc |(n : ℝ)| < ((2 ^ 53 : Int) : ℝ) := this
      _ = _ := by norm_num
  have hk : Int.log 2 |(n : ℝ) * (2 : ℝ) ^ j| < 53 + j := by
    rw [← Int.lt_zpow_iff_log_lt (by norm_num) (abs_pos.2 hx)]
    exact_mod_cast hlt
  unfold float64Round
  rw [if_neg hx]
  set k := Int.log 2 |(n : ℝ) * (2 : ℝ) ^ j| with hkdef
  obtain ⟨d, hd⟩ : ∃ d : Nat, j - (k - 52) = d := ⟨(j - (k - 52)).toNat, by omega⟩
  have e1 : (n : ℝ) * (2 : ℝ) ^ j / (2 : ℝ) ^ (k - 52) = ((n * 2 ^ d : Int) : ℝ) := by
    rw [mul_div_assoc, ← zpow_sub₀ (by norm_num), hd, zpow_natCast]
    push_cast
    ring
  rw [e1, roundEven_intCast]
  push_cast
  rw [mul_assoc, ← zpow_natCast, ← zpow_add₀ (by norm_num), ← hd]
  congr 2
  ring

/-- A small integer is a `float64`. -/
theorem float64Round_intCast (n : Int) (h : |n| < 2 ^ 53) : float64Round (n : ℝ) = n := by
  have := float64Round_dyadic n 0 h
  simpa using this

/-- In the `float64` reading `math.Log(2)` is `6243314768165359 * 2 ^ -53`. -/
theorem float64Math_Log_two :
    float64Math.Log 2 = (6243314768165359 : Int) * (2 : ℝ) ^ (-53 : Int) := by
  obtain ⟨h1, h2⟩ := log_two_near_20
  show float64Round (Real.log 2) = _
  have hpos : 0 < Real.log 2 := by linarith
  apply float64Round_eq
  · rw [abs_of_pos hpos]
    norm_num
    linarith
  · rw [abs_of_pos hpos]
    norm_num
    linarith
  · rw [abs_lt]
    norm_num
    constructor <;> linarith

/-- In the `float64` reading `float64(17) * math.Log(2)` is
`6633521941175694 * 2 ^ -49`. -/
theorem float64Math_arg17 :
    float64Math.rnd (float64Math.rnd ((17 : Int) : ℝ) * float64Math.Log 2)
      = (6633521941175694 : Int) * (2 : ℝ) ^ (-49 : Int) := by
  rw [float64Math_Log_two]
  show float64Round (float64Round ((17 : Int) : ℝ) * _) = _
  rw [float64Round_intCast 17 (by norm_num)]
  apply float64Round_eq
  · rw [abs_of_pos (by positivity)]
    norm_num
  · rw [abs_of_pos (by positivity)]
    norm_num
  · rw [abs_lt]
    norm_num

/-- The exponential of the `float64` argument at zoom 17 lies below `2 ^ 17` by
more than half a unit of the last place, because the argument lies below
`17 * log 2`. -/
theorem exp_arg17_bounds :
    (2 : ℝ) ^ 17 - 1 / 2 ^ 20 ≤ Real.exp ((6633521941175694 : Int) * (2 : ℝ) ^ (-49 : Int))
    ∧ Real.exp ((6633521941175694 : Int) * (2 : ℝ) ^ (-49 : Int)) < (2 : ℝ) ^ 17 - 1 / 2 ^ 37 := by
  obtain ⟨h1, h2⟩ := log_two_near_20
  have e17 : Real.exp (17 * Real.log 2) = (2 : ℝ) ^ 17 := by
    rw [mul_comm, Real.exp_mul, Real.exp_log (by norm_num)]
    norm_num
  set x : ℝ := (6633521941175694 : Int) * (2 : ℝ) ^ (-49 : Int) with hx
  set d : ℝ := x - 17 * Real.log 2 with hd
  have hsplit : Real.exp x = (2 : ℝ) ^ 17 * Real.exp d := by
    rw [← e17, ← Real.exp_add]
    congr 1
    rw [hd]; ring
  have hd1 : -(3 / 10 ^ 16 : ℝ) ≤ d := by
    rw [hd, hx]
    norm_num
    linarith
  have hd2 : d ≤ -(27 / 10 ^ 17 : ℝ) := by
    rw [hd, hx]
    norm_num
    linarith
  have hlow : 1 + d ≤ Real.exp d := by
    have := Real.add_one_le_exp d
    linarith
  have hup : Real.exp d ≤ 1 / (1 - d) := by
    have h3 : 1 - d ≤ Real.exp (-d) := by
      have := Real.add_one_le_exp (-d)
      linarith
    have h4 : 0 < 1 - d := by linarith
    rw [Real.exp_neg] at h3
    rw [le_div_iff₀ h4]
    have h5 : 0 < Real.exp d := Real.exp_pos d
    have h6 : (1 - d) * Real.exp d ≤ (Real.exp d)⁻¹ * Real.exp d :=
      mul_le_mul_of_nonneg_right h3 h5.le
    rw [inv_mul_cancel₀ h5.ne'] at h6
    linarith
  have hup2 : 1 / (1 - d) ≤ 1 - 26 / 10 ^ 17 := by
    rw [div_le_iff₀ (by linarith)]
    nlinarith
  rw [hsplit]
  constructor
  · have : (2 : ℝ) ^ 17 * (1 + d) ≤ (2 : ℝ) ^ 17 * Real.exp d :=
      mul_le_mul_of_nonneg_left hlow (by positivity)
    norm_num at this ⊢
    linarith
  · have : (2 : ℝ) ^ 17 * Real.exp d ≤ (2 : ℝ) ^ 17 * (1 - 26 / 10 ^ 17) :=
      mul_le_mul_of_nonneg_left (le_trans hup hup2) (by positivity)
    norm_num at this ⊢
    linarith

/-- In the `float64` reading the scale `math.Exp(float64(17) * math.Log(2))` is
a `float64` just below `2 ^ 17`: it is `n * 2 ^ -36` with
`2 ^ 53 - 2 ^ 17 <= n <= 2 ^ 53 - 1`. -/
theorem float64Math_scale17 :
    ∃ n : Int, float64Math.Exp (float64Math.rnd (float64Math.rnd ((17 : Int) : ℝ)
        * float64Math.Log 2)) = (n : ℝ) * (2 : ℝ) ^ (-36 : Int)
      ∧ 2 ^ 53 - 2 ^ 17 ≤ n ∧ n ≤ 2 ^ 53 - 1 := by
  rw [float64Math_arg17]
  obtain ⟨h1, h2⟩ := exp_arg17_bounds
  set y := Real.exp ((6633521941175694 : Int) * (2 : ℝ) ^ (-49 : Int)) with hy
  have hpos : 0 < y := Real.exp_pos _
  have hl : Int.log 2 |y| = 16 := by
    apply log_two_eq
    · rw [abs_of_pos hpos]
      norm_num at h1 ⊢
      linarith
    · rw [abs_of_pos hpos]
      norm_num at h2 ⊢
      linarith
  have hE : float64Math.Exp ((6633521941175694 : Int) * (2 : ℝ) ^ (-49 : Int))
      = ((roundEven (y / (2 : ℝ) ^ (-36 : Int)) : Int) : ℝ) * (2 : ℝ) ^ (-36 : Int) := by
    show float64Round y = _
    unfold float64Round
    rw [if_neg hpos.ne', hl]
    norm_num
  refine ⟨roundEven (y / (2 : ℝ) ^ (-36 : Int)), hE, ?_, ?_⟩
  · have hr := roundEven_near (y / (2 : ℝ) ^ (-36 : Int))
    rw [abs_le] at hr
    have hq : (2 : ℝ) ^ 53 - 2 ^ 16 ≤ y / (2 : ℝ) ^ (-36 : Int) := by
      norm_num at h1 ⊢
      linarith
    have : ((2 ^ 53 - 2 ^ 17 : Int) : ℝ) ≤ ((roundEven (y / (2 : ℝ) ^ (-36 : Int)) : Int) : ℝ) := by
      push_cast
      linarith [hr.1]
    exact_mod_cast this
  · have hr := roundEven_near (y / (2 : ℝ) ^ (-36 : Int))
    rw [abs_le] at hr
    have hq : y / (2 : ℝ) ^ (-36 : Int) < (2 : ℝ) ^ 53 - 1 / 2 := by
      norm_num at h2 ⊢
      linarith
    have : ((roundEven (y / (2 : ℝ) ^ (-36 : Int)) : Int) : ℝ) < ((2 ^ 53 : Int) : ℝ) := by
      push_cast
      linarith [hr.2]
    have : roundEven (y / (2 : ℝ) ^ (-36 : Int)) < 2 ^ 53 := by exact_mod_cast this
    omega

/-- The `float64` reading rounds with `float64Round`. -/
theorem float64Math_rnd (x : ℝ) : float64Math.rnd x = float64Round x := rfl

/-- In the `float64` reading the x pixel and the y pixel of the point (0, 0) at
zoom 17 are both `2 ^ 24 - 1`: the scale is below `2 ^ 17`. -/
theorem float64Math_pixels_origin :
    lonToXPixels float64Math 0 17 = 16777215 ∧ latToYPixels float64Math 0 17 = 16777215 := by
  obtain ⟨n, hn, h1, h2⟩ := float64Math_scale17
  rw [float64Math_rnd, float64Math_rnd] at hn
  have h128 : (((TILESIZE / 2 : Int)) : ℝ) = (2 : ℝ) ^ (7 : Int) := by
    have : (TILESIZE / 2 : Int) = 128 := by decide
    rw [this]; norm_num
  have e : (n : ℝ) * (2 : ℝ) ^ (-36 : Int) * (((TILESIZE / 2 : Int)) : ℝ)
      = (n : ℝ) * (2 : ℝ) ^ (-29 : Int) := by
    rw [h128, mul_assoc, ← zpow_add₀ (by norm_num)]
    norm_num
  have hd := float64Round_dyadic n (-29) (by rw [abs_lt]; constructor <;> omega)
  have hfl : goInt (goFloor ((n : ℝ) * (2 : ℝ) ^ (-29 : Int))) = 16777215 := by
    rw [goInt_goFloor, Int.floor_eq_iff]
    have hn1 : ((2 ^ 53 - 2 ^ 17 : Int) : ℝ) ≤ (n : ℝ) := by exact_mod_cast h1
    have hn2 : (n : ℝ) ≤ ((2 ^ 53 - 1 : Int) : ℝ) := by exact_mod_cast h2
    push_cast at hn1 hn2
    norm_num
    constructor <;> linarith
  have hsin : float64Math.Sin 0 = 0 := by
    show float64Round (Real.sin 0) = 0
    rw [Real.sin_zero, float64Round_zero]
  have hatanh : float64Math.Atanh 0 = 0 := by
    show float64Round (Real.log ((1 + 0) / (1 - 0)) / 2) = 0
    norm_num [float64Round_zero]
  constructor
  · unfold lonToXPixels
    simp only [hn, e, float64Math_rnd, zero_mul, float64Round_zero, zero_div, zero_add, hd, hfl]
  · unfold latToYPixels
    simp only [hn, e, hsin, hatanh, float64Math_rnd, zero_mul, float64Round_zero, zero_div,
      neg_zero, zero_add, hd, hfl]

/-- In the `float64` reading the point (0, 0) lies in tile (65535, 65535) at zoom
17, not in the tile (65536, 65536) of the formula with the scale `2 ^ 17`. -/
theorem getMercatorFromGPS_float64_origin :
    getMercatorFromGPS float64Math { Lat := 0, Lon := 0 } 17
      = { X := 65535, Y := 65535, Zoom := 17 } := by
  obtain ⟨hx, hy⟩ := float64Math_pixels_origin
  have hrad : toRad float64Math 0 = 0 := by
    unfold toRad
    simp only [float64Math_rnd, zero_mul, float64Round_zero, zero_div]
  have hmax : goInt (float64Math.Pow 2 (float64Math.rnd ((17 : Int) : ℝ))) = 131072 := by
    show goInt (float64Round ((2 : ℝ) ^ (float64Round ((17 : Int) : ℝ)))) = 131072
    rw [float64Round_intCast 17 (by norm_num)]
    have e : (2 : ℝ) ^ (((17 : Int) : ℝ)) = ((131072 : Int) : ℝ) := by
      rw [show (((17 : Int) : ℝ)) = ((17 : Nat) : ℝ) by norm_num, Real.rpow_natCast]
      norm_num
    rw [e, float64Round_intCast _ (by norm_num), goInt_intCast]
  have hdiv : goInt (goFloor (float64Math.rnd (float64Math.rnd (16777215 : ℝ) / 256)))
      = 65535 := by
    have e0 : (16777215 : ℝ) = ((16777215 : Int) : ℝ) := by norm_num
    rw [float64Math_rnd, float64Math_rnd, e0, float64Round_intCast _ (by norm_num)]
    have e : ((16777215 : Int) : ℝ) / 256
        = ((16777215 : Int) : ℝ) * (2 : ℝ) ^ (-8 : Int) := by
      norm_num
    rw [e, float64Round_dyadic _ _ (by norm_num), goInt_goFloor, Int.floor_eq_iff]
    norm_num
  unfold getMercatorFromGPS
  simp only [hrad, hx, hy, hmax]
  simp [TILESIZE, hdiv]

/-- The `float64` reading is accurate to the relative error `2 ^ -50`. -/
theorem float64Math_accurate : Accurate ((2 : ℝ) ^ (-50 : Int)) float64Math := by
  have hle : ∀ a : ℝ, 0 ≤ a → (2 : ℝ) ^ (-53 : Int) * a ≤ (2 : ℝ) ^ (-50 : Int) * a := by
    intro a ha
    apply mul_le_mul_of_nonneg_right _ ha
    norm_num
  have hr : ∀ x : ℝ, |float64Round x - x| ≤ (2 : ℝ) ^ (-50 : Int) * |x| :=
    fun x => le_trans (float64Round_near x) (hle _ (abs_nonneg x))
  have hpi := Real.pi_pos
  refine ⟨hr, ?_, ?_, fun x => hr _, fun x => hr _, ?_, ?_, ?_⟩
  · have := hr Real.pi
    rwa [abs_of_pos hpi] at this
  · have := hr (2 * Real.pi)
    rwa [abs_of_pos (show (0 : ℝ) < 2 * Real.pi by linarith)] at this
  · intro x
    have := hr (Real.exp x)
    rwa [abs_of_pos (Real.exp_pos x)] at this
  · have := hr (Real.log 2)
    rwa [abs_of_pos (Real.log_pos (by norm_num))] at this
  · intro n hn
    show float64Round ((2 : ℝ) ^ (float64Round ((n : Int) : ℝ))) = (2 : ℝ) ^ n
    have h53 : |((n : Nat) : Int)| < 2 ^ 53 := by
      rw [abs_of_nonneg (by omega)]
      omega
    rw [float64Round_intCast _ h53]
    have e : (2 : ℝ) ^ ((((n : Nat) : Int)) : ℝ) = ((1 : Int) : ℝ) * (2 : ℝ) ^ ((n : Nat) : Int) := by
      rw [Int.cast_natCast, Real.rpow_natCast, zpow_natCast]
      simp
    rw [e, float64Round_dyadic 1 _ (by norm_num), zpow_natCast]
    simp

end Cartego
